import Mathlib

/-!
# czmicrostl: `cz::vector` over an explicit heap

A shallow embedding of `src/impl/vector.h`.  Raw memory is modelled as a list of
allocations, each a list of element slots.  A slot is either never constructed
(`raw`, the `0xCD` fill of `_allocate`), holds a constructed object (`live`), or was
destroyed (`dead`, the `0xDD` poison written by `_destroySingle`/`_destroyRange`,
since the header fixes `CZ_DEBUG` to 1).  Undefined behaviour and failed
`CZ_VECTOR_ASSERT`s are the `none` result.

`size_t` is modelled by `Nat`: every subtraction in the header is guarded by an assertion
or a branch, and the allocator is taken to succeed on every request (a failed `malloc`
is fatal in the source), so slot counts stay far below the range of `size_t`.
-/

set_option autoImplicit false

namespace cz

/-- One element slot of an allocation. -/
inductive Cell (T : Type) where
  | raw : Cell T
  | live : T → Cell T
  | dead : Cell T
deriving DecidableEq, Repr

/-- Counters of the element operations and allocator calls performed so far. -/
structure Stats where
  defaultCtor : Nat := 0
  ctor : Nat := 0
  copyCtor : Nat := 0
  moveCtor : Nat := 0
  copyAssign : Nat := 0
  moveAssign : Nat := 0
  dtor : Nat := 0
  allocs : Nat := 0
  frees : Nat := 0
deriving DecidableEq, Repr

/-- The heap: allocation `b` is `mem[b]`, `none` once it was freed. -/
structure Heap (T : Type) where
  mem : List (Option (List (Cell T))) := []
  stats : Stats := {}
deriving DecidableEq, Repr

/-- A `T*`: the allocation pointed into (`none` for a pointer derived from `nullptr`)
and the element offset inside it. -/
structure Ptr where
  base : Option Nat
  off : Nat
deriving DecidableEq, Repr

/-- Pointer arithmetic `p + k`. -/
def Ptr.add (p : Ptr) (k : Nat) : Ptr := { p with off := p.off + k }

/-- Pointer arithmetic `p - k`; stepping before the start of the allocation is undefined. -/
def Ptr.sub (p : Ptr) (k : Nat) : Option Ptr :=
  if k ≤ p.off then some { p with off := p.off - k } else none

/-- The pointer difference `last - first` cast to `size_type`; defined only for two
pointers into the same array with `first <= last`. -/
def Ptr.diff (last first : Ptr) : Option Nat :=
  if first.base = last.base ∧ first.off ≤ last.off then some (last.off - first.off) else none

/-- Static properties of the element type `T` that the header queries with
`if constexpr`, the value a default construction produces, and the value a non-trivial
move leaves behind in its source. -/
structure ElemType (T : Type) where
  dflt : T
  movedFrom : T → T
  trivCopyCtor : Bool
  trivMoveCtor : Bool
  trivCopyAssign : Bool
  trivMoveAssign : Bool
  trivDtor : Bool
  trivCopyable : Bool

/-- What a reference argument refers to: an object outside the modelled heap (a local
or temporary of the caller, given by its value) or a slot of the heap. -/
inductive Ref (T : Type) where
  | ext : T → Ref T
  | slot : Ptr → Ref T
deriving DecidableEq, Repr

/-- Constructor arguments `Args&&...`: the empty pack (default construction), arguments
from which a converting constructor builds the given value, a `const T&` (copy
construction) or a `T&&` (move construction). -/
inductive Arg (T : Type) where
  | dflt : Arg T
  | make : T → Arg T
  | copy : Ref T → Arg T
  | move : Ref T → Arg T
deriving DecidableEq, Repr

section Memory
variable {T : Type}

/-- The allocation a pointer base refers to, when it is live. -/
def Heap.block? (h : Heap T) (b : Nat) : Option (List (Cell T)) :=
  match h.mem[b]? with
  | some (some blk) => some blk
  | _ => none

/-- The slot a pointer refers to, when it lies inside a live allocation. -/
def Heap.cell? (h : Heap T) (p : Ptr) : Option (Cell T) :=
  match p.base with
  | none => none
  | some b =>
    match h.block? b with
    | some blk => blk[p.off]?
    | none => none

/-- Reading an object through a pointer: the slot must hold a constructed object. -/
def Heap.load (h : Heap T) (p : Ptr) : Option T :=
  match h.cell? p with
  | some (Cell.live v) => some v
  | _ => none

/-- Overwriting the slot a pointer refers to. -/
def Heap.store (h : Heap T) (p : Ptr) (c : Cell T) : Option (Heap T) :=
  match p.base with
  | none => none
  | some b =>
    match h.block? b with
    | some blk =>
      if p.off < blk.length then
        some { h with mem := h.mem.set b (some (blk.set p.off c)) }
      else none
    | none => none

/-- Writing a run of slots starting at `p`, front to back. -/
def Heap.storeCells (h : Heap T) (p : Ptr) : List (Cell T) → Option (Heap T)
  | [] => some h
  | c :: cs => do
    let h1 ← h.store p c
    h1.storeCells (p.add 1) cs

/-- Reading `n` consecutive slots starting at `p`. -/
def Heap.loadCells (h : Heap T) (p : Ptr) : Nat → Option (List (Cell T))
  | 0 => some []
  | n + 1 => do
    let c ← h.cell? p
    let cs ← h.loadCells (p.add 1) n
    pure (c :: cs)

/-- The libc call `memmove(dest, src, n * sizeof(T))`: the source run is read in full
before the destination is written, so overlapping runs are handled. -/
def Heap.memmove (h : Heap T) (dest src : Ptr) (n : Nat) : Option (Heap T) := do
  let cs ← h.loadCells src n
  h.storeCells dest cs

/-- The `memset(p, 0xDD, n * sizeof(T))` of the debug poisoning. -/
def Heap.poison (h : Heap T) (p : Ptr) (n : Nat) : Option (Heap T) :=
  h.storeCells p (List.replicate n Cell.dead)

/-- Member `VectorAllocator::_alloc` for `n` slots: a fresh allocation, distinct from every
earlier one, filled with `0xCD` by `_allocate`. -/
def Heap.alloc (h : Heap T) (n : Nat) : Nat × Heap T :=
  (h.mem.length,
   { mem := h.mem ++ [some (List.replicate n Cell.raw)],
     stats := { h.stats with allocs := h.stats.allocs + 1 } })

/-- Member `VectorAllocator::_free`: `free(nullptr)` does nothing; freeing anything but a
live allocation is undefined. -/
def Heap.free (h : Heap T) (p : Option Nat) : Option (Heap T) :=
  match p with
  | none => some h
  | some b =>
    match h.block? b with
    | some _ =>
      some { mem := h.mem.set b none,
             stats := { h.stats with frees := h.stats.frees + 1 } }
    | none => none

/-- Applying a change to the counters. -/
def Heap.tick (h : Heap T) (f : Stats → Stats) : Heap T := { h with stats := f h.stats }

/-- Reading the object a reference argument refers to. -/
def Heap.evalRef (h : Heap T) : Ref T → Option T
  | Ref.ext x => some x
  | Ref.slot p => h.load p

/-- The source of a non-trivial move is left holding its moved-from value. -/
def Heap.leaveMoved (E : ElemType T) (h : Heap T) : Ref T → T → Option (Heap T)
  | Ref.ext _, _ => some h
  | Ref.slot p, x => h.store p (Cell.live (E.movedFrom x))

/-- The value a constructor call `T(args...)` builds, and the heap after the call. -/
def Heap.evalArg (E : ElemType T) (h : Heap T) : Arg T → Option (T × Heap T)
  | Arg.dflt => some (E.dflt, h.tick fun s => { s with defaultCtor := s.defaultCtor + 1 })
  | Arg.make x => some (x, h.tick fun s => { s with ctor := s.ctor + 1 })
  | Arg.copy r => do
    let x ← h.evalRef r
    pure (x, h.tick fun s => { s with copyCtor := s.copyCtor + 1 })
  | Arg.move r => do
    let x ← h.evalRef r
    let h1 ← h.leaveMoved E r x
    pure (x, h1.tick fun s => { s with moveCtor := s.moveCtor + 1 })

end Memory


/-! ## `detail::base_vector<T>`: construction primitives -/

section BaseVector
variable {T : Type}

/-- Source `_constructSingle(at, args...)`: placement-new of one element. -/
def _constructSingle (E : ElemType T) (h : Heap T) (at_ : Ptr) (args : Arg T) :
    Option (Heap T) := do
  let (x, h1) ← h.evalArg E args
  h1.store at_ (Cell.live x)

/-- Source `_constructN(at, count, args...)`: `while (count--)` placement-new and step. -/
def _constructN (E : ElemType T) : Nat → Ptr → Arg T → Heap T → Option (Heap T)
  | 0, _, _, h => some h
  | count + 1, at_, args, h => do
    let h1 ← _constructSingle E h at_ args
    _constructN E count (at_.add 1) args h1

/-- The element-wise loop of `_copyConstructRange`: `new(dest) T(*first)` for
`n = last - first` rounds. -/
def copyConstructLoop (E : ElemType T) : Nat → Ptr → Ptr → Heap T → Option (Heap T)
  | 0, _, _, h => some h
  | n + 1, first, dest, h => do
    let h1 ← _constructSingle E h dest (Arg.copy (Ref.slot first))
    copyConstructLoop E n (first.add 1) (dest.add 1) h1

/-- Source `_copyConstructRange(first, last, dest)`. -/
def _copyConstructRange (E : ElemType T) (h : Heap T) (first last dest : Ptr) :
    Option (Heap T) := do
  let n ← last.diff first
  if E.trivCopyCtor then h.memmove dest first n
  else copyConstructLoop E n first dest h

/-- The destructor call `pos->~T()`: the object's lifetime ends. -/
def destroyAt (h : Heap T) (pos : Ptr) : Option (Heap T) := do
  let _ ← h.load pos
  let h1 ← h.store pos Cell.dead
  pure (h1.tick fun s => { s with dtor := s.dtor + 1 })

/-- The destructor calls of `_destroyRange`, for `n = last - first` rounds. -/
def destroyLoop : Nat → Ptr → Heap T → Option (Heap T)
  | 0, _, h => some h
  | n + 1, first, h => do
    let h1 ← destroyAt h first
    destroyLoop n (first.add 1) h1

/-- Source `_destroySingle(pos)`: destructor call unless trivial, then the debug poison. -/
def _destroySingle (E : ElemType T) (h : Heap T) (pos : Ptr) : Option (Heap T) := do
  let h1 ← (if E.trivDtor then some h else destroyAt h pos)
  h1.poison pos 1

/-- Source `_destroyRange(first, last)`. -/
def _destroyRange (E : ElemType T) (h : Heap T) (first last : Ptr) : Option (Heap T) := do
  let n ← last.diff first
  let h1 ← (if E.trivDtor then some h else destroyLoop n first h)
  h1.poison first n

/-- The element-wise loop of `_moveConstructRange`. -/
def moveConstructLoop (E : ElemType T) : Nat → Ptr → Ptr → Heap T → Option (Heap T)
  | 0, _, _, h => some h
  | n + 1, first, dest, h => do
    let h1 ← _constructSingle E h dest (Arg.move (Ref.slot first))
    moveConstructLoop E n (first.add 1) (dest.add 1) h1

/-- Source `_moveConstructRange(first, last, dest)`; the source slots are not destroyed. -/
def _moveConstructRange (E : ElemType T) (h : Heap T) (first last dest : Ptr) :
    Option (Heap T) := do
  let n ← last.diff first
  if E.trivMoveCtor then h.memmove dest first n
  else moveConstructLoop E n first dest h

/-- The statement `*dest = *first` for a `const T&` source. -/
def copyAssignAt (h : Heap T) (dest : Ptr) (src : Ref T) : Option (Heap T) := do
  let x ← h.evalRef src
  let _ ← h.load dest
  let h1 ← h.store dest (Cell.live x)
  pure (h1.tick fun s => { s with copyAssign := s.copyAssign + 1 })

/-- The statement `*dest = std::move(*first)`. -/
def moveAssignAt (E : ElemType T) (h : Heap T) (dest : Ptr) (src : Ref T) :
    Option (Heap T) := do
  let x ← h.evalRef src
  let _ ← h.load dest
  let h1 ← h.leaveMoved E src x
  let h2 ← h1.store dest (Cell.live x)
  pure (h2.tick fun s => { s with moveAssign := s.moveAssign + 1 })

/-- The element-wise loop of `_copyAssignRange`. -/
def copyAssignLoop : Nat → Ptr → Ptr → Heap T → Option (Heap T)
  | 0, _, _, h => some h
  | n + 1, first, dest, h => do
    let h1 ← copyAssignAt h dest (Ref.slot first)
    copyAssignLoop n (first.add 1) (dest.add 1) h1

/-- Source `_copyAssignRange(first, last, dest)`; returns the heap and `dest + count`. -/
def _copyAssignRange (E : ElemType T) (h : Heap T) (first last dest : Ptr) :
    Option (Heap T × Ptr) := do
  let n ← last.diff first
  let h1 ← (if E.trivCopyAssign then h.memmove dest first n
            else copyAssignLoop n first dest h)
  pure (h1, dest.add n)

/-- The element-wise loop of `_moveAssignRange`. -/
def moveAssignLoop (E : ElemType T) : Nat → Ptr → Ptr → Heap T → Option (Heap T)
  | 0, _, _, h => some h
  | n + 1, first, dest, h => do
    let h1 ← moveAssignAt E h dest (Ref.slot first)
    moveAssignLoop E n (first.add 1) (dest.add 1) h1

/-- Source `_moveAssignRange(first, last, dest)`; returns the heap and `dest + count`. -/
def _moveAssignRange (E : ElemType T) (h : Heap T) (first last dest : Ptr) :
    Option (Heap T × Ptr) := do
  let n ← last.diff first
  let h1 ← (if E.trivMoveAssign then h.memmove dest first n
            else moveAssignLoop E n first dest h)
  pure (h1, dest.add n)

/-- The element-wise loop of `_moveAssignBackwardRange`: `--dest; --last;
*dest = std::move(*last)`; returns the heap and the final `dest`. -/
def moveAssignBackwardLoop (E : ElemType T) : Nat → Ptr → Ptr → Heap T →
    Option (Heap T × Ptr)
  | 0, _, dest, h => some (h, dest)
  | n + 1, last, dest, h => do
    let dest1 ← dest.sub 1
    let last1 ← last.sub 1
    let h1 ← moveAssignAt E h dest1 (Ref.slot last1)
    moveAssignBackwardLoop E n last1 dest1 h1

/-- Source `_moveAssignBackwardRange(first, last, dest)`: moves `[first, last)` to
`[..., dest)`; returns the heap and the returned pointer. -/
def _moveAssignBackwardRange (E : ElemType T) (h : Heap T) (first last dest : Ptr) :
    Option (Heap T × Ptr) := do
  let n ← last.diff first
  if E.trivMoveAssign then do
    let d ← dest.sub n
    let h1 ← h.memmove d first n
    pure (h1, dest)
  else moveAssignBackwardLoop E n last dest h

/-- Source `_allocate(capacity)`: `nullptr` for zero slots, else a fresh allocation. -/
def _allocate (h : Heap T) (capacity : Nat) : Option Nat × Heap T :=
  if capacity = 0 then (none, h)
  else
    let r := h.alloc capacity
    (some r.1, r.2)

end BaseVector

/-! ## `cz::vector<T>` -/

/-- The three data members of `cz::vector<T>`. -/
structure vector where
  m_data : Option Nat := none
  m_capacity : Nat := 0
  m_size : Nat := 0
deriving DecidableEq, Repr

section Vector
variable {T : Type}

namespace vector

/-- Source `_ptrAt(index)`; `_refAt(index)` is the same position used as a reference. -/
def _ptrAt (v : vector) (index : Nat) : Ptr := { base := v.m_data, off := index }

/-- Source `_ptrToIndex(pos)`: `pos - (T*)m_data`, defined for pointers into the buffer. -/
def _ptrToIndex (v : vector) (pos : Ptr) : Option Nat := pos.diff (v._ptrAt 0)

/-- The check `CZ_VECTOR_CHECK_ITERATOR(iter)`: `begin() <= iter <= end()`. -/
def checkIterator (v : vector) (iter : Ptr) : Bool :=
  iter.base = v.m_data && iter.off ≤ v.m_size

/-- The check `CZ_VECTOR_CHECK_ITERATOR_DEREFERANCEABLE(iter)`: `begin() <= iter < end()`. -/
def checkIteratorDereferanceable (v : vector) (iter : Ptr) : Bool :=
  iter.base = v.m_data && iter.off < v.m_size

/-- The check `CZ_VECTOR_CHECK_ITERATOR_RANGE(first, last)`. -/
def checkIteratorRange (v : vector) (first last : Ptr) : Bool :=
  first.base = last.base && first.off ≤ last.off && first.base = v.m_data &&
    last.off ≤ v.m_size

/-- The check `CZ_VECTOR_CHECK_ITERATOR_EXTERNAL_RANGE(first, last)`: a range of another
allocation lies wholly before or after the buffer; a range of the buffer's own
allocation passes only at or past `_ptrAt(m_capacity)`. -/
def checkIteratorExternalRange (v : vector) (first last : Ptr) : Bool :=
  first.base = last.base && first.off ≤ last.off &&
    (first.base != v.m_data || v.m_capacity ≤ first.off)

/-- An assertion: a failed one ends the run. -/
def assert (c : Bool) : Option Unit := if c then some () else none

/-- Source `begin()`. -/
def begin_ (v : vector) : Ptr := v._ptrAt 0

/-- Source `end()`. -/
def end_ (v : vector) : Ptr := v._ptrAt v.m_size

/-- Source `size()`. -/
def size (v : vector) : Nat := v.m_size

/-- Source `capacity()`. -/
def capacity (v : vector) : Nat := v.m_capacity

/-- Source `empty()`. -/
def empty (v : vector) : Bool := if v.m_size = 0 then true else false

/-- Source `data()`. -/
def data (v : vector) : Option Nat := v.m_data

/-- Source `operator[](pos)`: the referenced position, after the bounds assertion. -/
def index (v : vector) (pos : Nat) : Option Ptr := do
  assert (pos < v.m_size)
  pure (v._ptrAt pos)

/-- Source `front()`. -/
def front (v : vector) : Option Ptr := do
  assert (v.m_size != 0)
  pure (v._ptrAt 0)

/-- Source `back()`. -/
def back (v : vector) : Option Ptr := do
  assert (v.m_size != 0)
  pure (v._ptrAt (v.m_size - 1))

/-- The value of `v[pos]`: the reference of `operator[]` read. -/
def get (h : Heap T) (v : vector) (pos : Nat) : Option T := do
  let p ← v.index pos
  h.load p

/-- The values of `v[0], ..., v[n-1]` read front to back. -/
def readElems (h : Heap T) (v : vector) : Nat → Option (List T)
  | 0 => some []
  | n + 1 => do
    let xs ← readElems h v n
    let x ← h.load (v._ptrAt n)
    pure (xs ++ [x])

/-- The sequence the vector holds: `v[0], ..., v[size()-1]`. -/
def toList (h : Heap T) (v : vector) : Option (List T) := readElems h v v.m_size

/-- Source `_changeArray(newVec, newSize, newCapacity)`. -/
def _changeArray (E : ElemType T) (h : Heap T) (v : vector) (newVec : Option Nat)
    (newSize newCapacity : Nat) : Option (Heap T × vector) := do
  let h2 ← (match v.m_data with
    | some _ => do
      let h1 ← _destroyRange E h (v._ptrAt 0) (v._ptrAt v.m_size)
      h1.free v.m_data
    | none => some h)
  pure (h2, { m_data := newVec, m_size := newSize, m_capacity := newCapacity })

/-- Source `_tidy()`. -/
def _tidy (E : ElemType T) (h : Heap T) (v : vector) : Option (Heap T × vector) :=
  match v.m_data with
  | some _ => do
    let h1 ← _destroyRange E h (v._ptrAt 0) (v._ptrAt v.m_size)
    let h2 ← h1.free v.m_data
    pure (h2, { m_data := none, m_size := 0, m_capacity := 0 })
  | none => some (h, v)

/-- Source `_setCapacity(newCapacity)`. -/
def _setCapacity (E : ElemType T) (h : Heap T) (v : vector) (newCapacity : Nat) :
    Option (Heap T × vector) := do
  assert (v.m_size ≤ newCapacity)
  if newCapacity = v.m_capacity then
    pure (h, v)
  else if newCapacity = 0 then do
    let h1 ← h.free v.m_data
    pure (h1, { v with m_data := none, m_capacity := 0 })
  else do
    let a := _allocate h newCapacity
    let newVec : Ptr := { base := a.1, off := 0 }
    let h2 ← (if v.m_size != 0 then do
        let oldFirst := v._ptrAt 0
        let oldLast := v._ptrAt v.m_size
        let h1 ← _moveConstructRange E a.2 oldFirst oldLast newVec
        _destroyRange E h1 oldFirst oldLast
      else some a.2)
    let h3 ← h2.free v.m_data
    pure (h3, { v with m_data := a.1, m_capacity := newCapacity })

/-- Source `_clear()`. -/
def _clear (E : ElemType T) (h : Heap T) (v : vector) : Option (Heap T × vector) :=
  if v.m_size != 0 then do
    let h1 ← _destroyRange E h (v._ptrAt 0) (v._ptrAt v.m_size)
    pure (h1, { v with m_size := 0 })
  else some (h, v)

/-- Source `_clearAndSetCapacity(newCapacity)`. -/
def _clearAndSetCapacity (E : ElemType T) (h : Heap T) (v : vector) (newCapacity : Nat) :
    Option (Heap T × vector) := do
  let r ← _clear E h v
  _setCapacity E r.1 r.2 newCapacity

/-- Source `_emplace_back_with_unused_capacity(args...)`: returns the heap, the vector
and the position of the new element. -/
def _emplace_back_with_unused_capacity (E : ElemType T) (h : Heap T) (v : vector)
    (args : Arg T) : Option (Heap T × vector × Ptr) := do
  let ptr := v._ptrAt v.m_size
  let h1 ← _constructSingle E h ptr args
  pure (h1, { v with m_size := v.m_size + 1 }, ptr)

/-- Source `vector()`: the empty vector; nothing is allocated. -/
def ctor_default : vector := {}

/-- Source `vector(size_type count)`. -/
def ctor_count (E : ElemType T) (h : Heap T) (count : Nat) : Option (Heap T × vector) := do
  let a := _allocate h count
  let v : vector := { m_data := a.1, m_capacity := count, m_size := count }
  let h1 ← _constructN E count (v._ptrAt 0) Arg.dflt a.2
  pure (h1, v)

/-- Source `vector(size_type count, const T& value)`. -/
def ctor_count_value (E : ElemType T) (h : Heap T) (count : Nat) (value : Ref T) :
    Option (Heap T × vector) := do
  let a := _allocate h count
  let v : vector := { m_data := a.1, m_capacity := count, m_size := count }
  let h1 ← _constructN E count (v._ptrAt 0) (Arg.copy value) a.2
  pure (h1, v)

/-- Source `vector(const vector& other)`: the buffer is obtained for `other.m_size`
slots, `m_capacity` is initialised from `other.m_capacity`. -/
def ctor_copy (E : ElemType T) (h : Heap T) (other : vector) : Option (Heap T × vector) := do
  let a := _allocate h other.m_size
  let v : vector :=
    { m_data := a.1, m_capacity := other.m_capacity, m_size := other.m_size }
  let h1 ← _copyConstructRange E a.2 (other._ptrAt 0) (other._ptrAt other.m_size)
    (v._ptrAt 0)
  pure (h1, v)

/-- Source `vector(vector&& other)`: returns the new vector and `other` afterwards. -/
def ctor_move (other : vector) : vector × vector :=
  ({ m_data := other.m_data, m_capacity := other.m_capacity, m_size := other.m_size },
   { m_data := none, m_capacity := 0, m_size := 0 })

/-- Source `~vector()`. -/
def dtor (E : ElemType T) (h : Heap T) (v : vector) : Option (Heap T × vector) :=
  _tidy E h v

/-- Source `reserve(newCapacity)`. -/
def reserve (E : ElemType T) (h : Heap T) (v : vector) (newCapacity : Nat) :
    Option (Heap T × vector) :=
  if v.m_capacity < newCapacity then _setCapacity E h v newCapacity else some (h, v)

/-- Source `shrink_to_fit()`. -/
def shrink_to_fit (E : ElemType T) (h : Heap T) (v : vector) : Option (Heap T × vector) :=
  _setCapacity E h v v.m_size

/-- Source `clear()`. -/
def clear (E : ElemType T) (h : Heap T) (v : vector) : Option (Heap T × vector) :=
  _clear E h v

/-- Source `emplace_back(args...)`: returns the heap, the vector and the reference to
the new element. -/
def emplace_back (E : ElemType T) (h : Heap T) (v : vector) (args : Arg T) :
    Option (Heap T × vector × Ptr) := do
  let r ← (if v.m_size = v.m_capacity then _setCapacity E h v (v.m_capacity + 1)
           else some (h, v))
  _emplace_back_with_unused_capacity E r.1 r.2 args

/-- Source `_emplace_reallocate(pos, args...)`. -/
def _emplace_reallocate (E : ElemType T) (h : Heap T) (v : vector) (pos : Ptr)
    (args : Arg T) : Option (Heap T × vector × Ptr) := do
  assert (v.m_size = v.m_capacity)
  let newSize := v.m_size + 1
  let newCapacity := newSize
  let posIndex ← v._ptrToIndex pos
  let a := _allocate h newCapacity
  let newVec : Ptr := { base := a.1, off := 0 }
  let h1 ← _constructSingle E a.2 (newVec.add posIndex) args
  let h3 ← (if posIndex = v.m_size then
      _moveConstructRange E h1 (v._ptrAt 0) (v._ptrAt v.m_size) newVec
    else do
      let h2 ← _moveConstructRange E h1 (v._ptrAt 0) (v._ptrAt posIndex) newVec
      _moveConstructRange E h2 (v._ptrAt posIndex) (v._ptrAt v.m_size)
        ((newVec.add posIndex).add 1))
  let r ← _changeArray E h3 v a.1 newSize newCapacity
  pure (r.1, r.2, r.2._ptrAt posIndex)

/-- Source `emplace(pos, args...)`: returns the heap, the vector and the returned
iterator. -/
def emplace (E : ElemType T) (h : Heap T) (v : vector) (pos : Ptr) (args : Arg T) :
    Option (Heap T × vector × Ptr) := do
  assert (v.checkIterator pos)
  if v.m_size < v.m_capacity then
    if pos = v._ptrAt v.m_size then
      _emplace_back_with_unused_capacity E h v args
    else do
      let (value, h1) ← h.evalArg E args
      let h2 ← _constructSingle E h1 (v._ptrAt v.m_size)
        (Arg.move (Ref.slot (v._ptrAt (v.m_size - 1))))
      let r ← _moveAssignBackwardRange E h2 pos (v._ptrAt (v.m_size - 1))
        (v._ptrAt v.m_size)
      let v1 : vector := { v with m_size := v.m_size + 1 }
      let h4 ← moveAssignAt E r.1 pos (Ref.ext value)
      let h5 := if E.trivDtor then h4 else h4.tick fun s => { s with dtor := s.dtor + 1 }
      pure (h5, v1, pos)
  else
    _emplace_reallocate E h v pos args

/-- Source `insert(pos, const T& value)`. -/
def insert (E : ElemType T) (h : Heap T) (v : vector) (pos : Ptr) (value : Ref T) :
    Option (Heap T × vector × Ptr) :=
  emplace E h v pos (Arg.copy value)

/-- Source `insert(pos, T&& value)`. -/
def insert_move (E : ElemType T) (h : Heap T) (v : vector) (pos : Ptr) (value : Ref T) :
    Option (Heap T × vector × Ptr) :=
  emplace E h v pos (Arg.move value)

/-- Source `erase(const T* _pos)`. -/
def erase (E : ElemType T) (h : Heap T) (v : vector) (pos : Ptr) :
    Option (Heap T × vector × Ptr) := do
  assert (v.checkIteratorDereferanceable pos)
  let r ← _moveAssignRange E h (pos.add 1) (v._ptrAt v.m_size) pos
  let h2 ← _destroySingle E r.1 (v._ptrAt (v.m_size - 1))
  pure (h2, { v with m_size := v.m_size - 1 }, pos)

/-- Source `erase(const T* _first, const T* _last)`. -/
def erase_range (E : ElemType T) (h : Heap T) (v : vector) (first last : Ptr) :
    Option (Heap T × vector × Ptr) := do
  assert (v.checkIteratorRange first last)
  if first ≠ last then do
    assert (v.checkIteratorDereferanceable first)
    assert (v.checkIterator last)
    let r ← _moveAssignRange E h last (v._ptrAt v.m_size) first
    let h2 ← _destroyRange E r.1 r.2 (v._ptrAt v.m_size)
    let d ← last.diff first
    pure (h2, { v with m_size := v.m_size - d }, first)
  else
    pure (h, v, first)

/-- Source `_assign_range(first, last)`. -/
def _assign_range (E : ElemType T) (h : Heap T) (v : vector) (first last : Ptr) :
    Option (Heap T × vector) := do
  let newSize ← last.diff first
  if E.trivCopyable then do
    let r ← (if v.m_capacity < newSize then _clearAndSetCapacity E h v newSize
             else some (h, v))
    let h1 ← r.1.memmove (r.2._ptrAt 0) first newSize
    pure (h1, { r.2 with m_size := newSize })
  else if v.m_size < newSize then do
    let r ← (if v.m_capacity < newSize then _clearAndSetCapacity E h v newSize
             else some (h, v))
    let r1 ← _copyAssignRange E r.1 first (first.add r.2.m_size) (r.2._ptrAt 0)
    let h2 ← _copyConstructRange E r1.1 (first.add r.2.m_size) last
      (r.2._ptrAt r.2.m_size)
    pure (h2, { r.2 with m_size := newSize })
  else do
    let r1 ← _copyAssignRange E h first last (v._ptrAt 0)
    let h2 ← _destroyRange E r1.1 (v._ptrAt newSize) (v._ptrAt v.m_size)
    pure (h2, { v with m_size := newSize })

/-- Source `assign(first, last)`. -/
def assign (E : ElemType T) (h : Heap T) (v : vector) (first last : Ptr) :
    Option (Heap T × vector) := do
  assert (v.checkIteratorExternalRange first last)
  _assign_range E h v first last

/-- Source `operator=(const vector& other)`; `other = none` stands for `&other == this`. -/
def assign_copy (E : ElemType T) (h : Heap T) (v : vector) (other : Option vector) :
    Option (Heap T × vector) :=
  match other with
  | some o => assign E h v o.begin_ o.end_
  | none => some (h, v)

/-- Source `operator=(vector&& other)`; `other = none` stands for `&other == this`.
Returns the heap, `*this` and `other` afterwards. -/
def assign_move (E : ElemType T) (h : Heap T) (v : vector) (other : Option vector) :
    Option (Heap T × vector × Option vector) :=
  match other with
  | some o => do
    let r ← _tidy E h v
    pure (r.1, { m_data := o.m_data, m_size := o.m_size, m_capacity := o.m_capacity },
      some { m_data := none, m_size := 0, m_capacity := 0 })
  | none => some (h, v, none)

/-- Source `push_back(const T& value)`. -/
def push_back (E : ElemType T) (h : Heap T) (v : vector) (value : Ref T) :
    Option (Heap T × vector) := do
  let r ← emplace_back E h v (Arg.copy value)
  pure (r.1, r.2.1)

/-- Source `push_back(T&& value)`. -/
def push_back_move (E : ElemType T) (h : Heap T) (v : vector) (value : Ref T) :
    Option (Heap T × vector) := do
  let r ← emplace_back E h v (Arg.move value)
  pure (r.1, r.2.1)

/-- Source `pop_back()`. -/
def pop_back (E : ElemType T) (h : Heap T) (v : vector) : Option (Heap T × vector) := do
  assert (0 < v.m_size)
  let h1 ← _destroyRange E h (v._ptrAt (v.m_size - 1)) (v._ptrAt v.m_size)
  pure (h1, { v with m_size := v.m_size - 1 })

/-- The loop of `std::equal(first1, last1, first2)` for `n = last1 - first1` rounds. -/
def equalLoop [DecidableEq T] (h : Heap T) : Nat → Ptr → Ptr → Option Bool
  | 0, _, _ => some true
  | n + 1, first1, first2 => do
    let x ← h.load first1
    let y ← h.load first2
    if x = y then equalLoop h n (first1.add 1) (first2.add 1) else pure false

/-- Source `operator==(a, b)`. -/
def eq [DecidableEq T] (h : Heap T) (a b : vector) : Option Bool :=
  if a.m_size ≠ b.m_size then some false
  else do
    let n ← (a._ptrAt a.m_size).diff (a._ptrAt 0)
    equalLoop h n (a._ptrAt 0) (b._ptrAt 0)

/-- Source `operator!=(a, b)`. -/
def ne [DecidableEq T] (h : Heap T) (a b : vector) : Option Bool := do
  let r ← eq h a b
  pure (!r)

end vector

end Vector

/-! ## `std::unique_ptr<T>` of `unique_ptr.h` -/

/-- The data member of `unique_ptr<T>`: the owned pointer, `none` for `nullptr` (the
default member initialiser). -/
structure unique_ptr where
  m_ptr : Option Nat := none
deriving DecidableEq, Repr

namespace unique_ptr

/-- Source `get()`. -/
def get (u : unique_ptr) : Option Nat := u.m_ptr

/-- Source `swap(other)`: `tmp = m_ptr; m_ptr = other.m_ptr; other.m_ptr = tmp`.  Returns
`*this` and `other` afterwards. -/
def swap (self other : unique_ptr) : unique_ptr × unique_ptr :=
  let tmp := self.m_ptr
  ({ m_ptr := other.m_ptr }, { m_ptr := tmp })

/-- Source `release()`: returns the pointer and the wrapper afterwards. -/
def release (u : unique_ptr) : Option Nat × unique_ptr :=
  let result := u.m_ptr
  (result, { m_ptr := none })

/-- Source `unique_ptr(unique_ptr&& other)`: `this->swap(other)` on a wrapper whose
`m_ptr` holds its default `nullptr`.  Returns the new wrapper and `other` afterwards. -/
def ctor_move (other : unique_ptr) : unique_ptr × unique_ptr :=
  swap {} other

/-- Source `operator=(unique_ptr&& other)` for `&other != this`: `other.swap(*this)`.
Returns `*this` and `other` afterwards. -/
def assign_move (self other : unique_ptr) : unique_ptr × unique_ptr :=
  let r := swap other self
  (r.2, r.1)

end unique_ptr

/-! ## Element types of the test-suite -/

/-- The element type `int`: every operation is trivial, a move is a copy. -/
def intElem : ElemType Int :=
  { dflt := 0, movedFrom := id, trivCopyCtor := true, trivMoveCtor := true,
    trivCopyAssign := true, trivMoveAssign := true, trivDtor := true, trivCopyable := true }

/-- The element type `Foo` of the tests, identified with its field `a`: no operation is
trivial, and a move sets the source's `a` to 0.  (The tests number default-constructed
`Foo`s from a global counter; here a default-constructed `Foo` has `a = 0`.) -/
def fooElem : ElemType Int :=
  { dflt := 0, movedFrom := fun _ => 0, trivCopyCtor := false, trivMoveCtor := false,
    trivCopyAssign := false, trivMoveAssign := false, trivDtor := false,
    trivCopyable := false }

/-! ## Client code: runs of calls and concrete states -/

section Clients
variable {T : Type}

/-- A run of `push_back` calls in order.  Each call gives the overload used (`true` for
`push_back(T&&)`, `false` for `push_back(const T&)`) and the pushed value, an object
outside the heap. -/
def vector.push_back_all (E : ElemType T) :
    Heap T → vector → List (Bool × T) → Option (Heap T × vector)
  | h, v, [] => some (h, v)
  | h, v, c :: cs => do
    let r ← (if c.1 then v.push_back_move E h (Ref.ext c.2)
             else v.push_back E h (Ref.ext c.2))
    vector.push_back_all E r.1 r.2 cs

end Clients

/-- A heap with one buffer of four slots, the first three holding `10, 20, 30`. -/
def heapSpare : Heap Int :=
  { mem := [some [Cell.live 10, Cell.live 20, Cell.live 30, Cell.raw]] }

/-- The vector `{10, 20, 30}` with capacity 4 in `heapSpare`. -/
def vecSpare : vector := { m_data := some 0, m_capacity := 4, m_size := 3 }

/-- A heap with one buffer of three slots holding `10, 20, 30`. -/
def heapFull : Heap Int :=
  { mem := [some [Cell.live 10, Cell.live 20, Cell.live 30]] }

/-- The vector `{10, 20, 30}` with capacity 3 in `heapFull`. -/
def vecFull : vector := { m_data := some 0, m_capacity := 3, m_size := 3 }

/-- A heap with one buffer of five slots holding `1, 2, 3, 4, 5`. -/
def heapFive : Heap Int :=
  { mem := [some [Cell.live 1, Cell.live 2, Cell.live 3, Cell.live 4, Cell.live 5]] }

/-- The vector `{1, 2, 3, 4, 5}` with capacity 5 in `heapFive`. -/
def vecFive : vector := { m_data := some 0, m_capacity := 5, m_size := 5 }

/-- A heap with two buffers: four slots, the first three holding `10, 20, 30`, and two
slots holding `1, 2`. -/
def heapTwo : Heap Int :=
  { mem := [some [Cell.live 10, Cell.live 20, Cell.live 30, Cell.raw],
            some [Cell.live 1, Cell.live 2]] }

/-- The vector `{1, 2}` with capacity 2 in `heapTwo`; `vecSpare` is the other vector
of that heap. -/
def vecOther : vector := { m_data := some 1, m_capacity := 2, m_size := 2 }

/-- A heap with two buffers: four slots, the first three holding `10, 20, 30`, and five
slots holding `1, 2, 3, 4, 5`. -/
def heapPair : Heap Int :=
  { mem := [some [Cell.live 10, Cell.live 20, Cell.live 30, Cell.raw],
            some [Cell.live 1, Cell.live 2, Cell.live 3, Cell.live 4, Cell.live 5]] }

/-- The vector `{1, 2, 3, 4, 5}` with capacity 5 in `heapPair`; `vecSpare` is the other
vector of that heap. -/
def vecFiveB : vector := { m_data := some 1, m_capacity := 5, m_size := 5 }

/-- A heap with two buffers holding `10, 20, 30`: one of four slots, one of three. -/
def heapTwin : Heap Int :=
  { mem := [some [Cell.live 10, Cell.live 20, Cell.live 30, Cell.raw],
            some [Cell.live 10, Cell.live 20, Cell.live 30]] }

/-- The vector `{10, 20, 30}` with capacity 3 in `heapTwin`; `vecSpare`, with
capacity 4, is the other vector of that heap. -/
def vecTwin : vector := { m_data := some 1, m_capacity := 3, m_size := 3 }

/-- The program `vector<int> other; other.reserve(4); other.push_back(1);
other.push_back(2);` run on the empty heap. -/
def otherSpare : Option (Heap Int × vector) := do
  let r ← vector.ctor_default.reserve intElem {} 4
  let r ← r.2.push_back intElem r.1 (Ref.ext 1)
  r.2.push_back intElem r.1 (Ref.ext 2)

/-- The program `vector<int> other; other.reserve(4);` run on the empty heap. -/
def otherReserved : Option (Heap Int × vector) :=
  vector.ctor_default.reserve intElem {} 4

/-! ## Specification vocabulary -/

section Vocabulary
variable {T : Type}

/-- Applying a function to the object a slot holds, if any. -/
def Cell.map (f : T → T) : Cell T → Cell T
  | Cell.live x => Cell.live (f x)
  | c => c

/-- Number of slots of allocation `b`, when it is live. -/
def Heap.slots? (h : Heap T) (b : Nat) : Option Nat := (h.block? b).map List.length

/-- Number of slots of the buffer a data pointer refers to; none for `nullptr`. -/
def Heap.bufferSlots (h : Heap T) (d : Option Nat) : Option Nat :=
  match d with
  | none => some 0
  | some b => h.slots? b

/-- The slot `q` lies in the run of `n` slots starting at `start`. -/
def Ptr.within (q start : Ptr) (n : Nat) : Prop :=
  q.base = start.base ∧ start.off ≤ q.off ∧ q.off < start.off + n

instance instDecidableWithin (q start : Ptr) (n : Nat) : Decidable (q.within start n) :=
  inferInstanceAs (Decidable (_ ∧ _ ∧ _))

/-- What `_moveConstructRange` leaves in a source slot: the value itself on the
`memmove` path, the moved-from value on the element-wise path. -/
def ElemType.afterMoveCtor (E : ElemType T) : T → T :=
  if E.trivMoveCtor then id else E.movedFrom

/-- What `_moveAssignRange` and `_moveAssignBackwardRange` leave in a source slot. -/
def ElemType.afterMoveAssign (E : ElemType T) : T → T :=
  if E.trivMoveAssign then id else E.movedFrom

/-- Two heaps with the same allocations of the same sizes. -/
def Heap.Frame (h h' : Heap T) : Prop :=
  h'.mem.length = h.mem.length ∧ ∀ b, h'.slots? b = h.slots? b

/-- The slot `p` holds a constructed object. -/
def Heap.isLive (h : Heap T) (p : Ptr) : Prop := ∃ x, h.cell? p = some (Cell.live x)

/-- A loop of `n` rounds that transfers `*first` to `*dest` and steps both forward. -/
def fwdLoop (st : Heap T → Ptr → Ptr → Option (Heap T)) :
    Nat → Ptr → Ptr → Heap T → Option (Heap T)
  | 0, _, _, h => some h
  | n + 1, first, dest, h => do
    let h1 ← st h dest first
    fwdLoop st n (first.add 1) (dest.add 1) h1

/-- A loop of `n` rounds that steps `last` and `dest` back and then transfers `*last` to
`*dest`; returns the heap and the final `dest`. -/
def bwdLoop (st : Heap T → Ptr → Ptr → Option (Heap T)) :
    Nat → Ptr → Ptr → Heap T → Option (Heap T × Ptr)
  | 0, _, dest, h => some (h, dest)
  | n + 1, last, dest, h => do
    let dest1 ← dest.sub 1
    let last1 ← last.sub 1
    let h1 ← st h dest1 last1
    bwdLoop st n last1 dest1 h1

/-- What one round of a transfer loop does: it needs a constructed source and a
destination slot satisfying `ok`, writes the source's value to the destination, leaves
`r x` in the source, and changes the counters by `f`. -/
structure StepSpec (st : Heap T → Ptr → Ptr → Option (Heap T)) (r : T → T)
    (ok : Cell T → Prop) (f : Stats → Stats) : Prop where
  ok_live : ∀ y, ok (Cell.live y)
  step : ∀ (h : Heap T) (dest src : Ptr) (x : T) (c : Cell T),
    h.cell? src = some (Cell.live x) → h.cell? dest = some c → ok c →
    ∃ h1, st h dest src = some h1 ∧ h.Frame h1 ∧ h1.stats = f h.stats ∧
      ∀ q, h1.cell? q =
        if q = dest then some (Cell.live x)
        else if q = src then some (Cell.live (r x)) else h.cell? q

/-- Constructor arguments that do not refer to the modelled heap and from which the
element `x` is built. -/
def Arg.Builds (E : ElemType T) (args : Arg T) (x : T) : Prop :=
  ∃ f : Stats → Stats, ∀ h : Heap T, h.evalArg E args = some (x, h.tick f)

/-- Constructor arguments from which, evaluated in the heap `h`, the element `x` is
built without any slot being written. -/
def Arg.BuildsAt (E : ElemType T) (h : Heap T) (args : Arg T) (x : T) : Prop :=
  ∃ f : Stats → Stats, h.evalArg E args = some (x, h.tick f)

/-- Constructor arguments that build `x` without writing a slot, in `h` and in every
heap that agrees with `h` on the slots of the allocations live in `h`: arguments outside
the heap, or a `const T&` to a slot of `h` that holds `x`. -/
def Arg.Reads (E : ElemType T) (h : Heap T) (args : Arg T) (x : T) : Prop :=
  ∀ h' : Heap T, (∀ q, (h.cell? q).isSome → h'.cell? q = h.cell? q) →
    Arg.BuildsAt E h' args x

/-- Number of destructor calls made for `n` elements: none when `T` is trivially
destructible. -/
def ElemType.dtorCalls (E : ElemType T) (n : Nat) : Nat := if E.trivDtor then 0 else n

/-- Number of copy-constructor calls made by `_copyConstructRange` for `n` elements: none
on the `memmove` path. -/
def ElemType.copyCtorCalls (E : ElemType T) (n : Nat) : Nat :=
  if E.trivCopyCtor then 0 else n

/-- Number of copy-assignment calls made by `_copyAssignRange` for `n` elements: none on
the `memmove` path. -/
def ElemType.copyAssignCalls (E : ElemType T) (n : Nat) : Nat :=
  if E.trivCopyAssign then 0 else n

/-- The counters after `_clearAndSetCapacity` on a vector whose capacity is too small:
the live elements are destroyed, one buffer is allocated and the old one, if any, is
freed. -/
def vector.grownStats (E : ElemType T) (v : vector) (st : Stats) : Stats :=
  { st with dtor := st.dtor + E.dtorCalls v.m_size, allocs := st.allocs + 1,
            frees := st.frees + (if v.m_capacity = 0 then 0 else 1) }

/-- The counters after `_assign_range` of `n` elements, branch by branch. -/
def vector.assignStats (E : ElemType T) (v : vector) (n : Nat) (st : Stats) : Stats :=
  if E.trivCopyable then
    (if v.m_capacity < n then v.grownStats E st else st)
  else if v.m_size < n then
    (if v.m_capacity < n then
      { v.grownStats E st with copyCtor := st.copyCtor + E.copyCtorCalls n }
    else
      { st with copyAssign := st.copyAssign + E.copyAssignCalls v.m_size,
                copyCtor := st.copyCtor + E.copyCtorCalls (n - v.m_size) })
  else
    { st with copyAssign := st.copyAssign + E.copyAssignCalls n,
              dtor := st.dtor + E.dtorCalls (v.m_size - n) }

/-- The vector `v` is well formed in heap `h` and holds the sequence `s`: its size is
the length of `s`, `size <= capacity`, the data pointer is null exactly when the
capacity is 0, the owned buffer has exactly `capacity` slots, and slot `i` holds `s[i]`. -/
structure Owns (h : Heap T) (v : vector) (s : List T) : Prop where
  size_eq : v.m_size = s.length
  size_le : v.m_size ≤ v.m_capacity
  null_iff : v.m_data = none ↔ v.m_capacity = 0
  slots : h.bufferSlots v.m_data = some v.m_capacity
  elems : ∀ i x, s[i]? = some x → h.cell? (v._ptrAt i) = some (Cell.live x)

end Vocabulary

/-! ## Heap lemmas -/
section HeapLemmas
variable {T : Type}

theorem Heap.Frame.refl (h : Heap T) : h.Frame h := ⟨rfl, fun _ => rfl⟩

theorem Heap.Frame.trans {h1 h2 h3 : Heap T} (a : h1.Frame h2) (b : h2.Frame h3) :
    h1.Frame h3 :=
  ⟨b.1.trans a.1, fun x => (b.2 x).trans (a.2 x)⟩

theorem Heap.block?_set (h : Heap T) (b b' : Nat) (x : Option (List (Cell T)))
    (s : Stats) (hb : b < h.mem.length) :
    Heap.block? { mem := h.mem.set b x, stats := s } b' =
      if b' = b then x else h.block? b' := by
  unfold Heap.block?
  simp only [List.getElem?_set]
  by_cases hbb : b' = b
  · subst hbb
    simp [hb]
    cases x <;> rfl
  · have : ¬ b = b' := fun e => hbb e.symm
    simp [hbb, this]

theorem Heap.block?_lt {h : Heap T} {b : Nat} {blk : List (Cell T)}
    (hb : h.block? b = some blk) : b < h.mem.length := by
  unfold Heap.block? at hb
  by_contra hc
  rw [List.getElem?_eq_none (by omega)] at hb
  simp at hb

theorem Heap.cell?_none_base (h : Heap T) (o : Nat) : h.cell? ⟨none, o⟩ = none := rfl

theorem Heap.cell?_of_block {h : Heap T} {b : Nat} {blk : List (Cell T)}
    (hb : h.block? b = some blk) (o : Nat) : h.cell? ⟨some b, o⟩ = blk[o]? := by
  simp [Heap.cell?, hb]

theorem Heap.cell?_of_block_none {h : Heap T} {b : Nat}
    (hb : h.block? b = none) (o : Nat) : h.cell? ⟨some b, o⟩ = none := by
  simp [Heap.cell?, hb]

theorem Heap.cell?_lt {h : Heap T} {b o : Nat} {c : Cell T}
    (hc : h.cell? ⟨some b, o⟩ = some c) : b < h.mem.length := by
  cases hb : h.block? b with
  | none => rw [Heap.cell?_of_block_none hb] at hc; cases hc
  | some blk => exact Heap.block?_lt hb

theorem Heap.cell?_of_slots {h : Heap T} {b n : Nat} (hs : h.slots? b = some n) (o : Nat) :
    (h.cell? ⟨some b, o⟩).isSome ↔ o < n := by
  unfold Heap.slots? at hs
  cases hb : h.block? b with
  | none => simp [hb] at hs
  | some blk =>
    simp only [hb, Option.map_some', Option.some.injEq] at hs
    subst hs
    rw [Heap.cell?_of_block hb]
    constructor
    · intro hsome
      by_contra hc
      rw [List.getElem?_eq_none (by omega)] at hsome
      simp at hsome
    · intro hlt
      rw [List.getElem?_eq_getElem hlt]
      rfl

theorem Heap.store_spec {h : Heap T} {p : Ptr} {c0 : Cell T} (hc : h.cell? p = some c0)
    (c : Cell T) :
    ∃ h', h.store p c = some h' ∧ h.Frame h' ∧ h'.stats = h.stats ∧
      ∀ q, h'.cell? q = if q = p then some c else h.cell? q := by
  obtain ⟨pb, po⟩ := p
  cases pb with
  | none => simp [Heap.cell?] at hc
  | some b =>
    cases hblk : h.block? b with
    | none => rw [Heap.cell?_of_block_none hblk] at hc; cases hc
    | some blk =>
      rw [Heap.cell?_of_block hblk] at hc
      have hlt : po < blk.length := by
        by_contra hcon
        rw [List.getElem?_eq_none (by omega)] at hc
        simp at hc
      have hb := Heap.block?_lt hblk
      refine ⟨{ mem := h.mem.set b (some (blk.set po c)), stats := h.stats }, ?_, ?_, rfl, ?_⟩
      · simp [Heap.store, hblk, hlt]
      · refine ⟨by simp, fun b' => ?_⟩
        unfold Heap.slots?
        rw [Heap.block?_set h b b' _ _ hb]
        by_cases hbb : b' = b
        · subst hbb; simp [hblk]
        · simp [hbb]
      · intro q
        obtain ⟨qb, qo⟩ := q
        cases qb with
        | none => simp [Heap.cell?]
        | some b' =>
          simp only [Heap.cell?, Heap.block?_set h b b' _ _ hb]
          by_cases hbb : b' = b
          · subst hbb
            simp only [if_true, hblk, Ptr.mk.injEq, true_and, List.getElem?_set]
            by_cases hq : qo = po
            · subst hq; simp [hlt]
            · have : ¬ po = qo := fun e => hq e.symm
              simp [hq, this]
          · simp [hbb]

@[simp] theorem Heap.cell?_tick (h : Heap T) (f : Stats → Stats) (q : Ptr) :
    (h.tick f).cell? q = h.cell? q := rfl

@[simp] theorem Heap.stats_tick (h : Heap T) (f : Stats → Stats) :
    (h.tick f).stats = f h.stats := rfl

@[simp] theorem Heap.mem_tick (h : Heap T) (f : Stats → Stats) :
    (h.tick f).mem = h.mem := rfl

theorem Heap.frame_tick (h : Heap T) (f : Stats → Stats) : h.Frame (h.tick f) :=
  ⟨rfl, fun _ => rfl⟩

theorem Heap.load_eq_some {h : Heap T} {p : Ptr} {x : T} :
    h.load p = some x ↔ h.cell? p = some (Cell.live x) := by
  unfold Heap.load
  cases hc : h.cell? p with
  | none => simp
  | some c => cases c <;> simp

theorem Heap.Frame.isSome_cell {h h' : Heap T} (hf : h.Frame h') (q : Ptr) :
    (h'.cell? q).isSome = (h.cell? q).isSome := by
  obtain ⟨qb, qo⟩ := q
  cases qb with
  | none => rfl
  | some b =>
    have h2 := hf.2 b
    cases hs : h.slots? b with
    | none =>
      rw [hs] at h2
      have e1 : h.block? b = none := by simpa [Heap.slots?] using hs
      have e2 : h'.block? b = none := by simpa [Heap.slots?] using h2
      simp [Heap.cell?, e1, e2]
    | some n =>
      rw [hs] at h2
      have a := Heap.cell?_of_slots hs qo
      have b := Heap.cell?_of_slots h2 qo
      rw [Bool.eq_iff_iff, a, b]

end HeapLemmas

section PtrLemmas

@[simp] theorem Ptr.add_zero (p : Ptr) : p.add 0 = p := rfl

theorem Ptr.add_add (p : Ptr) (a b : Nat) : (p.add a).add b = p.add (a + b) := by
  simp [Ptr.add, Nat.add_assoc]

theorem Ptr.add_one_add (p : Ptr) (k : Nat) : (p.add 1).add k = p.add (k + 1) := by
  simp only [Ptr.add, Ptr.mk.injEq, true_and]
  omega

theorem Ptr.within_zero (q p : Ptr) : ¬ q.within p 0 := by
  intro ⟨_, h1, h2⟩; omega

theorem Ptr.within_succ (q p : Ptr) (n : Nat) :
    q.within p (n + 1) ↔ q = p ∨ q.within (p.add 1) n := by
  obtain ⟨qb, qo⟩ := q
  obtain ⟨pb, po⟩ := p
  simp only [Ptr.within, Ptr.add, Ptr.mk.injEq]
  constructor
  · rintro ⟨hb, h1, h2⟩
    by_cases he : qo = po
    · exact Or.inl ⟨hb, he⟩
    · exact Or.inr ⟨hb, by omega, by omega⟩
  · rintro (⟨hb, he⟩ | ⟨hb, h1, h2⟩)
    · exact ⟨hb, by omega, by omega⟩
    · exact ⟨hb, by omega, by omega⟩

theorem Ptr.within_add (p : Ptr) {k n : Nat} (hk : k < n) : (p.add k).within p n :=
  ⟨rfl, by simp [Ptr.add], by simp [Ptr.add]; omega⟩

theorem Ptr.within_iff (q p : Ptr) (n : Nat) :
    q.within p n ↔ ∃ k, k < n ∧ q = p.add k := by
  constructor
  · rintro ⟨hb, h1, h2⟩
    refine ⟨q.off - p.off, by omega, ?_⟩
    obtain ⟨qb, qo⟩ := q
    obtain ⟨pb, po⟩ := p
    simp only [Ptr.add, Ptr.mk.injEq] at *
    exact ⟨hb, by omega⟩
  · rintro ⟨k, hk, rfl⟩
    exact Ptr.within_add p hk

end PtrLemmas

section LoopLemmas
variable {T : Type}

/-- A forward transfer loop whose destination does not run ahead of its source inside
one allocation: every destination slot receives the value its source slot held before
the loop, sources outside the destination run keep `r` of their value, and nothing
else changes. -/
theorem fwdLoop_spec {st : Heap T → Ptr → Ptr → Option (Heap T)} {r : T → T}
    {ok : Cell T → Prop} {f : Stats → Stats} (S : StepSpec st r ok f) :
    ∀ (n : Nat) (h : Heap T) (first dest : Ptr),
      (dest.base = first.base → dest.off ≤ first.off) →
      (∀ k, k < n → h.isLive (first.add k)) →
      (∀ k, k < n → ∃ c, h.cell? (dest.add k) = some c ∧ ok c) →
      ∃ h', fwdLoop st n first dest h = some h' ∧ h.Frame h' ∧ h'.stats = f^[n] h.stats ∧
        (∀ k, k < n → h'.cell? (dest.add k) = h.cell? (first.add k)) ∧
        (∀ q, ¬ q.within dest n → ¬ q.within first n → h'.cell? q = h.cell? q) ∧
        (∀ q, q.within first n → ¬ q.within dest n →
          h'.cell? q = (h.cell? q).map (Cell.map r)) := by
  intro n
  induction n with
  | zero =>
    intro h first dest _ _ _
    refine ⟨h, rfl, Heap.Frame.refl h, rfl, ?_, ?_, ?_⟩
    · intro k hk; omega
    · intro q _ _; rfl
    · intro q hq; exact absurd hq (Ptr.within_zero q first)
  | succ n ih =>
    intro h first dest hsafe hsrc hdst
    obtain ⟨x0, hx0⟩ := hsrc 0 (by omega)
    obtain ⟨c0, hc0, hok0⟩ := hdst 0 (by omega)
    simp only [Ptr.add_zero] at hx0 hc0
    obtain ⟨h1, hst, hfr1, hstats1, hcell1⟩ := S.step h dest first x0 c0 hx0 hc0 hok0
    -- facts about pointers
    have hne_src : ∀ k, first.add (k + 1) ≠ first := by
      intro k; obtain ⟨b, o⟩ := first; simp [Ptr.add]
    have hne_dst : ∀ k, dest.add (k + 1) ≠ dest := by
      intro k; obtain ⟨b, o⟩ := dest; simp [Ptr.add]
    have hne_sd : ∀ k, first.add (k + 1) ≠ dest := by
      intro k he
      obtain ⟨b, o⟩ := first
      obtain ⟨b', o'⟩ := dest
      simp only [Ptr.add, Ptr.mk.injEq] at he
      have := hsafe he.1.symm
      simp only at this
      omega
    have hsrc1 : ∀ k, k < n → h1.cell? (first.add (k + 1)) = h.cell? (first.add (k + 1)) := by
      intro k _
      rw [hcell1, if_neg (hne_sd k), if_neg (hne_src k)]
    obtain ⟨h', hloop, hfr, hstats, ha, hb, hc⟩ := ih h1 (first.add 1) (dest.add 1)
      (by intro hbase; have := hsafe hbase; simp only [Ptr.add] at *; omega)
      (by
        intro k hk
        obtain ⟨x, hx⟩ := hsrc (k + 1) (by omega)
        exact ⟨x, by rw [Ptr.add_one_add, hsrc1 k hk, hx]⟩)
      (by
        intro k hk
        rw [Ptr.add_one_add, hcell1, if_neg (hne_dst k)]
        by_cases he : dest.add (k + 1) = first
        · rw [if_pos he]; exact ⟨_, rfl, S.ok_live _⟩
        · rw [if_neg he]; exact hdst (k + 1) (by omega))
    have hdest_nw : ¬ dest.within (dest.add 1) n := by
      intro ⟨_, h1', _⟩; simp only [Ptr.add] at h1'; omega
    have hdest_nw' : ¬ dest.within (first.add 1) n := by
      intro ⟨hb', h1', _⟩
      have := hsafe hb'
      simp only [Ptr.add] at h1'; omega
    have hfirst_nw : ¬ first.within (first.add 1) n := by
      intro ⟨_, h1', _⟩; simp only [Ptr.add] at h1'; omega
    refine ⟨h', ?_, hfr1.trans hfr, ?_, ?_, ?_, ?_⟩
    · simp [fwdLoop, hst, hloop]
    · rw [hstats, hstats1, Function.iterate_succ_apply]
    · intro k hk
      cases k with
      | zero =>
        simp only [Ptr.add_zero]
        rw [hb dest hdest_nw hdest_nw', hcell1, if_pos rfl, hx0]
      | succ k =>
        have := ha k (by omega)
        rw [Ptr.add_one_add, Ptr.add_one_add, hsrc1 k (by omega)] at this
        exact this
    · intro q hqd hqs
      rw [Ptr.within_succ] at hqd hqs
      push_neg at hqd hqs
      rw [hb q hqd.2 hqs.2, hcell1, if_neg hqd.1, if_neg hqs.1]
    · intro q hqs hqd
      rw [Ptr.within_succ] at hqs hqd
      push_neg at hqd
      rcases hqs with rfl | hqs
      · rw [hb q hqd.2 hfirst_nw, hcell1, if_neg hqd.1, if_pos rfl, hx0]
        rfl
      · have hqne : q ≠ first := by
          rintro rfl; exact hfirst_nw hqs
        rw [hc q hqs hqd.2, hcell1, if_neg hqd.1, if_neg hqne]

end LoopLemmas

section LoopLemmas2
variable {T : Type}

theorem Ptr.add_succ_sub_one (p : Ptr) (n : Nat) : (p.add (n + 1)).sub 1 = some (p.add n) := by
  simp only [Ptr.sub, Ptr.add]
  rw [if_pos (by omega)]
  simp only [Option.some.injEq, Ptr.mk.injEq, true_and]
  omega

/-- A backward transfer loop whose destination does not lie behind its source inside
one allocation: same outcome as the forward loop in the opposite situation. -/
theorem bwdLoop_spec {st : Heap T → Ptr → Ptr → Option (Heap T)} {r : T → T}
    {ok : Cell T → Prop} {f : Stats → Stats} (S : StepSpec st r ok f) :
    ∀ (n : Nat) (h : Heap T) (first dest : Ptr),
      (dest.base = first.base → first.off ≤ dest.off) →
      (∀ k, k < n → h.isLive (first.add k)) →
      (∀ k, k < n → ∃ c, h.cell? (dest.add k) = some c ∧ ok c) →
      ∃ h', bwdLoop st n (first.add n) (dest.add n) h = some (h', dest) ∧ h.Frame h' ∧
        h'.stats = f^[n] h.stats ∧
        (∀ k, k < n → h'.cell? (dest.add k) = h.cell? (first.add k)) ∧
        (∀ q, ¬ q.within dest n → ¬ q.within first n → h'.cell? q = h.cell? q) ∧
        (∀ q, q.within first n → ¬ q.within dest n →
          h'.cell? q = (h.cell? q).map (Cell.map r)) := by
  intro n
  induction n with
  | zero =>
    intro h first dest _ _ _
    refine ⟨h, rfl, Heap.Frame.refl h, rfl, ?_, ?_, ?_⟩
    · intro k hk; omega
    · intro q _ _; rfl
    · intro q hq; exact absurd hq (Ptr.within_zero q first)
  | succ n ih =>
    intro h first dest hsafe hsrc hdst
    obtain ⟨x0, hx0⟩ := hsrc n (by omega)
    obtain ⟨c0, hc0, hok0⟩ := hdst n (by omega)
    obtain ⟨h1, hst, hfr1, hstats1, hcell1⟩ :=
      S.step h (dest.add n) (first.add n) x0 c0 hx0 hc0 hok0
    have hne_src : ∀ k, k < n → first.add k ≠ first.add n := by
      intro k hk; obtain ⟨b, o⟩ := first; simp [Ptr.add]; omega
    have hne_dst : ∀ k, k < n → dest.add k ≠ dest.add n := by
      intro k hk; obtain ⟨b, o⟩ := dest; simp [Ptr.add]; omega
    have hne_sd : ∀ k, k < n → first.add k ≠ dest.add n := by
      intro k hk he
      obtain ⟨b, o⟩ := first
      obtain ⟨b', o'⟩ := dest
      simp only [Ptr.add, Ptr.mk.injEq] at he
      have := hsafe he.1.symm
      simp only at this
      omega
    have hsrc1 : ∀ k, k < n → h1.cell? (first.add k) = h.cell? (first.add k) := by
      intro k hk
      rw [hcell1, if_neg (hne_sd k hk), if_neg (hne_src k hk)]
    obtain ⟨h', hloop, hfr, hstats, ha, hb, hc⟩ := ih h1 first dest hsafe
      (by
        intro k hk
        obtain ⟨x, hx⟩ := hsrc k (by omega)
        exact ⟨x, by rw [hsrc1 k hk, hx]⟩)
      (by
        intro k hk
        rw [hcell1, if_neg (hne_dst k hk)]
        by_cases he : dest.add k = first.add n
        · rw [if_pos he]; exact ⟨_, rfl, S.ok_live _⟩
        · rw [if_neg he]; exact hdst k (by omega))
    have hdest_nw : ¬ (dest.add n).within dest n := by
      intro ⟨_, _, h2'⟩; simp only [Ptr.add] at h2'; omega
    have hdest_nw' : ¬ (dest.add n).within first n := by
      intro ⟨hb', _, h2'⟩
      have := hsafe hb'
      simp only [Ptr.add] at h2'; omega
    have hfirst_nw : ¬ (first.add n).within first n := by
      intro ⟨_, _, h2'⟩; simp only [Ptr.add] at h2'; omega
    have hsplit : ∀ q p : Ptr, q.within p (n + 1) ↔ q = p.add n ∨ q.within p n := by
      intro q p
      obtain ⟨qb, qo⟩ := q
      obtain ⟨pb, po⟩ := p
      simp only [Ptr.within, Ptr.add, Ptr.mk.injEq]
      constructor
      · rintro ⟨hb', h1', h2'⟩
        by_cases he : qo = po + n
        · exact Or.inl ⟨hb', he⟩
        · exact Or.inr ⟨hb', by omega, by omega⟩
      · rintro (⟨hb', he⟩ | ⟨hb', h1', h2'⟩)
        · exact ⟨hb', by omega, by omega⟩
        · exact ⟨hb', by omega, by omega⟩
    refine ⟨h', ?_, hfr1.trans hfr, ?_, ?_, ?_, ?_⟩
    · simp [bwdLoop, Ptr.add_succ_sub_one, hst, hloop]
    · rw [hstats, hstats1, Function.iterate_succ_apply]
    · intro k hk
      by_cases hkn : k = n
      · subst hkn
        rw [hb _ hdest_nw hdest_nw', hcell1, if_pos rfl, hx0]
      · rw [ha k (by omega), hsrc1 k (by omega)]
    · intro q hqd hqs
      rw [hsplit] at hqd hqs
      push_neg at hqd hqs
      rw [hb q hqd.2 hqs.2, hcell1, if_neg hqd.1, if_neg hqs.1]
    · intro q hqs hqd
      rw [hsplit] at hqs hqd
      push_neg at hqd
      rcases hqs with rfl | hqs
      · rw [hb _ hqd.2 hfirst_nw, hcell1, if_neg hqd.1, if_pos rfl, hx0]
        rfl
      · have hqne : q ≠ first.add n := by
          rintro rfl; exact hfirst_nw hqs
        rw [hc q hqs hqd.2, hcell1, if_neg hqd.1, if_neg hqne]

end LoopLemmas2

section StepLemmas
variable {T : Type}

theorem Heap.load_of_cell {h : Heap T} {p : Ptr} {x : T}
    (hc : h.cell? p = some (Cell.live x)) : h.load p = some x :=
  Heap.load_eq_some.mpr hc

theorem stepSpec_copyConstruct (E : ElemType T) :
    StepSpec (fun h d s => _constructSingle E h d (Arg.copy (Ref.slot s))) id
      (fun _ => True) (fun s => { s with copyCtor := s.copyCtor + 1 }) where
  ok_live := fun _ => trivial
  step := by
    intro h dest src x c hsrc hdst _
    obtain ⟨h', hs, hfr, hst, hcell⟩ :=
      Heap.store_spec (h := h.tick fun s => { s with copyCtor := s.copyCtor + 1 })
        (p := dest) hdst (Cell.live x)
    refine ⟨h', ?_, (Heap.frame_tick h _).trans hfr, by rw [hst]; rfl, ?_⟩
    · simp [_constructSingle, Heap.evalArg, Heap.evalRef, Heap.load_of_cell hsrc, hs]
    · intro q
      rw [hcell q]
      by_cases hq : q = dest
      · simp [hq]
      · by_cases hq' : q = src
        · simp [hq, hq', hsrc]
        · simp [hq, hq']

theorem stepSpec_moveConstruct (E : ElemType T) :
    StepSpec (fun h d s => _constructSingle E h d (Arg.move (Ref.slot s))) E.movedFrom
      (fun _ => True) (fun s => { s with moveCtor := s.moveCtor + 1 }) where
  ok_live := fun _ => trivial
  step := by
    intro h dest src x c hsrc hdst _
    obtain ⟨h1, hs1, hfr1, hst1, hcell1⟩ :=
      Heap.store_spec hsrc (Cell.live (E.movedFrom x))
    have hd1 : ∃ c1, (h1.tick fun s => { s with moveCtor := s.moveCtor + 1 }).cell? dest
        = some c1 := by
      rw [Heap.cell?_tick, hcell1]
      by_cases he : dest = src
      · exact ⟨_, by rw [if_pos he]⟩
      · exact ⟨c, by rw [if_neg he, hdst]⟩
    obtain ⟨c1, hc1⟩ := hd1
    obtain ⟨h', hs, hfr, hst, hcell⟩ := Heap.store_spec hc1 (Cell.live x)
    refine ⟨h', ?_, (hfr1.trans (Heap.frame_tick h1 _)).trans hfr, ?_, ?_⟩
    · simp [_constructSingle, Heap.evalArg, Heap.evalRef, Heap.leaveMoved,
        Heap.load_of_cell hsrc, hs1, hs]
    · rw [hst, Heap.stats_tick, hst1]
    · intro q
      rw [hcell q, Heap.cell?_tick, hcell1]

theorem stepSpec_copyAssign :
    StepSpec (T := T) (fun h d s => copyAssignAt h d (Ref.slot s)) id
      (fun c => ∃ y, c = Cell.live y) (fun s => { s with copyAssign := s.copyAssign + 1 }) where
  ok_live := fun y => ⟨y, rfl⟩
  step := by
    intro h dest src x c hsrc hdst hok
    obtain ⟨y, rfl⟩ := hok
    obtain ⟨h', hs, hfr, hst, hcell⟩ := Heap.store_spec hdst (Cell.live x)
    refine ⟨h'.tick fun s => { s with copyAssign := s.copyAssign + 1 }, ?_,
      hfr.trans (Heap.frame_tick h' _), by rw [Heap.stats_tick, hst], ?_⟩
    · simp [copyAssignAt, Heap.evalRef, Heap.load_of_cell hsrc, Heap.load_of_cell hdst, hs]
    · intro q
      rw [Heap.cell?_tick, hcell q]
      by_cases hq : q = dest
      · simp [hq]
      · by_cases hq' : q = src
        · simp [hq, hq', hsrc]
        · simp [hq, hq']

theorem stepSpec_moveAssign (E : ElemType T) :
    StepSpec (fun h d s => moveAssignAt E h d (Ref.slot s)) E.movedFrom
      (fun c => ∃ y, c = Cell.live y) (fun s => { s with moveAssign := s.moveAssign + 1 }) where
  ok_live := fun y => ⟨y, rfl⟩
  step := by
    intro h dest src x c hsrc hdst hok
    obtain ⟨y, rfl⟩ := hok
    obtain ⟨h1, hs1, hfr1, hst1, hcell1⟩ :=
      Heap.store_spec hsrc (Cell.live (E.movedFrom x))
    have hd1 : ∃ c1, h1.cell? dest = some c1 := by
      rw [hcell1]
      by_cases he : dest = src
      · exact ⟨_, by rw [if_pos he]⟩
      · exact ⟨_, by rw [if_neg he, hdst]⟩
    obtain ⟨c1, hc1⟩ := hd1
    obtain ⟨h', hs, hfr, hst, hcell⟩ := Heap.store_spec hc1 (Cell.live x)
    refine ⟨h'.tick fun s => { s with moveAssign := s.moveAssign + 1 }, ?_,
      (hfr1.trans hfr).trans (Heap.frame_tick h' _), ?_, ?_⟩
    · simp [moveAssignAt, Heap.evalRef, Heap.leaveMoved, Heap.load_of_cell hsrc,
        Heap.load_of_cell hdst, hs1, hs]
    · rw [Heap.stats_tick, hst, hst1]
    · intro q
      rw [Heap.cell?_tick, hcell q, hcell1]

theorem copyConstructLoop_eq (E : ElemType T) (n : Nat) :
    ∀ (first dest : Ptr) (h : Heap T), copyConstructLoop E n first dest h =
      fwdLoop (fun h d s => _constructSingle E h d (Arg.copy (Ref.slot s))) n first dest h := by
  induction n with
  | zero => intros; rfl
  | succ n ih => intro first dest h; simp only [copyConstructLoop, fwdLoop, ih]

theorem moveConstructLoop_eq (E : ElemType T) (n : Nat) :
    ∀ (first dest : Ptr) (h : Heap T), moveConstructLoop E n first dest h =
      fwdLoop (fun h d s => _constructSingle E h d (Arg.move (Ref.slot s))) n first dest h := by
  induction n with
  | zero => intros; rfl
  | succ n ih => intro first dest h; simp only [moveConstructLoop, fwdLoop, ih]

theorem copyAssignLoop_eq (n : Nat) :
    ∀ (first dest : Ptr) (h : Heap T), copyAssignLoop n first dest h =
      fwdLoop (fun h d s => copyAssignAt h d (Ref.slot s)) n first dest h := by
  induction n with
  | zero => intros; rfl
  | succ n ih => intro first dest h; simp only [copyAssignLoop, fwdLoop, ih]

theorem moveAssignLoop_eq (E : ElemType T) (n : Nat) :
    ∀ (first dest : Ptr) (h : Heap T), moveAssignLoop E n first dest h =
      fwdLoop (fun h d s => moveAssignAt E h d (Ref.slot s)) n first dest h := by
  induction n with
  | zero => intros; rfl
  | succ n ih => intro first dest h; simp only [moveAssignLoop, fwdLoop, ih]

theorem moveAssignBackwardLoop_eq (E : ElemType T) (n : Nat) :
    ∀ (last dest : Ptr) (h : Heap T), moveAssignBackwardLoop E n last dest h =
      bwdLoop (fun h d s => moveAssignAt E h d (Ref.slot s)) n last dest h := by
  induction n with
  | zero => intros; rfl
  | succ n ih => intro last dest h; simp only [moveAssignBackwardLoop, bwdLoop, ih]

end StepLemmas

section BulkLemmas
variable {T : Type}

theorem Cell.map_id (c : Cell T) : Cell.map id c = c := by
  cases c <;> rfl

theorem Heap.isLive_of_map {h h' : Heap T} {q : Ptr} {r : T → T}
    (he : h'.cell? q = (h.cell? q).map (Cell.map r)) (hl : h.isLive q) : h'.isLive q := by
  obtain ⟨x, hx⟩ := hl
  exact ⟨r x, by rw [he, hx]; rfl⟩

theorem Heap.isSome_of_isLive {h : Heap T} {q : Ptr} (hl : h.isLive q) :
    (h.cell? q).isSome := by
  obtain ⟨x, hx⟩ := hl
  rw [hx]; rfl

theorem Heap.loadCells_spec : ∀ (n : Nat) (h : Heap T) (p : Ptr),
    (∀ k, k < n → (h.cell? (p.add k)).isSome) →
    ∃ cs, h.loadCells p n = some cs ∧ cs.length = n ∧
      ∀ k, k < n → cs[k]? = h.cell? (p.add k) := by
  intro n
  induction n with
  | zero => intro h p _; exact ⟨[], rfl, rfl, fun k hk => by omega⟩
  | succ n ih =>
    intro h p hp
    have h0 := hp 0 (by omega)
    rw [Ptr.add_zero, Option.isSome_iff_exists] at h0
    obtain ⟨c, hc⟩ := h0
    obtain ⟨cs, hcs, hlen, hget⟩ := ih h (p.add 1) (by
      intro k hk
      rw [Ptr.add_one_add]
      exact hp (k + 1) (by omega))
    refine ⟨c :: cs, by simp [Heap.loadCells, hc, hcs], by simp [hlen], ?_⟩
    intro k hk
    cases k with
    | zero => simp [hc]
    | succ k =>
      rw [List.getElem?_cons_succ, hget k (by omega), Ptr.add_one_add]

theorem Heap.storeCells_spec : ∀ (cs : List (Cell T)) (h : Heap T) (p : Ptr),
    (∀ k, k < cs.length → (h.cell? (p.add k)).isSome) →
    ∃ h', h.storeCells p cs = some h' ∧ h.Frame h' ∧ h'.stats = h.stats ∧
      (∀ k, k < cs.length → h'.cell? (p.add k) = cs[k]?) ∧
      (∀ q, ¬ q.within p cs.length → h'.cell? q = h.cell? q) := by
  intro cs
  induction cs with
  | nil =>
    intro h p _
    exact ⟨h, rfl, Heap.Frame.refl h, rfl, fun k hk => by simp at hk, fun _ _ => rfl⟩
  | cons c cs ih =>
    intro h p hp
    have h0 := hp 0 (by simp)
    rw [Ptr.add_zero, Option.isSome_iff_exists] at h0
    obtain ⟨c0, hc0⟩ := h0
    obtain ⟨h1, hs1, hfr1, hst1, hcell1⟩ := Heap.store_spec hc0 c
    obtain ⟨h', hs, hfr, hst, ha, hb⟩ := ih h1 (p.add 1) (by
      intro k hk
      rw [hfr1.isSome_cell, Ptr.add_one_add]
      exact hp (k + 1) (by simp; omega))
    have hp_nw : ¬ p.within (p.add 1) cs.length := by
      intro ⟨_, h1', _⟩; simp only [Ptr.add] at h1'; omega
    refine ⟨h', by simp [Heap.storeCells, hs1, hs], hfr1.trans hfr, by rw [hst, hst1], ?_, ?_⟩
    · intro k hk
      cases k with
      | zero => rw [Ptr.add_zero, hb p hp_nw, hcell1, if_pos rfl]; simp
      | succ k =>
        have := ha k (by simp at hk; omega)
        rw [Ptr.add_one_add] at this
        rw [this, List.getElem?_cons_succ]
    · intro q hq
      rw [List.length_cons, Ptr.within_succ] at hq
      push_neg at hq
      rw [hb q hq.2, hcell1, if_neg hq.1]

theorem Heap.memmove_spec (h : Heap T) (dest src : Ptr) (n : Nat)
    (hsrc : ∀ k, k < n → (h.cell? (src.add k)).isSome)
    (hdst : ∀ k, k < n → (h.cell? (dest.add k)).isSome) :
    ∃ h', h.memmove dest src n = some h' ∧ h.Frame h' ∧ h'.stats = h.stats ∧
      (∀ k, k < n → h'.cell? (dest.add k) = h.cell? (src.add k)) ∧
      (∀ q, ¬ q.within dest n → h'.cell? q = h.cell? q) := by
  obtain ⟨cs, hcs, hlen, hget⟩ := Heap.loadCells_spec n h src hsrc
  obtain ⟨h', hs, hfr, hst, ha, hb⟩ := Heap.storeCells_spec cs h dest (by rwa [hlen])
  refine ⟨h', by simp [Heap.memmove, hcs, hs], hfr, hst, ?_, ?_⟩
  · intro k hk
    rw [ha k (by omega), hget k hk]
  · intro q hq
    exact hb q (by rwa [hlen])

theorem Heap.poison_spec (h : Heap T) (p : Ptr) (n : Nat)
    (hp : ∀ k, k < n → (h.cell? (p.add k)).isSome) :
    ∃ h', h.poison p n = some h' ∧ h.Frame h' ∧ h'.stats = h.stats ∧
      (∀ q, q.within p n → h'.cell? q = some Cell.dead) ∧
      (∀ q, ¬ q.within p n → h'.cell? q = h.cell? q) := by
  obtain ⟨h', hs, hfr, hst, ha, hb⟩ :=
    Heap.storeCells_spec (List.replicate n Cell.dead) h p (by simpa using hp)
  refine ⟨h', hs, hfr, hst, ?_, ?_⟩
  · intro q hq
    obtain ⟨k, hk, rfl⟩ := (Ptr.within_iff q p n).mp hq
    rw [ha k (by simpa using hk)]
    simp [List.getElem?_replicate, hk]
  · intro q hq
    exact hb q (by simpa using hq)

theorem iterate_dtor (n : Nat) (s : Stats) :
    (fun s : Stats => { s with dtor := s.dtor + 1 })^[n] s = { s with dtor := s.dtor + n } := by
  induction n generalizing s with
  | zero => rfl
  | succ n ih => rw [Function.iterate_succ_apply, ih]; simp only [Nat.add_assoc, Nat.add_comm 1 n]

theorem iterate_copyCtor (n : Nat) (s : Stats) :
    (fun s : Stats => { s with copyCtor := s.copyCtor + 1 })^[n] s =
      { s with copyCtor := s.copyCtor + n } := by
  induction n generalizing s with
  | zero => rfl
  | succ n ih => rw [Function.iterate_succ_apply, ih]; simp only [Nat.add_assoc, Nat.add_comm 1 n]

theorem iterate_moveCtor (n : Nat) (s : Stats) :
    (fun s : Stats => { s with moveCtor := s.moveCtor + 1 })^[n] s =
      { s with moveCtor := s.moveCtor + n } := by
  induction n generalizing s with
  | zero => rfl
  | succ n ih => rw [Function.iterate_succ_apply, ih]; simp only [Nat.add_assoc, Nat.add_comm 1 n]

theorem iterate_copyAssign (n : Nat) (s : Stats) :
    (fun s : Stats => { s with copyAssign := s.copyAssign + 1 })^[n] s =
      { s with copyAssign := s.copyAssign + n } := by
  induction n generalizing s with
  | zero => rfl
  | succ n ih => rw [Function.iterate_succ_apply, ih]; simp only [Nat.add_assoc, Nat.add_comm 1 n]

theorem iterate_moveAssign (n : Nat) (s : Stats) :
    (fun s : Stats => { s with moveAssign := s.moveAssign + 1 })^[n] s =
      { s with moveAssign := s.moveAssign + n } := by
  induction n generalizing s with
  | zero => rfl
  | succ n ih => rw [Function.iterate_succ_apply, ih]; simp only [Nat.add_assoc, Nat.add_comm 1 n]

theorem destroyAt_spec {h : Heap T} {p : Ptr} (hl : h.isLive p) :
    ∃ h', destroyAt h p = some h' ∧ h.Frame h' ∧
      h'.stats = { h.stats with dtor := h.stats.dtor + 1 } ∧
      ∀ q, h'.cell? q = if q = p then some Cell.dead else h.cell? q := by
  obtain ⟨x, hx⟩ := hl
  obtain ⟨h1, hs1, hfr1, hst1, hcell1⟩ := Heap.store_spec hx Cell.dead
  refine ⟨h1.tick fun s => { s with dtor := s.dtor + 1 }, ?_, hfr1.trans (Heap.frame_tick _ _),
    by rw [Heap.stats_tick, hst1], fun q => by rw [Heap.cell?_tick, hcell1]⟩
  simp [destroyAt, Heap.load_of_cell hx, hs1]

theorem destroyLoop_spec : ∀ (n : Nat) (h : Heap T) (p : Ptr),
    (∀ k, k < n → h.isLive (p.add k)) →
    ∃ h', destroyLoop n p h = some h' ∧ h.Frame h' ∧
      h'.stats = { h.stats with dtor := h.stats.dtor + n } ∧
      (∀ q, q.within p n → h'.cell? q = some Cell.dead) ∧
      (∀ q, ¬ q.within p n → h'.cell? q = h.cell? q) := by
  intro n
  induction n with
  | zero =>
    intro h p _
    exact ⟨h, rfl, Heap.Frame.refl h, rfl, fun q hq => absurd hq (Ptr.within_zero q p),
      fun _ _ => rfl⟩
  | succ n ih =>
    intro h p hp
    obtain ⟨h1, hs1, hfr1, hst1, hcell1⟩ := destroyAt_spec (hp 0 (by omega))
    rw [Ptr.add_zero] at hs1
    have hne : ∀ k, p.add (k + 1) ≠ p := by
      intro k; obtain ⟨b, o⟩ := p; simp [Ptr.add]
    obtain ⟨h', hs, hfr, hst, ha, hb⟩ := ih h1 (p.add 1) (by
      intro k hk
      obtain ⟨x, hx⟩ := hp (k + 1) (by omega)
      exact ⟨x, by rw [Ptr.add_one_add, hcell1, Ptr.add_zero, if_neg (hne k), hx]⟩)
    have hp_nw : ¬ p.within (p.add 1) n := by
      intro ⟨_, h1', _⟩; simp only [Ptr.add] at h1'; omega
    refine ⟨h', by simp [destroyLoop, hs1, hs], hfr1.trans hfr, ?_, ?_, ?_⟩
    · rw [hst, hst1]; simp only [Nat.add_assoc, Nat.add_comm 1 n]
    · intro q hq
      rw [Ptr.within_succ] at hq
      rcases hq with rfl | hq
      · rw [hb q hp_nw, hcell1, Ptr.add_zero, if_pos rfl]
      · exact ha q hq
    · intro q hq
      rw [Ptr.within_succ] at hq
      push_neg at hq
      rw [hb q hq.2, hcell1, Ptr.add_zero, if_neg hq.1]

theorem Ptr.diff_add (p : Ptr) (n : Nat) : (p.add n).diff p = some n := by
  simp [Ptr.diff, Ptr.add]

/-- Destroying a run of constructed objects: every slot of the run ends poisoned,
nothing else changes, and one destructor runs per slot unless `T` is trivially
destructible. -/
theorem _destroyRange_spec (E : ElemType T) (h : Heap T) (first : Ptr) (n : Nat)
    (hl : ∀ k, k < n → h.isLive (first.add k)) :
    ∃ h', _destroyRange E h first (first.add n) = some h' ∧ h.Frame h' ∧
      h'.stats = (if E.trivDtor then h.stats else { h.stats with dtor := h.stats.dtor + n }) ∧
      (∀ q, q.within first n → h'.cell? q = some Cell.dead) ∧
      (∀ q, ¬ q.within first n → h'.cell? q = h.cell? q) := by
  by_cases ht : E.trivDtor = true
  · obtain ⟨h', hs, hfr, hst, ha, hb⟩ := Heap.poison_spec h first n
      (fun k hk => Heap.isSome_of_isLive (hl k hk))
    exact ⟨h', by simp [_destroyRange, Ptr.diff_add, ht, hs], hfr, by simp [ht, hst], ha, hb⟩
  · obtain ⟨h1, hs1, hfr1, hst1, ha1, hb1⟩ := destroyLoop_spec n h first hl
    obtain ⟨h', hs, hfr, hst, ha, hb⟩ := Heap.poison_spec h1 first n (by
      intro k hk
      rw [hfr1.isSome_cell]
      exact Heap.isSome_of_isLive (hl k hk))
    refine ⟨h', by simp [_destroyRange, Ptr.diff_add, ht, hs1, hs], hfr1.trans hfr,
      by simp [ht, hst, hst1], ha, ?_⟩
    intro q hq
    rw [hb q hq, hb1 q hq]

theorem _destroySingle_spec (E : ElemType T) (h : Heap T) (pos : Ptr) (hl : h.isLive pos) :
    ∃ h', _destroySingle E h pos = some h' ∧ h.Frame h' ∧
      h'.stats = (if E.trivDtor then h.stats else { h.stats with dtor := h.stats.dtor + 1 }) ∧
      (∀ q, h'.cell? q = if q = pos then some Cell.dead else h.cell? q) := by
  have hw : ∀ q : Ptr, q.within pos 1 ↔ q = pos := by
    intro q
    rw [Ptr.within_succ]
    simp [Ptr.within_zero]
  by_cases ht : E.trivDtor = true
  · obtain ⟨h', hs, hfr, hst, ha, hb⟩ := Heap.poison_spec h pos 1
      (fun k hk => by
        have : k = 0 := by omega
        subst this
        exact Heap.isSome_of_isLive hl)
    refine ⟨h', by simp [_destroySingle, ht, hs], hfr, by simp [ht, hst], ?_⟩
    intro q
    by_cases hq : q = pos
    · rw [if_pos hq]; exact ha q ((hw q).mpr hq)
    · rw [if_neg hq]; exact hb q (fun hc => hq ((hw q).mp hc))
  · obtain ⟨h1, hs1, hfr1, hst1, hcell1⟩ := destroyAt_spec hl
    obtain ⟨h', hs, hfr, hst, ha, hb⟩ := Heap.poison_spec h1 pos 1
      (fun k hk => by
        have : k = 0 := by omega
        subst this
        rw [hfr1.isSome_cell]
        exact Heap.isSome_of_isLive hl)
    refine ⟨h', by simp [_destroySingle, ht, hs1, hs], hfr1.trans hfr,
      by simp [ht, hst, hst1], ?_⟩
    intro q
    by_cases hq : q = pos
    · rw [if_pos hq]; exact ha q ((hw q).mpr hq)
    · rw [if_neg hq, hb q (fun hc => hq ((hw q).mp hc)), hcell1, if_neg hq]

end BulkLemmas

section RangeLemmas
variable {T : Type}

theorem Cell.option_map_id (o : Option (Cell T)) : o.map (Cell.map id) = o := by
  cases o with
  | none => rfl
  | some c => simp [Cell.map_id]

theorem exists_ok_of_isSome {h : Heap T} {p : Ptr} (hs : (h.cell? p).isSome) :
    ∃ c, h.cell? p = some c ∧ (fun _ : Cell T => True) c := by
  rw [Option.isSome_iff_exists] at hs
  obtain ⟨c, hc⟩ := hs
  exact ⟨c, hc, trivial⟩

theorem exists_ok_of_isLive {h : Heap T} {p : Ptr} (hs : h.isLive p) :
    ∃ c, h.cell? p = some c ∧ (fun c : Cell T => ∃ y, c = Cell.live y) c := by
  obtain ⟨x, hx⟩ := hs
  exact ⟨_, hx, x, rfl⟩

/-- Move-constructing a run into slots that do not run ahead of it. -/
theorem _moveConstructRange_spec (E : ElemType T) (h : Heap T) (first dest : Ptr) (n : Nat)
    (hsafe : dest.base = first.base → dest.off ≤ first.off)
    (hsrc : ∀ k, k < n → h.isLive (first.add k))
    (hdst : ∀ k, k < n → (h.cell? (dest.add k)).isSome) :
    ∃ h', _moveConstructRange E h first (first.add n) dest = some h' ∧ h.Frame h' ∧
      h'.stats = (if E.trivMoveCtor then h.stats
        else { h.stats with moveCtor := h.stats.moveCtor + n }) ∧
      (∀ k, k < n → h'.cell? (dest.add k) = h.cell? (first.add k)) ∧
      (∀ q, ¬ q.within dest n → ¬ q.within first n → h'.cell? q = h.cell? q) ∧
      (∀ q, q.within first n → ¬ q.within dest n →
        h'.cell? q = (h.cell? q).map (Cell.map E.afterMoveCtor)) := by
  by_cases ht : E.trivMoveCtor = true
  · obtain ⟨h', hs, hfr, hst, ha, hb⟩ := Heap.memmove_spec h dest first n
      (fun k hk => Heap.isSome_of_isLive (hsrc k hk)) hdst
    refine ⟨h', by simp [_moveConstructRange, Ptr.diff_add, ht, hs], hfr, by simp [ht, hst],
      ha, fun q hq _ => hb q hq, ?_⟩
    intro q _ hq
    rw [hb q hq]
    simp [ElemType.afterMoveCtor, ht, Cell.option_map_id]
  · obtain ⟨h', hs, hfr, hst, ha, hb, hc⟩ :=
      fwdLoop_spec (stepSpec_moveConstruct E) n h first dest hsafe hsrc
        (fun k hk => exists_ok_of_isSome (hdst k hk))
    refine ⟨h', ?_, hfr, ?_, ha, hb, ?_⟩
    · simp [_moveConstructRange, Ptr.diff_add, ht, moveConstructLoop_eq, hs]
    · simp [ht, hst, iterate_moveCtor]
    · intro q h1 h2
      rw [hc q h1 h2]
      simp [ElemType.afterMoveCtor, ht]

/-- Copy-constructing a run into slots that do not run ahead of it. -/
theorem _copyConstructRange_spec (E : ElemType T) (h : Heap T) (first dest : Ptr) (n : Nat)
    (hsafe : dest.base = first.base → dest.off ≤ first.off)
    (hsrc : ∀ k, k < n → h.isLive (first.add k))
    (hdst : ∀ k, k < n → (h.cell? (dest.add k)).isSome) :
    ∃ h', _copyConstructRange E h first (first.add n) dest = some h' ∧ h.Frame h' ∧
      h'.stats = (if E.trivCopyCtor then h.stats
        else { h.stats with copyCtor := h.stats.copyCtor + n }) ∧
      (∀ k, k < n → h'.cell? (dest.add k) = h.cell? (first.add k)) ∧
      (∀ q, ¬ q.within dest n → h'.cell? q = h.cell? q) := by
  by_cases ht : E.trivCopyCtor = true
  · obtain ⟨h', hs, hfr, hst, ha, hb⟩ := Heap.memmove_spec h dest first n
      (fun k hk => Heap.isSome_of_isLive (hsrc k hk)) hdst
    exact ⟨h', by simp [_copyConstructRange, Ptr.diff_add, ht, hs], hfr, by simp [ht, hst],
      ha, hb⟩
  · obtain ⟨h', hs, hfr, hst, ha, hb, hc⟩ :=
      fwdLoop_spec (stepSpec_copyConstruct E) n h first dest hsafe hsrc
        (fun k hk => exists_ok_of_isSome (hdst k hk))
    refine ⟨h', ?_, hfr, ?_, ha, ?_⟩
    · simp [_copyConstructRange, Ptr.diff_add, ht, copyConstructLoop_eq, hs]
    · simp [ht, hst, iterate_copyCtor]
    · intro q hq
      by_cases hq' : q.within first n
      · rw [hc q hq' hq, Cell.option_map_id]
      · exact hb q hq hq'

/-- Copy-assigning a run onto constructed slots that do not run ahead of it. -/
theorem _copyAssignRange_spec (E : ElemType T) (h : Heap T) (first dest : Ptr) (n : Nat)
    (hsafe : dest.base = first.base → dest.off ≤ first.off)
    (hsrc : ∀ k, k < n → h.isLive (first.add k))
    (hdst : ∀ k, k < n → h.isLive (dest.add k)) :
    ∃ h', _copyAssignRange E h first (first.add n) dest = some (h', dest.add n) ∧
      h.Frame h' ∧
      h'.stats = (if E.trivCopyAssign then h.stats
        else { h.stats with copyAssign := h.stats.copyAssign + n }) ∧
      (∀ k, k < n → h'.cell? (dest.add k) = h.cell? (first.add k)) ∧
      (∀ q, ¬ q.within dest n → h'.cell? q = h.cell? q) := by
  by_cases ht : E.trivCopyAssign = true
  · obtain ⟨h', hs, hfr, hst, ha, hb⟩ := Heap.memmove_spec h dest first n
      (fun k hk => Heap.isSome_of_isLive (hsrc k hk))
      (fun k hk => Heap.isSome_of_isLive (hdst k hk))
    exact ⟨h', by simp [_copyAssignRange, Ptr.diff_add, ht, hs], hfr, by simp [ht, hst],
      ha, hb⟩
  · obtain ⟨h', hs, hfr, hst, ha, hb, hc⟩ :=
      fwdLoop_spec stepSpec_copyAssign n h first dest hsafe hsrc
        (fun k hk => exists_ok_of_isLive (hdst k hk))
    refine ⟨h', ?_, hfr, ?_, ha, ?_⟩
    · simp [_copyAssignRange, Ptr.diff_add, ht, copyAssignLoop_eq, hs]
    · simp [ht, hst, iterate_copyAssign]
    · intro q hq
      by_cases hq' : q.within first n
      · rw [hc q hq' hq, Cell.option_map_id]
      · exact hb q hq hq'

/-- Move-assigning a run onto constructed slots that do not run ahead of it (a shift
to the left, or a transfer between allocations). -/
theorem _moveAssignRange_spec (E : ElemType T) (h : Heap T) (first dest : Ptr) (n : Nat)
    (hsafe : dest.base = first.base → dest.off ≤ first.off)
    (hsrc : ∀ k, k < n → h.isLive (first.add k))
    (hdst : ∀ k, k < n → h.isLive (dest.add k)) :
    ∃ h', _moveAssignRange E h first (first.add n) dest = some (h', dest.add n) ∧
      h.Frame h' ∧
      h'.stats = (if E.trivMoveAssign then h.stats
        else { h.stats with moveAssign := h.stats.moveAssign + n }) ∧
      (∀ k, k < n → h'.cell? (dest.add k) = h.cell? (first.add k)) ∧
      (∀ q, ¬ q.within dest n → ¬ q.within first n → h'.cell? q = h.cell? q) ∧
      (∀ q, q.within first n → ¬ q.within dest n →
        h'.cell? q = (h.cell? q).map (Cell.map E.afterMoveAssign)) := by
  by_cases ht : E.trivMoveAssign = true
  · obtain ⟨h', hs, hfr, hst, ha, hb⟩ := Heap.memmove_spec h dest first n
      (fun k hk => Heap.isSome_of_isLive (hsrc k hk))
      (fun k hk => Heap.isSome_of_isLive (hdst k hk))
    refine ⟨h', by simp [_moveAssignRange, Ptr.diff_add, ht, hs], hfr, by simp [ht, hst],
      ha, fun q hq _ => hb q hq, ?_⟩
    intro q _ hq
    rw [hb q hq]
    simp [ElemType.afterMoveAssign, ht, Cell.option_map_id]
  · obtain ⟨h', hs, hfr, hst, ha, hb, hc⟩ :=
      fwdLoop_spec (stepSpec_moveAssign E) n h first dest hsafe hsrc
        (fun k hk => exists_ok_of_isLive (hdst k hk))
    refine ⟨h', ?_, hfr, ?_, ha, hb, ?_⟩
    · simp [_moveAssignRange, Ptr.diff_add, ht, moveAssignLoop_eq, hs]
    · simp [ht, hst, iterate_moveAssign]
    · intro q h1 h2
      rw [hc q h1 h2]
      simp [ElemType.afterMoveAssign, ht]

theorem Ptr.add_sub (p : Ptr) (n : Nat) : (p.add n).sub n = some p := by
  simp [Ptr.sub, Ptr.add]

/-- Move-assigning a run onto constructed slots that do not lie behind it (a shift to
the right): the element-wise path returns the start of the destination run, the
`memmove` path returns `dest` unchanged. -/
theorem _moveAssignBackwardRange_spec (E : ElemType T) (h : Heap T) (first dest : Ptr)
    (n : Nat)
    (hsafe : dest.base = first.base → first.off ≤ dest.off)
    (hsrc : ∀ k, k < n → h.isLive (first.add k))
    (hdst : ∀ k, k < n → h.isLive (dest.add k)) :
    ∃ h', _moveAssignBackwardRange E h first (first.add n) (dest.add n) =
        some (h', if E.trivMoveAssign then dest.add n else dest) ∧
      h.Frame h' ∧
      h'.stats = (if E.trivMoveAssign then h.stats
        else { h.stats with moveAssign := h.stats.moveAssign + n }) ∧
      (∀ k, k < n → h'.cell? (dest.add k) = h.cell? (first.add k)) ∧
      (∀ q, ¬ q.within dest n → ¬ q.within first n → h'.cell? q = h.cell? q) ∧
      (∀ q, q.within first n → ¬ q.within dest n →
        h'.cell? q = (h.cell? q).map (Cell.map E.afterMoveAssign)) := by
  by_cases ht : E.trivMoveAssign = true
  · obtain ⟨h', hs, hfr, hst, ha, hb⟩ := Heap.memmove_spec h dest first n
      (fun k hk => Heap.isSome_of_isLive (hsrc k hk))
      (fun k hk => Heap.isSome_of_isLive (hdst k hk))
    refine ⟨h', by simp [_moveAssignBackwardRange, Ptr.diff_add, ht, Ptr.add_sub, hs], hfr,
      by simp [ht, hst], ha, fun q hq _ => hb q hq, ?_⟩
    intro q _ hq
    rw [hb q hq]
    simp [ElemType.afterMoveAssign, ht, Cell.option_map_id]
  · obtain ⟨h', hs, hfr, hst, ha, hb, hc⟩ :=
      bwdLoop_spec (stepSpec_moveAssign E) n h first dest hsafe hsrc
        (fun k hk => exists_ok_of_isLive (hdst k hk))
    refine ⟨h', ?_, hfr, ?_, ha, hb, ?_⟩
    · simp [_moveAssignBackwardRange, Ptr.diff_add, ht, moveAssignBackwardLoop_eq, hs]
    · simp [ht, hst, iterate_moveAssign]
    · intro q h1 h2
      rw [hc q h1 h2]
      simp [ElemType.afterMoveAssign, ht]

end RangeLemmas

section AllocLemmas
variable {T : Type}

theorem Heap.block?_append (h : Heap T) (x : Option (List (Cell T))) (s : Stats) (b : Nat) :
    Heap.block? { mem := h.mem ++ [x], stats := s } b =
      if b = h.mem.length then x else h.block? b := by
  unfold Heap.block?
  simp only
  by_cases hb : b < h.mem.length
  · rw [List.getElem?_append_left hb, if_neg (by omega)]
  · by_cases he : b = h.mem.length
    · subst he
      rw [List.getElem?_append_right (le_refl _)]
      simp
      cases x <;> rfl
    · rw [List.getElem?_eq_none (by simp; omega), List.getElem?_eq_none (by omega), if_neg he]

theorem Heap.alloc_fst (h : Heap T) (n : Nat) : (h.alloc n).1 = h.mem.length := rfl

theorem Heap.alloc_stats (h : Heap T) (n : Nat) :
    (h.alloc n).2.stats = { h.stats with allocs := h.stats.allocs + 1 } := rfl

theorem Heap.alloc_length (h : Heap T) (n : Nat) :
    (h.alloc n).2.mem.length = h.mem.length + 1 := by
  simp [Heap.alloc]

theorem Heap.alloc_slots (h : Heap T) (n b : Nat) :
    (h.alloc n).2.slots? b = if b = h.mem.length then some n else h.slots? b := by
  unfold Heap.slots? Heap.alloc
  rw [Heap.block?_append]
  by_cases hb : b = h.mem.length
  · simp [hb]
  · simp [hb]

theorem Heap.alloc_cell (h : Heap T) (n : Nat) (q : Ptr) :
    (h.alloc n).2.cell? q =
      if q.base = some h.mem.length then (if q.off < n then some Cell.raw else none)
      else h.cell? q := by
  obtain ⟨qb, qo⟩ := q
  cases qb with
  | none => simp [Heap.cell?]
  | some b =>
    unfold Heap.cell? Heap.alloc
    simp only [Heap.block?_append, Option.some.injEq]
    by_cases hb : b = h.mem.length
    · simp only [hb, if_true]
      by_cases hq : qo < n
      · simp [hq, List.getElem?_replicate]
      · simp [hq, List.getElem?_replicate]
    · simp [hb]

theorem Heap.cell?_none_of_ge (h : Heap T) {b : Nat} (hb : h.mem.length ≤ b) (o : Nat) :
    h.cell? ⟨some b, o⟩ = none := by
  cases hc : h.cell? ⟨some b, o⟩ with
  | none => rfl
  | some c => have := Heap.cell?_lt hc; omega

theorem Heap.slots?_none_of_ge (h : Heap T) {b : Nat} (hb : h.mem.length ≤ b) :
    h.slots? b = none := by
  unfold Heap.slots?
  cases hc : h.block? b with
  | none => rfl
  | some blk => have := Heap.block?_lt hc; omega

theorem Heap.slots?_lt {h : Heap T} {b n : Nat} (hs : h.slots? b = some n) :
    b < h.mem.length := by
  by_contra hc
  rw [Heap.slots?_none_of_ge h (by omega)] at hs
  cases hs

theorem _allocate_pos (h : Heap T) {n : Nat} (hn : n ≠ 0) :
    _allocate h n = (some h.mem.length, (h.alloc n).2) := by
  simp [_allocate, hn, Heap.alloc]

theorem _allocate_zero (h : Heap T) : _allocate h 0 = (none, h) := rfl

theorem Heap.free_none (h : Heap T) : h.free none = some h := rfl

theorem Heap.free_spec {h : Heap T} {b n : Nat} (hs : h.slots? b = some n) :
    ∃ h', h.free (some b) = some h' ∧ h'.mem.length = h.mem.length ∧
      h'.stats = { h.stats with frees := h.stats.frees + 1 } ∧
      (∀ b', h'.slots? b' = if b' = b then none else h.slots? b') ∧
      (∀ q, h'.cell? q = if q.base = some b then none else h.cell? q) := by
  have hlt := Heap.slots?_lt hs
  unfold Heap.slots? at hs
  cases hb : h.block? b with
  | none => simp [hb] at hs
  | some blk =>
    refine ⟨{ mem := h.mem.set b none, stats := { h.stats with frees := h.stats.frees + 1 } },
      by simp [Heap.free, hb], by simp, rfl, ?_, ?_⟩
    · intro b'
      unfold Heap.slots?
      rw [Heap.block?_set h b b' none _ hlt]
      by_cases hbb : b' = b <;> simp [hbb]
    · intro q
      obtain ⟨qb, qo⟩ := q
      cases qb with
      | none => simp [Heap.cell?]
      | some b' =>
        unfold Heap.cell?
        simp only [Heap.block?_set h b b' none _ hlt, Option.some.injEq]
        by_cases hbb : b' = b <;> simp [hbb]

end AllocLemmas

section OwnsLemmas
variable {T : Type}

theorem vector._ptrAt_add (v : vector) (i k : Nat) : (v._ptrAt i).add k = v._ptrAt (i + k) :=
  rfl

theorem Owns.isLive {h : Heap T} {v : vector} {s : List T} (O : Owns h v s) {i : Nat}
    (hi : i < v.m_size) : h.isLive (v._ptrAt i) := by
  have hlt : i < s.length := by rw [← O.size_eq]; exact hi
  exact ⟨s[i], O.elems i s[i] (List.getElem?_eq_getElem hlt)⟩

theorem Owns.cell_eq {h : Heap T} {v : vector} {s : List T} (O : Owns h v s) {i : Nat}
    (hi : i < s.length) : h.cell? (v._ptrAt i) = some (Cell.live s[i]) :=
  O.elems i s[i] (List.getElem?_eq_getElem hi)

theorem Owns.isSome {h : Heap T} {v : vector} {s : List T} (O : Owns h v s) {i : Nat}
    (hi : i < v.m_capacity) : (h.cell? (v._ptrAt i)).isSome := by
  have hs := O.slots
  cases hd : v.m_data with
  | none =>
    have := O.null_iff.mp hd
    omega
  | some b =>
    rw [hd] at hs
    simp only [Heap.bufferSlots] at hs
    unfold vector._ptrAt
    rw [hd]
    exact (Heap.cell?_of_slots hs i).mpr hi

theorem Owns.data_lt {h : Heap T} {v : vector} {s : List T} (O : Owns h v s) {b : Nat}
    (hd : v.m_data = some b) : b < h.mem.length := by
  have hs := O.slots
  rw [hd] at hs
  exact Heap.slots?_lt hs

theorem vector.readElems_of_cells (h : Heap T) (v : vector) (s : List T) :
    ∀ n, n ≤ s.length →
      (∀ i x, s[i]? = some x → h.cell? (v._ptrAt i) = some (Cell.live x)) →
      vector.readElems h v n = some (s.take n) := by
  intro n
  induction n with
  | zero => intro _ _; rfl
  | succ n ih =>
    intro hn hel
    have hlt : n < s.length := by omega
    have hl : h.load (v._ptrAt n) = some s[n] :=
      Heap.load_of_cell (hel n s[n] (List.getElem?_eq_getElem hlt))
    rw [List.take_succ, List.getElem?_eq_getElem hlt]
    simp only [vector.readElems, ih (by omega) hel, hl]
    rfl

/-- A well-formed vector reads back as the sequence it holds. -/
theorem Owns.toList_eq {h : Heap T} {v : vector} {s : List T} (O : Owns h v s) :
    v.toList h = some s := by
  unfold vector.toList
  rw [vector.readElems_of_cells h v s v.m_size (by rw [O.size_eq]) O.elems, O.size_eq,
    List.take_length]

theorem getElem?_insertAt {s : List T} {i j : Nat} {x y : T} (hi : i ≤ s.length)
    (hj : (s.take i ++ x :: s.drop i)[j]? = some y) :
    (j < i ∧ s[j]? = some y) ∨ (j = i ∧ y = x) ∨ (i < j ∧ s[j - 1]? = some y) := by
  have hlen : (s.take i).length = i := by simp [hi]
  by_cases h1 : j < i
  · left
    rw [List.getElem?_append_left (by omega)] at hj
    rw [List.getElem?_take] at hj
    simp [h1] at hj
    exact ⟨h1, hj⟩
  · rw [List.getElem?_append_right (by omega), hlen] at hj
    by_cases h2 : j = i
    · right; left
      subst h2
      simp at hj
      exact ⟨rfl, hj.symm⟩
    · right; right
      have : j - i = (j - i - 1) + 1 := by omega
      rw [this, List.getElem?_cons_succ, List.getElem?_drop] at hj
      have e : i + (j - i - 1) = j - 1 := by omega
      rw [e] at hj
      exact ⟨by omega, hj⟩

end OwnsLemmas

section EmplaceLemmas
variable {T : Type}

theorem Arg.builds_copy (E : ElemType T) (x : T) : Arg.Builds E (Arg.copy (Ref.ext x)) x :=
  ⟨_, fun _ => rfl⟩

theorem Arg.builds_move (E : ElemType T) (x : T) : Arg.Builds E (Arg.move (Ref.ext x)) x :=
  ⟨_, fun _ => rfl⟩

theorem Arg.builds_make (E : ElemType T) (x : T) : Arg.Builds E (Arg.make x) x :=
  ⟨_, fun _ => rfl⟩

theorem Arg.builds_dflt (E : ElemType T) : Arg.Builds E Arg.dflt E.dflt :=
  ⟨_, fun _ => rfl⟩

theorem Arg.Builds.buildsAt {E : ElemType T} {args : Arg T} {x : T} (hb : Arg.Builds E args x)
    (h : Heap T) : Arg.BuildsAt E h args x := by
  obtain ⟨f, hf⟩ := hb
  exact ⟨f, hf h⟩

theorem Arg.Builds.reads {E : ElemType T} {args : Arg T} {x : T} (hb : Arg.Builds E args x)
    (h : Heap T) : Arg.Reads E h args x :=
  fun h' _ => hb.buildsAt h'

theorem Arg.Reads.here {E : ElemType T} {h : Heap T} {args : Arg T} {x : T}
    (hb : Arg.Reads E h args x) : Arg.BuildsAt E h args x :=
  hb h (fun _ _ => rfl)

/-- A `const T&` to a slot holding `x` builds `x`, in every heap that agrees on the
live allocations. -/
theorem Arg.reads_copy_slot (E : ElemType T) {h : Heap T} {p : Ptr} {x : T}
    (hp : h.cell? p = some (Cell.live x)) : Arg.Reads E h (Arg.copy (Ref.slot p)) x := by
  intro h' hagree
  have hp' : h'.cell? p = some (Cell.live x) := by
    rw [hagree p (by rw [hp]; rfl), hp]
  refine ⟨fun s => { s with copyCtor := s.copyCtor + 1 }, ?_⟩
  simp [Heap.evalArg, Heap.evalRef, Heap.load_eq_some.mpr hp']

theorem _constructSingle_at {E : ElemType T} {args : Arg T} {x : T} {h : Heap T}
    (hb : Arg.BuildsAt E h args x) {p : Ptr} (hp : (h.cell? p).isSome) :
    ∃ h', _constructSingle E h p args = some h' ∧ h.Frame h' ∧
      (∃ f, h'.stats = f h.stats ∧ h.evalArg E args = some (x, h.tick f)) ∧
      ∀ q, h'.cell? q = if q = p then some (Cell.live x) else h.cell? q := by
  obtain ⟨f, hf⟩ := hb
  rw [Option.isSome_iff_exists] at hp
  obtain ⟨c, hc⟩ := hp
  obtain ⟨h', hs, hfr, hst, hcell⟩ :=
    Heap.store_spec (h := h.tick f) (p := p) hc (Cell.live x)
  exact ⟨h', by simp [_constructSingle, hf, hs], (Heap.frame_tick h f).trans hfr,
    ⟨f, by rw [hst]; rfl, hf⟩, hcell⟩

theorem _constructSingle_builds {E : ElemType T} {args : Arg T} {x : T}
    (hb : Arg.Builds E args x) {h : Heap T} {p : Ptr} (hp : (h.cell? p).isSome) :
    ∃ h', _constructSingle E h p args = some h' ∧ h.Frame h' ∧
      ∀ q, h'.cell? q = if q = p then some (Cell.live x) else h.cell? q := by
  obtain ⟨h', hs, hfr, _, hcell⟩ := _constructSingle_at (hb.buildsAt h) hp
  exact ⟨h', hs, hfr, hcell⟩

theorem moveAssignAt_ext (E : ElemType T) {h : Heap T} {p : Ptr} (hp : h.isLive p) (x : T) :
    ∃ h', moveAssignAt E h p (Ref.ext x) = some h' ∧ h.Frame h' ∧
      ∀ q, h'.cell? q = if q = p then some (Cell.live x) else h.cell? q := by
  obtain ⟨y, hy⟩ := hp
  obtain ⟨h', hs, hfr, _, hcell⟩ := Heap.store_spec hy (Cell.live x)
  refine ⟨h'.tick fun s => { s with moveAssign := s.moveAssign + 1 }, ?_,
    hfr.trans (Heap.frame_tick h' _), fun q => by rw [Heap.cell?_tick, hcell]⟩
  simp [moveAssignAt, Heap.evalRef, Heap.leaveMoved, Heap.load_of_cell hy, hs]

@[simp] theorem vector._ptrAt_inj (v : vector) (i j : Nat) :
    v._ptrAt i = v._ptrAt j ↔ i = j := by
  simp [vector._ptrAt]

@[simp] theorem vector.within_ptrAt (v : vector) (j a m : Nat) :
    (v._ptrAt j).within (v._ptrAt a) m ↔ a ≤ j ∧ j < a + m := by
  simp [Ptr.within, vector._ptrAt]

theorem Owns.frame_slots {h h' : Heap T} {v : vector} {s : List T} (O : Owns h v s)
    (hf : h.Frame h') : h'.bufferSlots v.m_data = some v.m_capacity := by
  have := O.slots
  cases hd : v.m_data with
  | none => rw [hd] at this; exact this
  | some b => rw [hd] at this; simp only [Heap.bufferSlots] at *; rw [hf.2 b]; exact this

end EmplaceLemmas

section EmplaceInPlace
variable {T : Type}

/-- The in-place path of `emplace`: spare capacity and `pos` before `end()`.  The
temporary is built from the arguments before any slot is written, so the arguments may
refer to an element of the vector. -/
theorem vector.emplace_inplace_at (E : ElemType T) {h : Heap T} {v : vector} {s : List T}
    (O : Owns h v s) {i : Nat} (hi : i < s.length) (hcap : v.m_size < v.m_capacity)
    {args : Arg T} {x : T} (hb : Arg.BuildsAt E h args x) :
    ∃ h', v.emplace E h (v._ptrAt i) args =
        some (h', { v with m_size := v.m_size + 1 }, v._ptrAt i) ∧
      h.Frame h' ∧
      Owns h' { v with m_size := v.m_size + 1 } (s.take i ++ x :: s.drop i) ∧
      (∀ q : Ptr, q.base ≠ v.m_data → h'.cell? q = h.cell? q) := by
  have hn : v.m_size = s.length := O.size_eq
  obtain ⟨f, hf⟩ := hb
  -- the temporary `value`
  have hcellT : ∀ q, (h.tick f).cell? q = h.cell? q := fun q => rfl
  -- the last element is move-constructed into the slot after it
  obtain ⟨xl, hxl⟩ := O.isLive (i := v.m_size - 1) (by omega)
  have hlast : (h.tick f).cell? (v._ptrAt (v.m_size - 1)) = some (Cell.live xl) := hxl
  have hnew := O.isSome hcap
  rw [Option.isSome_iff_exists] at hnew
  obtain ⟨c, hc⟩ := hnew
  obtain ⟨h2, hs2, hfr2, _, hcell2⟩ := (stepSpec_moveConstruct E).step (h.tick f)
    (v._ptrAt v.m_size) (v._ptrAt (v.m_size - 1)) _ c hlast hc trivial
  -- the block `[pos, last)` is shifted one slot to the right
  have hlive2 : ∀ j, j < v.m_size → h2.isLive (v._ptrAt j) := by
    intro j hj
    rw [Heap.isLive, hcell2, if_neg (by simp; omega)]
    by_cases he : j = v.m_size - 1
    · rw [if_pos (by simp [he])]; exact ⟨_, rfl⟩
    · rw [if_neg (by simp [he])]; exact O.isLive hj
  obtain ⟨h3, hs3, hfr3, _, ha3, hb3, hc3⟩ := _moveAssignBackwardRange_spec E h2
    (v._ptrAt i) (v._ptrAt (i + 1)) (v.m_size - 1 - i) (fun _ => by simp [vector._ptrAt])
    (fun k hk => hlive2 (i + k) (by omega)) (fun k hk => hlive2 (i + 1 + k) (by omega))
  have e1 : (v._ptrAt i).add (v.m_size - 1 - i) = v._ptrAt (v.m_size - 1) := by
    rw [vector._ptrAt_add]; congr 1; omega
  have e2 : (v._ptrAt (i + 1)).add (v.m_size - 1 - i) = v._ptrAt v.m_size := by
    rw [vector._ptrAt_add]; congr 1; omega
  rw [e1, e2] at hs3
  -- the temporary is move-assigned into `*pos`
  have hlive3 : h3.isLive (v._ptrAt i) := by
    by_cases hm : i = v.m_size - 1
    · rw [Heap.isLive, hb3 (v._ptrAt i) (by simp) (by simp; omega)]
      exact hlive2 i (by omega)
    · exact Heap.isLive_of_map (hc3 (v._ptrAt i) (by simp; omega) (by simp))
        (hlive2 i (by omega))
  obtain ⟨h4, hs4, hfr4, hcell4⟩ := moveAssignAt_ext E hlive3 x
  refine ⟨if E.trivDtor then h4 else h4.tick fun s => { s with dtor := s.dtor + 1 },
    ?_, ?_, ?_, ?_⟩
  · have hassert : vector.assert (v.checkIterator (v._ptrAt i)) = some () := by
      simp [vector.assert, vector.checkIterator, vector._ptrAt]; omega
    have hne : v._ptrAt i ≠ v._ptrAt v.m_size := by simp; omega
    simp only [vector.emplace, hassert, Option.bind_eq_bind, Option.some_bind, if_pos hcap,
      if_neg hne, hf, hs2, hs3, hs4, Option.pure_def]
  · have : h.Frame h4 := (((Heap.frame_tick h f).trans hfr2).trans hfr3).trans hfr4
    split
    · exact this
    · exact this.trans (Heap.frame_tick _ _)
  · have hfin : ∀ q, (if E.trivDtor then h4
        else h4.tick fun s => { s with dtor := s.dtor + 1 }).cell? q = h4.cell? q := by
      intro q; split <;> rfl
    have hfr : h.Frame (if E.trivDtor then h4
        else h4.tick fun s => { s with dtor := s.dtor + 1 }) := by
      have : h.Frame h4 := (((Heap.frame_tick h f).trans hfr2).trans hfr3).trans hfr4
      split
      · exact this
      · exact this.trans (Heap.frame_tick _ _)
    refine ⟨by simp [hn, hi.le]; omega, by simp; omega, ?_, O.frame_slots hfr, ?_⟩
    · have := O.null_iff; simpa using this
    · intro j y hj
      show Heap.cell? _ (v._ptrAt j) = some (Cell.live y)
      rw [hfin, hcell4]
      rcases getElem?_insertAt hi.le hj with ⟨hji, hy⟩ | ⟨rfl, rfl⟩ | ⟨hji, hy⟩
      · rw [if_neg (by simp; omega), hb3 (v._ptrAt j) (by simp; omega) (by simp; omega),
          hcell2, if_neg (by simp; omega), if_neg (by simp; omega)]
        exact O.elems j y hy
      · rw [if_pos rfl]
      · have hjn : j - 1 < s.length := by
          by_contra hcon
          rw [List.getElem?_eq_none (by omega)] at hy
          cases hy
        rw [if_neg (by simp; omega)]
        by_cases hjl : j = v.m_size
        · rw [hb3 (v._ptrAt j) (by simp; omega) (by simp; omega), hcell2,
            if_pos (by simp [hjl])]
          have hy' := O.elems _ y hy
          have e : j - 1 = v.m_size - 1 := by omega
          rw [e, hxl] at hy'
          exact hy'.symm ▸ rfl
        · have hk := ha3 (j - 1 - i) (by omega)
          have e3 : (v._ptrAt (i + 1)).add (j - 1 - i) = v._ptrAt j := by
            rw [vector._ptrAt_add]; congr 1; omega
          have e4 : (v._ptrAt i).add (j - 1 - i) = v._ptrAt (j - 1) := by
            rw [vector._ptrAt_add]; congr 1; omega
          rw [e3, e4] at hk
          rw [hk, hcell2, if_neg (by simp; omega), if_neg (by simp; omega)]
          exact O.elems _ y hy
  · intro q hq
    have hqne : ∀ j, q ≠ v._ptrAt j := by
      intro j he; apply hq; rw [he]; rfl
    have hqw : ∀ a m, ¬ q.within (v._ptrAt a) m := by
      intro a m hw; exact hq hw.1
    have : (if E.trivDtor then h4
        else h4.tick fun s => { s with dtor := s.dtor + 1 }).cell? q = h4.cell? q := by
      split <;> rfl
    rw [this, hcell4, if_neg (hqne _), hb3 _ (hqw _ _) (hqw _ _), hcell2, if_neg (hqne _),
      if_neg (hqne _)]
    rfl

/-- The in-place path of `emplace` for arguments outside the heap. -/
theorem vector.emplace_inplace (E : ElemType T) {h : Heap T} {v : vector} {s : List T}
    (O : Owns h v s) {i : Nat} (hi : i < s.length) (hcap : v.m_size < v.m_capacity)
    {args : Arg T} {x : T} (hb : Arg.Builds E args x) :
    ∃ h', v.emplace E h (v._ptrAt i) args =
        some (h', { v with m_size := v.m_size + 1 }, v._ptrAt i) ∧
      h.Frame h' ∧
      Owns h' { v with m_size := v.m_size + 1 } (s.take i ++ x :: s.drop i) ∧
      (∀ q : Ptr, q.base ≠ v.m_data → h'.cell? q = h.cell? q) :=
  vector.emplace_inplace_at E O hi hcap (hb.buildsAt h)

end EmplaceInPlace

section EmplaceRealloc
variable {T : Type}

theorem vector._ptrAt_ne_of_data {v w : vector} (hd : v.m_data ≠ w.m_data) (j k : Nat) :
    v._ptrAt j ≠ w._ptrAt k := by
  intro he
  apply hd
  simpa [vector._ptrAt] using congrArg Ptr.base he

theorem vector.not_within_of_data {v w : vector} (hd : v.m_data ≠ w.m_data) (j a m : Nat) :
    ¬ (v._ptrAt j).within (w._ptrAt a) m := fun hw => hd hw.1

theorem Owns.data_ne_fresh {h : Heap T} {v : vector} {s : List T} (O : Owns h v s) :
    v.m_data ≠ some h.mem.length := by
  intro he
  have := O.data_lt he
  omega

/-- The spare-capacity append `_emplace_back_with_unused_capacity`. -/
theorem vector._emplace_back_with_unused_capacity_at (E : ElemType T) {h : Heap T}
    {v : vector} {s : List T} (O : Owns h v s) (hcap : v.m_size < v.m_capacity)
    {args : Arg T} {x : T} (hb : Arg.BuildsAt E h args x) :
    ∃ h', v._emplace_back_with_unused_capacity E h args =
        some (h', { v with m_size := v.m_size + 1 }, v._ptrAt v.m_size) ∧
      h.Frame h' ∧
      Owns h' { v with m_size := v.m_size + 1 } (s ++ [x]) ∧
      (∀ q : Ptr, q.base ≠ v.m_data → h'.cell? q = h.cell? q) := by
  obtain ⟨h', hs, hfr, _, hcell⟩ := _constructSingle_at hb (O.isSome hcap)
  refine ⟨h', by simp [vector._emplace_back_with_unused_capacity, hs], hfr, ?_, ?_⟩
  · refine ⟨by simp [O.size_eq], by simp; omega, by simpa using O.null_iff,
      O.frame_slots hfr, ?_⟩
    intro j y hj
    show h'.cell? (v._ptrAt j) = some (Cell.live y)
    rw [hcell]
    by_cases hjl : j < s.length
    · rw [List.getElem?_append_left hjl] at hj
      rw [if_neg (by simp; have := O.size_eq; omega)]
      exact O.elems j y hj
    · rw [List.getElem?_append_right (by omega)] at hj
      have hj0 : j - s.length = 0 := by
        by_contra hc
        rw [List.getElem?_eq_none (by simp; omega)] at hj
        cases hj
      rw [hj0] at hj
      simp at hj
      rw [if_pos (by simp; have := O.size_eq; omega), hj]
  · intro q hq
    rw [hcell, if_neg]
    intro he; apply hq; rw [he]; rfl

/-- The spare-capacity append for arguments outside the heap. -/
theorem vector._emplace_back_with_unused_capacity_spec (E : ElemType T) {h : Heap T}
    {v : vector} {s : List T} (O : Owns h v s) (hcap : v.m_size < v.m_capacity)
    {args : Arg T} {x : T} (hb : Arg.Builds E args x) :
    ∃ h', v._emplace_back_with_unused_capacity E h args =
        some (h', { v with m_size := v.m_size + 1 }, v._ptrAt v.m_size) ∧
      h.Frame h' ∧
      Owns h' { v with m_size := v.m_size + 1 } (s ++ [x]) ∧
      (∀ q : Ptr, q.base ≠ v.m_data → h'.cell? q = h.cell? q) :=
  vector._emplace_back_with_unused_capacity_at E O hcap (hb.buildsAt h)

/-- The reallocating path `_emplace_reallocate`: the new buffer has exactly `size + 1`
slots and holds the old elements around the new one.  The new element is built in the
new buffer while the old one is still untouched, so the arguments may refer to an
element of the vector. -/
theorem vector._emplace_reallocate_at (E : ElemType T) {h : Heap T} {v : vector}
    {s : List T} (O : Owns h v s) {i : Nat} (hi : i ≤ s.length)
    (hfull : v.m_size = v.m_capacity) {args : Arg T} {x : T}
    (hb : Arg.BuildsAt E (h.alloc (v.m_size + 1)).2 args x) :
    ∃ h', v._emplace_reallocate E h (v._ptrAt i) args =
        some (h', { m_data := some h.mem.length, m_size := v.m_size + 1,
                    m_capacity := v.m_size + 1 },
              { base := some h.mem.length, off := i }) ∧
      Owns h' { m_data := some h.mem.length, m_size := v.m_size + 1,
                m_capacity := v.m_size + 1 } (s.take i ++ x :: s.drop i) ∧
      h'.mem.length = h.mem.length + 1 ∧
      (∀ q : Ptr, q.base ≠ v.m_data → q.base ≠ some h.mem.length →
        h'.cell? q = h.cell? q) := by
  have hn : v.m_size = s.length := O.size_eq
  let nv : vector := { m_data := some h.mem.length, m_size := v.m_size + 1,
                       m_capacity := v.m_size + 1 }
  have hdne : v.m_data ≠ nv.m_data := O.data_ne_fresh
  have hdne' : nv.m_data ≠ v.m_data := fun e => hdne e.symm
  -- allocation of the new buffer
  have hcellA : ∀ j, (h.alloc (v.m_size + 1)).2.cell? (nv._ptrAt j) =
      if j < v.m_size + 1 then some Cell.raw else none := by
    intro j; rw [Heap.alloc_cell]; simp [nv, vector._ptrAt]
  have hcellA' : ∀ q : Ptr, q.base ≠ some h.mem.length →
      (h.alloc (v.m_size + 1)).2.cell? q = h.cell? q := by
    intro q hq; rw [Heap.alloc_cell, if_neg hq]
  -- the new element is constructed first
  obtain ⟨h1, hs1, hfr1, _, hcell1⟩ := _constructSingle_at hb (p := nv._ptrAt i)
    (by rw [hcellA, if_pos (by omega)]; rfl)
  have hold1 : ∀ j, h1.cell? (v._ptrAt j) = h.cell? (v._ptrAt j) := by
    intro j
    rw [hcell1, if_neg (vector._ptrAt_ne_of_data hdne _ _), hcellA' _ hdne]
  have hlive1 : ∀ j, j < v.m_size → h1.isLive (v._ptrAt j) := by
    intro j hj
    rw [Heap.isLive, hold1]; exact O.isLive hj
  have hsome1 : ∀ j, j < v.m_size + 1 → (h1.cell? (nv._ptrAt j)).isSome := by
    intro j hj
    rw [hfr1.isSome_cell, hcellA, if_pos hj]; rfl
  -- the old elements are moved around it
  have hmoves : ∃ h3, (if i = v.m_size then
        _moveConstructRange E h1 (v._ptrAt 0) (v._ptrAt v.m_size) (nv._ptrAt 0)
      else do
        let h2 ← _moveConstructRange E h1 (v._ptrAt 0) (v._ptrAt i) (nv._ptrAt 0)
        _moveConstructRange E h2 (v._ptrAt i) (v._ptrAt v.m_size)
          ((nv._ptrAt i).add 1)) = some h3 ∧ h1.Frame h3 ∧
      (∀ j, j < i → h3.cell? (nv._ptrAt j) = h.cell? (v._ptrAt j)) ∧
      (∀ j, i ≤ j → j < v.m_size → h3.cell? (nv._ptrAt (j + 1)) = h.cell? (v._ptrAt j)) ∧
      h3.cell? (nv._ptrAt i) = some (Cell.live x) ∧
      (∀ j, j < v.m_size → h3.isLive (v._ptrAt j)) ∧
      (∀ q : Ptr, q.base ≠ v.m_data → q.base ≠ some h.mem.length →
        h3.cell? q = h1.cell? q) := by
    by_cases hin : i = v.m_size
    · obtain ⟨h3, hs3, hfr3, _, ha3, hb3, hc3⟩ := _moveConstructRange_spec E h1
        (v._ptrAt 0) (nv._ptrAt 0) v.m_size (fun e => absurd e hdne')
        (fun k hk => hlive1 (0 + k) (by omega)) (fun k hk => hsome1 (0 + k) (by omega))
      have e1 : (v._ptrAt 0).add v.m_size = v._ptrAt v.m_size := by
        rw [vector._ptrAt_add, Nat.zero_add]
      rw [e1] at hs3
      refine ⟨h3, by rw [if_pos hin, hs3], hfr3, ?_, ?_, ?_, ?_, ?_⟩
      · intro j hj
        have := ha3 j (by omega)
        rw [vector._ptrAt_add, vector._ptrAt_add, Nat.zero_add] at this
        rw [this, hold1]
      · intro j h1' h2'; omega
      · rw [hb3 (nv._ptrAt i) (by simp; omega) (vector.not_within_of_data hdne' _ _ _),
          hcell1, if_pos rfl]
      · intro j hj
        exact Heap.isLive_of_map (hc3 (v._ptrAt j) (by simp; omega)
          (vector.not_within_of_data hdne _ _ _)) (hlive1 j hj)
      · intro q hq1 hq2
        exact hb3 q (fun hw => hq2 hw.1) (fun hw => hq1 hw.1)
    · obtain ⟨h2, hs2, hfr2, _, ha2, hb2, hc2⟩ := _moveConstructRange_spec E h1
        (v._ptrAt 0) (nv._ptrAt 0) i (fun e => absurd e hdne')
        (fun k hk => hlive1 (0 + k) (by omega)) (fun k hk => hsome1 (0 + k) (by omega))
      have e1 : (v._ptrAt 0).add i = v._ptrAt i := by
        rw [vector._ptrAt_add, Nat.zero_add]
      rw [e1] at hs2
      have hold2 : ∀ j, i ≤ j → h2.cell? (v._ptrAt j) = h.cell? (v._ptrAt j) := by
        intro j hj
        rw [hb2 (v._ptrAt j) (vector.not_within_of_data hdne _ _ _) (by simp; omega), hold1]
      obtain ⟨h3, hs3, hfr3, _, ha3, hb3, hc3⟩ := _moveConstructRange_spec E h2
        (v._ptrAt i) (nv._ptrAt (i + 1)) (v.m_size - i) (fun e => absurd e hdne')
        (fun k hk => by
          rw [vector._ptrAt_add, Heap.isLive, hold2 _ (by omega)]
          exact O.isLive (by omega))
        (fun k hk => by
          rw [hfr2.isSome_cell]; exact hsome1 (i + 1 + k) (by omega))
      have e3 : (v._ptrAt i).add (v.m_size - i) = v._ptrAt v.m_size := by
        rw [vector._ptrAt_add]; congr 1; omega
      have e4 : (nv._ptrAt i).add 1 = nv._ptrAt (i + 1) := rfl
      rw [e3] at hs3
      refine ⟨h3, by rw [if_neg hin, e4]; simp [hs2, hs3], hfr2.trans hfr3, ?_, ?_, ?_, ?_, ?_⟩
      · intro j hj
        rw [hb3 (nv._ptrAt j) (by simp; omega) (vector.not_within_of_data hdne' _ _ _)]
        have := ha2 j hj
        rw [vector._ptrAt_add, vector._ptrAt_add, Nat.zero_add] at this
        rw [this, hold1]
      · intro j hj1 hj2
        have := ha3 (j - i) (by omega)
        rw [vector._ptrAt_add, vector._ptrAt_add] at this
        have ea : i + 1 + (j - i) = j + 1 := by omega
        have eb : i + (j - i) = j := by omega
        rw [ea, eb] at this
        rw [this, hold2 j hj1]
      · rw [hb3 (nv._ptrAt i) (by simp) (vector.not_within_of_data hdne' _ _ _),
          hb2 (nv._ptrAt i) (by simp) (vector.not_within_of_data hdne' _ _ _),
          hcell1, if_pos rfl]
      · intro j hj
        by_cases hji : j < i
        · rw [Heap.isLive, hb3 (v._ptrAt j) (vector.not_within_of_data hdne _ _ _)
            (by simp; omega)]
          exact Heap.isLive_of_map (hc2 (v._ptrAt j) (by simp; omega)
            (vector.not_within_of_data hdne _ _ _)) (hlive1 j hj)
        · refine Heap.isLive_of_map (hc3 (v._ptrAt j) (by simp; omega)
            (vector.not_within_of_data hdne _ _ _)) ?_
          rw [Heap.isLive, hold2 j (by omega)]
          exact O.isLive hj
      · intro q hq1 hq2
        rw [hb3 q (fun hw => hq2 hw.1) (fun hw => hq1 hw.1),
          hb2 q (fun hw => hq2 hw.1) (fun hw => hq1 hw.1)]
  obtain ⟨h3, hs3, hfr3, hP1, hP2, hP3, hP4, hP5⟩ := hmoves
  -- the old buffer is destroyed and freed
  have hslots3 : h3.slots? h.mem.length = some (v.m_size + 1) := by
    rw [(hfr1.trans hfr3).2, Heap.alloc_slots, if_pos rfl]
  have hlen3 : h3.mem.length = h.mem.length + 1 := by
    rw [(hfr1.trans hfr3).1, Heap.alloc_length]
  have hchange : ∃ h5, v._changeArray E h3 (some h.mem.length) (v.m_size + 1)
        (v.m_size + 1) = some (h5, nv) ∧
      h5.mem.length = h.mem.length + 1 ∧
      h5.slots? h.mem.length = some (v.m_size + 1) ∧
      (∀ q : Ptr, q.base ≠ v.m_data → h5.cell? q = h3.cell? q) := by
    cases hd : v.m_data with
    | none =>
      exact ⟨h3, by simp [vector._changeArray, hd, nv], hlen3, hslots3, fun _ _ => rfl⟩
    | some b =>
      obtain ⟨h4, hs4, hfr4, _, ha4, hb4⟩ := _destroyRange_spec E h3 (v._ptrAt 0) v.m_size
        (fun k hk => hP4 (0 + k) (by omega))
      have e1 : (v._ptrAt 0).add v.m_size = v._ptrAt v.m_size := by
        rw [vector._ptrAt_add, Nat.zero_add]
      rw [e1] at hs4
      have hsl : h4.slots? b = some v.m_capacity := by
        have := O.slots
        rw [hd] at this
        rw [hfr4.2, (hfr1.trans hfr3).2, Heap.alloc_slots,
          if_neg (by have := O.data_lt hd; omega)]
        exact this
      obtain ⟨h5, hs5, hlen5, _, hsl5, hcell5⟩ := Heap.free_spec hsl
      have hbne : h.mem.length ≠ b := by have := O.data_lt hd; omega
      refine ⟨h5, by simp [vector._changeArray, hd, hs4, hs5, nv], ?_, ?_, ?_⟩
      · rw [hlen5, hfr4.1, hlen3]
      · rw [hsl5, if_neg hbne, hfr4.2, hslots3]
      · intro q hq
        rw [hcell5, if_neg hq, hb4 q (fun hw => hq (by rw [hw.1]; exact hd))]
  obtain ⟨h5, hs5, hlen5, hsl5, hcell5⟩ := hchange
  have hnew5 : ∀ j, h5.cell? (nv._ptrAt j) = h3.cell? (nv._ptrAt j) :=
    fun j => hcell5 _ hdne'
  refine ⟨h5, ?_, ?_, hlen5, ?_⟩
  · have hassert : vector.assert (decide (v.m_size = v.m_capacity)) = some () := by
      simp [vector.assert, hfull]
    have hidx : v._ptrToIndex (v._ptrAt i) = some i := by
      simp [vector._ptrToIndex, Ptr.diff, vector._ptrAt]
    have hal : _allocate h (v.m_size + 1) = (some h.mem.length, (h.alloc (v.m_size + 1)).2) :=
      _allocate_pos h (by omega)
    have e0 : (({ base := some h.mem.length, off := 0 } : Ptr).add i) = nv._ptrAt i := by
      simp [Ptr.add, vector._ptrAt, nv]
    have e00 : ({ base := some h.mem.length, off := 0 } : Ptr) = nv._ptrAt 0 := rfl
    simp only [vector._emplace_reallocate, hassert, hidx, hal, Option.bind_eq_bind,
      Option.some_bind, e0, hs1]
    rw [e00]
    by_cases hin : i = v.m_size
    · rw [if_pos hin] at hs3
      rw [if_pos hin, hs3]
      simp only [Option.some_bind, hs5, Option.pure_def]
      rfl
    · rw [if_neg hin] at hs3
      obtain ⟨h2, hs2, hs3'⟩ := Option.bind_eq_some.mp hs3
      rw [if_neg hin, hs2]
      simp only [Option.some_bind, hs3', hs5, Option.pure_def]
      rfl
  · refine ⟨by simp [hn, hi]; omega, le_refl _, by simp, hsl5, ?_⟩
    intro j y hj
    show h5.cell? (nv._ptrAt j) = some (Cell.live y)
    rw [hnew5]
    rcases getElem?_insertAt hi hj with ⟨hji, hy⟩ | ⟨rfl, rfl⟩ | ⟨hji, hy⟩
    · rw [hP1 j hji]; exact O.elems j y hy
    · exact hP3
    · have hjn : j - 1 < s.length := by
        by_contra hcon
        rw [List.getElem?_eq_none (by omega)] at hy
        cases hy
      have := hP2 (j - 1) (by omega) (by omega)
      have e : j - 1 + 1 = j := by omega
      rw [e] at this
      rw [this]
      exact O.elems _ y hy
  · intro q hq1 hq2
    rw [hcell5 q hq1, hP5 q hq1 hq2, hcell1, if_neg, hcellA' q hq2]
    intro he; apply hq2; rw [he]; rfl

/-- The reallocating path `_emplace_reallocate` for arguments outside the heap. -/
theorem vector._emplace_reallocate_spec (E : ElemType T) {h : Heap T} {v : vector}
    {s : List T} (O : Owns h v s) {i : Nat} (hi : i ≤ s.length)
    (hfull : v.m_size = v.m_capacity) {args : Arg T} {x : T} (hb : Arg.Builds E args x) :
    ∃ h', v._emplace_reallocate E h (v._ptrAt i) args =
        some (h', { m_data := some h.mem.length, m_size := v.m_size + 1,
                    m_capacity := v.m_size + 1 },
              { base := some h.mem.length, off := i }) ∧
      Owns h' { m_data := some h.mem.length, m_size := v.m_size + 1,
                m_capacity := v.m_size + 1 } (s.take i ++ x :: s.drop i) ∧
      h'.mem.length = h.mem.length + 1 ∧
      (∀ q : Ptr, q.base ≠ v.m_data → q.base ≠ some h.mem.length →
        h'.cell? q = h.cell? q) :=
  vector._emplace_reallocate_at E O hi hfull (hb.buildsAt _)

end EmplaceRealloc

section EmplaceSpec
variable {T : Type}

theorem vector.begin_add (v : vector) (i : Nat) : v.begin_.add i = v._ptrAt i := by
  simp [vector.begin_, vector._ptrAt, Ptr.add]

theorem vector.readElems_some {h : Heap T} {v : vector} :
    ∀ (n : Nat) (l : List T), vector.readElems h v n = some l →
      l.length = n ∧ ∀ i x, l[i]? = some x → h.cell? (v._ptrAt i) = some (Cell.live x) := by
  intro n
  induction n with
  | zero =>
    intro l hl
    simp only [vector.readElems, Option.some.injEq] at hl
    subst hl
    exact ⟨rfl, fun i x hx => by simp at hx⟩
  | succ n ih =>
    intro l hl
    simp only [vector.readElems] at hl
    obtain ⟨xs, hxs, hl⟩ := Option.bind_eq_some.mp hl
    obtain ⟨x, hx, hl⟩ := Option.bind_eq_some.mp hl
    simp only [Option.pure_def, Option.some.injEq] at hl
    subst hl
    obtain ⟨hlen, hel⟩ := ih xs hxs
    refine ⟨by simp [hlen], ?_⟩
    intro i y hy
    by_cases hi : i < xs.length
    · rw [List.getElem?_append_left hi] at hy
      exact hel i y hy
    · rw [List.getElem?_append_right (by omega)] at hy
      have hi0 : i - xs.length = 0 := by
        by_contra hc
        rw [List.getElem?_eq_none (by simp; omega)] at hy
        cases hy
      rw [hi0] at hy
      simp only [List.getElem?_cons_zero, Option.some.injEq] at hy
      subst hy
      have : i = n := by omega
      subst this
      exact Heap.load_eq_some.mp hx

/-- A vector whose fields are consistent with the heap and which reads back as `s` is
well formed and holds `s`. -/
theorem Owns.of_toList {h : Heap T} {v : vector} {s : List T}
    (hle : v.m_size ≤ v.m_capacity) (hnull : v.m_data = none ↔ v.m_capacity = 0)
    (hslots : h.bufferSlots v.m_data = some v.m_capacity) (hread : v.toList h = some s) :
    Owns h v s := by
  obtain ⟨hlen, hel⟩ := vector.readElems_some v.m_size s hread
  exact ⟨hlen.symm, hle, hnull, hslots, hel⟩

theorem Owns.empty (h : Heap T) : Owns h vector.ctor_default ([] : List T) :=
  ⟨rfl, le_refl _, by simp [vector.ctor_default], rfl, fun i x hx => by simp at hx⟩

theorem Owns.get {h : Heap T} {v : vector} {s : List T} (O : Owns h v s) (i : Nat)
    (hi : i < v.m_size) : v.get h i = s[i]? := by
  have hlt : i < s.length := by rw [← O.size_eq]; exact hi
  have := O.cell_eq hlt
  simp [vector.get, vector.index, vector.assert, hi, Heap.load_of_cell this,
    List.getElem?_eq_getElem hlt]

theorem Heap.alloc_agrees (h : Heap T) (n : Nat) (q : Ptr) (hq : (h.cell? q).isSome) :
    (h.alloc n).2.cell? q = h.cell? q := by
  rw [Heap.alloc_cell, if_neg]
  intro hb
  obtain ⟨qb, qo⟩ := q
  simp only at hb
  subst hb
  rw [Heap.cell?_none_of_ge h (le_refl _)] at hq
  cases hq

/-- Outcome of `emplace(pos, args...)` at index `i` for arguments that are read without
writing a slot (outside the heap, or a `const T&` to a live slot, possibly of this
vector): the element is inserted at `i`; the capacity becomes `size + 1` when the
vector was full and is unchanged otherwise, in which case the buffer is also
unchanged. -/
theorem vector.emplace_reads (E : ElemType T) {h : Heap T} {v : vector} {s : List T}
    (O : Owns h v s) {i : Nat} (hi : i ≤ s.length) {args : Arg T} {x : T}
    (hb : Arg.Reads E h args x) :
    ∃ h' v', v.emplace E h (v._ptrAt i) args = some (h', v', v'._ptrAt i) ∧
      Owns h' v' (s.take i ++ x :: s.drop i) ∧
      (v.m_size = v.m_capacity → v'.m_capacity = v.m_size + 1) ∧
      (v.m_size < v.m_capacity → v'.m_capacity = v.m_capacity ∧ v'.m_data = v.m_data) := by
  have hn := O.size_eq
  by_cases hcap : v.m_size < v.m_capacity
  · by_cases hil : i < s.length
    · obtain ⟨h', hs, _, O', _⟩ := vector.emplace_inplace_at E O hil hcap hb.here
      exact ⟨h', _, hs, O', fun e => by omega, fun _ => ⟨rfl, rfl⟩⟩
    · have hie : i = s.length := by omega
      obtain ⟨h', hs, _, O', _⟩ :=
        vector._emplace_back_with_unused_capacity_at E O hcap hb.here
      refine ⟨h', { v with m_size := v.m_size + 1 }, ?_, ?_, fun e => by omega,
        fun _ => ⟨rfl, rfl⟩⟩
      · have hassert : vector.assert (v.checkIterator (v._ptrAt i)) = some () := by
          simp [vector.assert, vector.checkIterator, vector._ptrAt]; omega
        have hpe : v._ptrAt i = v._ptrAt v.m_size := by rw [hie, hn]
        simp only [vector.emplace, hassert, Option.bind_eq_bind, Option.some_bind,
          if_pos hcap, if_pos hpe, hs]
        show some (h', _, v._ptrAt v.m_size) = some (h', _, v._ptrAt i)
        rw [hpe]
      · subst hie
        simpa using O'
  · have hfull : v.m_size = v.m_capacity := by have := O.size_le; omega
    obtain ⟨h', hs, O', _, _⟩ := vector._emplace_reallocate_at E O hi hfull
      (hb _ (Heap.alloc_agrees h _))
    refine ⟨h', _, ?_, O', fun _ => rfl, fun hlt => absurd hlt hcap⟩
    have hassert : vector.assert (v.checkIterator (v._ptrAt i)) = some () := by
      simp [vector.assert, vector.checkIterator, vector._ptrAt]; omega
    simp only [vector.emplace, hassert, Option.bind_eq_bind, Option.some_bind,
      if_neg hcap, hs]
    rfl

/-- Outcome of `emplace(pos, args...)` at index `i` for arguments outside the heap. -/
theorem vector.emplace_spec (E : ElemType T) {h : Heap T} {v : vector} {s : List T}
    (O : Owns h v s) {i : Nat} (hi : i ≤ s.length) {args : Arg T} {x : T}
    (hb : Arg.Builds E args x) :
    ∃ h' v', v.emplace E h (v._ptrAt i) args = some (h', v', v'._ptrAt i) ∧
      Owns h' v' (s.take i ++ x :: s.drop i) ∧
      (v.m_size = v.m_capacity → v'.m_capacity = v.m_size + 1) ∧
      (v.m_size < v.m_capacity → v'.m_capacity = v.m_capacity ∧ v'.m_data = v.m_data) :=
  vector.emplace_reads E O hi (hb.reads h)

end EmplaceSpec

section SetCapacity
variable {T : Type}

/-- Outcome of `_setCapacity(newCapacity)` with `newCapacity >= size`: the vector holds
the same sequence with capacity exactly `newCapacity`; nothing happens when the
capacity already has that value. -/
theorem vector._setCapacity_spec (E : ElemType T) {h : Heap T} {v : vector} {s : List T}
    (O : Owns h v s) {c : Nat} (hc : v.m_size ≤ c) :
    ∃ h' v', v._setCapacity E h c = some (h', v') ∧ Owns h' v' s ∧
      v'.m_capacity = c ∧ v'.m_size = v.m_size ∧
      (c = v.m_capacity → h' = h ∧ v' = v) ∧
      (∀ q : Ptr, q.base ≠ v.m_data → q.base ≠ some h.mem.length →
        h'.cell? q = h.cell? q) := by
  have hn := O.size_eq
  have hassert : vector.assert (decide (v.m_size ≤ c)) = some () := by
    simp [vector.assert, hc]
  by_cases heq : c = v.m_capacity
  · refine ⟨h, v, ?_, O, heq.symm, rfl, fun _ => ⟨rfl, rfl⟩, fun _ _ _ => rfl⟩
    subst heq
    simp [vector._setCapacity, vector.assert, hc]
  by_cases hz : c = 0
  · -- the buffer is released
    have hsz : v.m_size = 0 := by omega
    have hcap : v.m_capacity ≠ 0 := fun e => heq (by omega)
    cases hd : v.m_data with
    | none => exact absurd (O.null_iff.mp hd) hcap
    | some b =>
      have hsl : h.slots? b = some v.m_capacity := by
        have := O.slots; rw [hd] at this; exact this
      obtain ⟨h1, hs1, _, _, hsl1, hcell1⟩ := Heap.free_spec hsl
      refine ⟨h1, { v with m_data := none, m_capacity := 0 }, ?_, ?_, hz.symm, rfl,
        fun e => absurd e heq, ?_⟩
      · have hcap' : ¬ 0 = v.m_capacity := fun e => hcap e.symm
        subst hz
        simp [vector._setCapacity, vector.assert, hsz, hcap', hd, hs1]
      · refine ⟨hn, by simp [hsz], by simp, rfl, ?_⟩
        intro i x hx
        have : s = [] := List.eq_nil_of_length_eq_zero (by omega)
        subst this
        simp at hx
      · intro q hq _
        rw [hcell1, if_neg hq]
  -- a new buffer of exactly `c` slots
  let nv : vector := { v with m_data := some h.mem.length, m_capacity := c }
  have hdne : v.m_data ≠ nv.m_data := O.data_ne_fresh
  have hdne' : nv.m_data ≠ v.m_data := fun e => hdne e.symm
  have hal : _allocate h c = (some h.mem.length, (h.alloc c).2) := _allocate_pos h hz
  have hcellA : ∀ j, (h.alloc c).2.cell? (nv._ptrAt j) =
      if j < c then some Cell.raw else none := by
    intro j; rw [Heap.alloc_cell]; simp [nv, vector._ptrAt]
  have hcellA' : ∀ q : Ptr, q.base ≠ some h.mem.length →
      (h.alloc c).2.cell? q = h.cell? q := by
    intro q hq; rw [Heap.alloc_cell, if_neg hq]
  have hmoves : ∃ h2, (if (v.m_size != 0) = true then do
        let h1 ← _moveConstructRange E (h.alloc c).2 (v._ptrAt 0) (v._ptrAt v.m_size)
          (nv._ptrAt 0)
        _destroyRange E h1 (v._ptrAt 0) (v._ptrAt v.m_size)
      else some (h.alloc c).2) = some h2 ∧ (h.alloc c).2.Frame h2 ∧
      (∀ j, j < v.m_size → h2.cell? (nv._ptrAt j) = h.cell? (v._ptrAt j)) ∧
      (∀ q : Ptr, q.base ≠ v.m_data → q.base ≠ some h.mem.length →
        h2.cell? q = h.cell? q) := by
    by_cases hsz : v.m_size = 0
    · refine ⟨(h.alloc c).2, by simp [hsz], Heap.Frame.refl _, fun j hj => by omega,
        fun q _ hq => hcellA' q hq⟩
    · obtain ⟨h1, hs1, hfr1, _, ha1, hb1, hc1⟩ := _moveConstructRange_spec E (h.alloc c).2
        (v._ptrAt 0) (nv._ptrAt 0) v.m_size (fun e => absurd e hdne')
        (fun k hk => by
          rw [vector._ptrAt_add, Heap.isLive, hcellA' _ hdne]
          exact O.isLive (by omega))
        (fun k hk => by
          rw [vector._ptrAt_add, hcellA, if_pos (by omega)]; rfl)
      have e1 : (v._ptrAt 0).add v.m_size = v._ptrAt v.m_size := by
        rw [vector._ptrAt_add, Nat.zero_add]
      obtain ⟨h2, hs2, hfr2, _, ha2, hb2⟩ := _destroyRange_spec E h1 (v._ptrAt 0) v.m_size
        (fun k hk => by
          refine Heap.isLive_of_map (hc1 ((v._ptrAt 0).add k) (Ptr.within_add _ hk)
            (fun hw => hdne hw.1)) ?_
          rw [vector._ptrAt_add, Heap.isLive, hcellA' _ hdne]
          exact O.isLive (by omega))
      rw [e1] at hs1 hs2
      refine ⟨h2, ?_, hfr1.trans hfr2, ?_, ?_⟩
      · have : (v.m_size != 0) = true := by simp [hsz]
        rw [if_pos this]
        simp [hs1, hs2]
      · intro j hj
        rw [hb2 (nv._ptrAt j) (vector.not_within_of_data hdne' _ _ _)]
        have := ha1 j hj
        rw [vector._ptrAt_add, vector._ptrAt_add, Nat.zero_add] at this
        rw [this, hcellA' _ hdne]
      · intro q hq1 hq2
        rw [hb2 q (fun hw => hq1 hw.1), hb1 q (fun hw => hq2 hw.1) (fun hw => hq1 hw.1),
          hcellA' q hq2]
  obtain ⟨h2, hs2, hfr2, hP1, hP2⟩ := hmoves
  have hslots2 : h2.slots? h.mem.length = some c := by
    rw [hfr2.2, Heap.alloc_slots, if_pos rfl]
  have hfree : ∃ h3, h2.free v.m_data = some h3 ∧
      h3.slots? h.mem.length = some c ∧
      (∀ q : Ptr, q.base ≠ v.m_data → h3.cell? q = h2.cell? q) := by
    cases hd : v.m_data with
    | none => exact ⟨h2, rfl, hslots2, fun _ _ => rfl⟩
    | some b =>
      have hblt := O.data_lt hd
      have hsl : h2.slots? b = some v.m_capacity := by
        have := O.slots; rw [hd] at this
        rw [hfr2.2, Heap.alloc_slots, if_neg (by omega)]
        exact this
      obtain ⟨h3, hs3, _, _, hsl3, hcell3⟩ := Heap.free_spec hsl
      refine ⟨h3, hs3, ?_, fun q hq => by rw [hcell3, if_neg hq]⟩
      rw [hsl3, if_neg (by omega), hslots2]
  obtain ⟨h3, hs3, hsl3, hcell3⟩ := hfree
  refine ⟨h3, nv, ?_, ?_, rfl, rfl, fun e => absurd e heq, ?_⟩
  · have e00 : ({ base := some h.mem.length, off := 0 } : Ptr) = nv._ptrAt 0 := rfl
    simp only [vector._setCapacity, hassert, Option.bind_eq_bind, Option.some_bind,
      if_neg heq, if_neg hz, hal, e00, Option.pure_def]
    simp only [Option.bind_eq_bind] at hs2
    rw [hs2]
    simp only [Option.some_bind, hs3]
  · refine ⟨hn, hc, by simp [nv, hz], hsl3, ?_⟩
    intro j y hj
    show h3.cell? (nv._ptrAt j) = some (Cell.live y)
    have hjn : j < s.length := by
      by_contra hcon
      rw [List.getElem?_eq_none (by omega)] at hj
      cases hj
    rw [hcell3 _ hdne', hP1 j (by omega)]
    exact O.elems j y hj
  · intro q hq1 hq2
    rw [hcell3 q hq1, hP2 q hq1 hq2]

end SetCapacity

section EmplaceBack
variable {T : Type}

/-- Outcome of `emplace_back(args...)` for arguments outside the heap: the element is
appended; the capacity grows by exactly one when the vector was full. -/
theorem vector.emplace_back_spec (E : ElemType T) {h : Heap T} {v : vector} {s : List T}
    (O : Owns h v s) {args : Arg T} {x : T} (hb : Arg.Builds E args x) :
    ∃ h' v', v.emplace_back E h args = some (h', v', v'._ptrAt v.m_size) ∧
      Owns h' v' (s ++ [x]) ∧ v'.m_size = v.m_size + 1 ∧
      (v.m_size = v.m_capacity → v'.m_capacity = v.m_capacity + 1) ∧
      (v.m_size < v.m_capacity → v'.m_capacity = v.m_capacity ∧ v'.m_data = v.m_data) := by
  by_cases hfull : v.m_size = v.m_capacity
  · obtain ⟨h1, v1, hs1, O1, hcap1, hsz1, _, _⟩ :=
      vector._setCapacity_spec E O (c := v.m_capacity + 1) (by omega)
    obtain ⟨h', hs, _, O', _⟩ :=
      vector._emplace_back_with_unused_capacity_spec E O1 (by omega) hb
    refine ⟨h', { v1 with m_size := v1.m_size + 1 }, ?_, O', by simp [hsz1],
      fun _ => hcap1, fun hlt => by omega⟩
    simp only [vector.emplace_back, if_pos hfull, hs1, Option.bind_eq_bind,
      Option.some_bind, hs]
    rw [hsz1]; rfl
  · have hcap : v.m_size < v.m_capacity := by have := O.size_le; omega
    obtain ⟨h', hs, _, O', _⟩ :=
      vector._emplace_back_with_unused_capacity_spec E O hcap hb
    refine ⟨h', { v with m_size := v.m_size + 1 }, ?_, O', rfl, fun e => absurd e hfull,
      fun _ => ⟨rfl, rfl⟩⟩
    simp only [vector.emplace_back, if_neg hfull, Option.bind_eq_bind, Option.some_bind, hs]
    rfl

end EmplaceBack

section EraseLemmas
variable {T : Type}

theorem getElem?_lt_length {s : List T} {j : Nat} {y : T} (h : s[j]? = some y) :
    j < s.length := by
  by_contra hcon
  rw [List.getElem?_eq_none (by omega)] at h
  cases h

/-- Outcome of `erase(pos)` at index `i`. -/
theorem vector.erase_spec (E : ElemType T) {h : Heap T} {v : vector} {s : List T}
    (O : Owns h v s) {i : Nat} (hi : i < s.length) :
    ∃ h', v.erase E h (v._ptrAt i) =
        some (h', { v with m_size := v.m_size - 1 }, v._ptrAt i) ∧
      h.Frame h' ∧ Owns h' { v with m_size := v.m_size - 1 } (s.eraseIdx i) := by
  have hn := O.size_eq
  obtain ⟨h1, hs1, hfr1, _, ha1, hb1, hc1⟩ := _moveAssignRange_spec E h
    (v._ptrAt (i + 1)) (v._ptrAt i) (v.m_size - (i + 1)) (fun _ => by simp [vector._ptrAt])
    (fun k hk => O.isLive (i := i + 1 + k) (by omega))
    (fun k hk => O.isLive (i := i + k) (by omega))
  have e1 : (v._ptrAt (i + 1)).add (v.m_size - (i + 1)) = v._ptrAt v.m_size := by
    rw [vector._ptrAt_add]; congr 1; omega
  rw [e1] at hs1
  have hlive1 : h1.isLive (v._ptrAt (v.m_size - 1)) := by
    by_cases hl : i = v.m_size - 1
    · rw [Heap.isLive, hb1 (v._ptrAt (v.m_size - 1)) (by simp; omega) (by simp; omega)]
      exact O.isLive (by omega)
    · exact Heap.isLive_of_map (hc1 (v._ptrAt (v.m_size - 1)) (by simp; omega)
        (by simp; omega)) (O.isLive (by omega))
  obtain ⟨h2, hs2, hfr2, _, hcell2⟩ := _destroySingle_spec E h1 _ hlive1
  refine ⟨h2, ?_, hfr1.trans hfr2, ?_⟩
  · have hassert : vector.assert (v.checkIteratorDereferanceable (v._ptrAt i)) = some () := by
      simp [vector.assert, vector.checkIteratorDereferanceable, vector._ptrAt]; omega
    have e0 : (v._ptrAt i).add 1 = v._ptrAt (i + 1) := rfl
    simp only [vector.erase, hassert, Option.bind_eq_bind, Option.some_bind, e0, hs1, hs2,
      Option.pure_def]
  · refine ⟨by simp [List.length_eraseIdx, hi, hn], by simp; have := O.size_le; omega,
      by simpa using O.null_iff, O.frame_slots (hfr1.trans hfr2), ?_⟩
    intro j y hj
    show h2.cell? (v._ptrAt j) = some (Cell.live y)
    rw [List.getElem?_eraseIdx] at hj
    by_cases hji : j < i
    · rw [if_pos hji] at hj
      rw [hcell2, if_neg (by simp; omega),
        hb1 (v._ptrAt j) (by simp; omega) (by simp; omega)]
      exact O.elems j y hj
    · rw [if_neg hji] at hj
      have hjl := getElem?_lt_length hj
      have := ha1 (j - i) (by omega)
      rw [vector._ptrAt_add, vector._ptrAt_add] at this
      have ea : i + (j - i) = j := by omega
      have eb : i + 1 + (j - i) = j + 1 := by omega
      rw [ea, eb] at this
      rw [hcell2, if_neg (by simp; omega), this]
      exact O.elems _ y hj

theorem getElem?_take_append_drop {s : List T} {a b j : Nat} (ha : a ≤ s.length) :
    (s.take a ++ s.drop b)[j]? = if j < a then s[j]? else s[b + (j - a)]? := by
  have hlen : (s.take a).length = a := by simp [ha]
  by_cases hja : j < a
  · rw [List.getElem?_append_left (by omega), if_pos hja, List.getElem?_take]
    simp [hja]
  · rw [List.getElem?_append_right (by omega), hlen, if_neg hja, List.getElem?_drop]

/-- Outcome of `erase(first, last)` for the index range `[a, b)`. -/
theorem vector.erase_range_spec (E : ElemType T) {h : Heap T} {v : vector} {s : List T}
    (O : Owns h v s) {a b : Nat} (hab : a ≤ b) (hb : b ≤ s.length) :
    ∃ h', v.erase_range E h (v._ptrAt a) (v._ptrAt b) =
        some (h', { v with m_size := v.m_size - (b - a) }, v._ptrAt a) ∧
      h.Frame h' ∧ Owns h' { v with m_size := v.m_size - (b - a) } (s.take a ++ s.drop b) := by
  have hn := O.size_eq
  have hassert : vector.assert (v.checkIteratorRange (v._ptrAt a) (v._ptrAt b)) = some () := by
    simp [vector.assert, vector.checkIteratorRange, vector._ptrAt]; omega
  by_cases heq : a = b
  · subst heq
    refine ⟨h, ?_, Heap.Frame.refl h, ?_⟩
    · simp [vector.erase_range, hassert]
    · simpa using O
  obtain ⟨h1, hs1, hfr1, _, ha1, hb1, hc1⟩ := _moveAssignRange_spec E h
    (v._ptrAt b) (v._ptrAt a) (v.m_size - b) (fun _ => by simp [vector._ptrAt]; omega)
    (fun k hk => O.isLive (i := b + k) (by omega))
    (fun k hk => O.isLive (i := a + k) (by omega))
  have e1 : (v._ptrAt b).add (v.m_size - b) = v._ptrAt v.m_size := by
    rw [vector._ptrAt_add]; congr 1; omega
  rw [e1] at hs1
  have hlive1 : ∀ k, k < b - a → h1.isLive ((v._ptrAt (a + (v.m_size - b))).add k) := by
    intro k hk
    rw [vector._ptrAt_add]
    by_cases hq : b ≤ a + (v.m_size - b) + k
    · exact Heap.isLive_of_map (hc1 (v._ptrAt (a + (v.m_size - b) + k)) (by simp; omega)
        (by simp)) (O.isLive (by omega))
    · rw [Heap.isLive, hb1 (v._ptrAt (a + (v.m_size - b) + k)) (by simp)
        (by simp; omega)]
      exact O.isLive (by omega)
  obtain ⟨h2, hs2, hfr2, _, ha2, hb2⟩ := _destroyRange_spec E h1
    (v._ptrAt (a + (v.m_size - b))) (b - a) hlive1
  have e2 : (v._ptrAt (a + (v.m_size - b))).add (b - a) = v._ptrAt v.m_size := by
    rw [vector._ptrAt_add]; congr 1; omega
  rw [e2] at hs2
  refine ⟨h2, ?_, hfr1.trans hfr2, ?_⟩
  · have hne : v._ptrAt a ≠ v._ptrAt b := by simp; exact heq
    have has1 : vector.assert (v.checkIteratorDereferanceable (v._ptrAt a)) = some () := by
      simp [vector.assert, vector.checkIteratorDereferanceable, vector._ptrAt]; omega
    have has2 : vector.assert (v.checkIterator (v._ptrAt b)) = some () := by
      simp [vector.assert, vector.checkIterator, vector._ptrAt]; omega
    have hd : (v._ptrAt b).diff (v._ptrAt a) = some (b - a) := by
      simp [Ptr.diff, vector._ptrAt, hab]
    have e3 : (v._ptrAt a).add (v.m_size - b) = v._ptrAt (a + (v.m_size - b)) := rfl
    simp only [vector.erase_range, hassert, Option.bind_eq_bind, Option.some_bind, ne_eq,
      hne, not_false_eq_true, if_true, has1, has2, hs1, e3, hs2, hd, Option.pure_def]
  · refine ⟨by simp [hn]; omega, by simp; have := O.size_le; omega,
      by simpa using O.null_iff, O.frame_slots (hfr1.trans hfr2), ?_⟩
    intro j y hj
    show h2.cell? (v._ptrAt j) = some (Cell.live y)
    rw [getElem?_take_append_drop (by omega)] at hj
    by_cases hja : j < a
    · rw [if_pos hja] at hj
      rw [hb2 (v._ptrAt j) (by simp; omega),
        hb1 (v._ptrAt j) (by simp; omega) (by simp; omega)]
      exact O.elems j y hj
    · rw [if_neg hja] at hj
      have hjl := getElem?_lt_length hj
      have := ha1 (j - a) (by omega)
      rw [vector._ptrAt_add, vector._ptrAt_add] at this
      have ea : a + (j - a) = j := by omega
      rw [ea] at this
      rw [hb2 (v._ptrAt j) (by simp; omega), this]
      exact O.elems _ y hj

end EraseLemmas

section FieldLemmas
variable {T : Type}

theorem vector.assert_some {c : Bool} (h : vector.assert c = some ()) : c = true := by
  cases c
  · simp [vector.assert] at h
  · rfl

theorem vector._setCapacity_fields {E : ElemType T} {h : Heap T} {v : vector} {c : Nat}
    {r : Heap T × vector} (hr : v._setCapacity E h c = some r) :
    r.2.m_size = v.m_size ∧ r.2.m_capacity = c ∧ v.m_size ≤ c := by
  unfold vector._setCapacity at hr
  obtain ⟨_, has, hr⟩ := Option.bind_eq_some.mp hr
  have hle : v.m_size ≤ c := by simpa using vector.assert_some has
  by_cases heq : c = v.m_capacity
  · rw [if_pos heq] at hr
    cases hr
    exact ⟨rfl, heq.symm, hle⟩
  · rw [if_neg heq] at hr
    by_cases hz : c = 0
    · rw [if_pos hz] at hr
      obtain ⟨h1, _, hr⟩ := Option.bind_eq_some.mp hr
      cases hr
      exact ⟨rfl, hz.symm, hle⟩
    · rw [if_neg hz] at hr
      obtain ⟨h2, _, hr⟩ := Option.bind_eq_some.mp hr
      obtain ⟨h3, _, hr⟩ := Option.bind_eq_some.mp hr
      cases hr
      exact ⟨rfl, rfl, hle⟩

theorem vector._clear_fields {E : ElemType T} {h : Heap T} {v : vector}
    {r : Heap T × vector} (hr : v._clear E h = some r) :
    r.2.m_size = 0 ∧ r.2.m_capacity = v.m_capacity := by
  unfold vector._clear at hr
  by_cases hs : (v.m_size != 0) = true
  · rw [if_pos hs] at hr
    obtain ⟨h1, _, hr⟩ := Option.bind_eq_some.mp hr
    cases hr
    exact ⟨rfl, rfl⟩
  · rw [if_neg hs] at hr
    cases hr
    exact ⟨by simpa using hs, rfl⟩

theorem vector._clearAndSetCapacity_fields {E : ElemType T} {h : Heap T} {v : vector}
    {c : Nat} {r : Heap T × vector} (hr : v._clearAndSetCapacity E h c = some r) :
    r.2.m_size = 0 ∧ r.2.m_capacity = c := by
  unfold vector._clearAndSetCapacity at hr
  obtain ⟨r1, h1, hr⟩ := Option.bind_eq_some.mp hr
  have a := vector._clear_fields h1
  have b := vector._setCapacity_fields hr
  exact ⟨by rw [b.1, a.1], b.2.1⟩

theorem vector.reserve_fields {E : ElemType T} {h : Heap T} {v : vector} {c : Nat}
    {r : Heap T × vector} (hr : v.reserve E h c = some r) (hv : v.m_size ≤ v.m_capacity) :
    r.2.m_size ≤ r.2.m_capacity := by
  unfold vector.reserve at hr
  split at hr
  · have := vector._setCapacity_fields hr; omega
  · cases hr; exact hv

theorem vector.shrink_to_fit_fields {E : ElemType T} {h : Heap T} {v : vector}
    {r : Heap T × vector} (hr : v.shrink_to_fit E h = some r) :
    r.2.m_size ≤ r.2.m_capacity := by
  have := vector._setCapacity_fields hr; omega

theorem vector.clear_fields {E : ElemType T} {h : Heap T} {v : vector}
    {r : Heap T × vector} (hr : v.clear E h = some r) :
    r.2.m_size ≤ r.2.m_capacity := by
  have := vector._clear_fields hr; omega

theorem vector.growStep_fields {E : ElemType T} {h : Heap T} {v : vector} {c : Nat}
    {r : Heap T × vector}
    (hr : (if v.m_capacity < c then v._clearAndSetCapacity E h c else some (h, v)) = some r) :
    c ≤ r.2.m_capacity ∧ r.2.m_size ≤ v.m_size := by
  split at hr
  · have := vector._clearAndSetCapacity_fields hr; omega
  · cases hr; exact ⟨by show c ≤ v.m_capacity; omega, le_refl _⟩

theorem vector._assign_range_fields {E : ElemType T} {h : Heap T} {v : vector}
    {first last : Ptr} {r : Heap T × vector} (hr : v._assign_range E h first last = some r)
    (hv : v.m_size ≤ v.m_capacity) : r.2.m_size ≤ r.2.m_capacity := by
  unfold vector._assign_range at hr
  obtain ⟨n, _, hr⟩ := Option.bind_eq_some.mp hr
  by_cases ht : E.trivCopyable = true
  · rw [if_pos ht] at hr
    obtain ⟨r0, h0, hr⟩ := Option.bind_eq_some.mp hr
    obtain ⟨h1, _, hr⟩ := Option.bind_eq_some.mp hr
    cases hr
    exact (vector.growStep_fields h0).1
  · rw [if_neg ht] at hr
    by_cases hlt : v.m_size < n
    · rw [if_pos hlt] at hr
      obtain ⟨r0, h0, hr⟩ := Option.bind_eq_some.mp hr
      obtain ⟨r1, _, hr⟩ := Option.bind_eq_some.mp hr
      obtain ⟨h2, _, hr⟩ := Option.bind_eq_some.mp hr
      cases hr
      exact (vector.growStep_fields h0).1
    · rw [if_neg hlt] at hr
      obtain ⟨r1, _, hr⟩ := Option.bind_eq_some.mp hr
      obtain ⟨h2, _, hr⟩ := Option.bind_eq_some.mp hr
      cases hr
      show n ≤ v.m_capacity
      omega

theorem vector.assign_fields {E : ElemType T} {h : Heap T} {v : vector}
    {first last : Ptr} {r : Heap T × vector} (hr : v.assign E h first last = some r)
    (hv : v.m_size ≤ v.m_capacity) : r.2.m_size ≤ r.2.m_capacity := by
  unfold vector.assign at hr
  obtain ⟨_, _, hr⟩ := Option.bind_eq_some.mp hr
  exact vector._assign_range_fields hr hv

theorem vector.emplace_back_fields {E : ElemType T} {h : Heap T} {v : vector}
    {args : Arg T} {r : Heap T × vector × Ptr} (hr : v.emplace_back E h args = some r)
    (hv : v.m_size ≤ v.m_capacity) : r.2.1.m_size ≤ r.2.1.m_capacity := by
  unfold vector.emplace_back at hr
  obtain ⟨r0, h0, hr⟩ := Option.bind_eq_some.mp hr
  unfold vector._emplace_back_with_unused_capacity at hr
  obtain ⟨h1, _, hr⟩ := Option.bind_eq_some.mp hr
  cases hr
  show r0.2.m_size + 1 ≤ r0.2.m_capacity
  split at h0
  · have := vector._setCapacity_fields h0; omega
  · cases h0; show v.m_size + 1 ≤ v.m_capacity; omega

theorem vector.emplace_fields {E : ElemType T} {h : Heap T} {v : vector} {pos : Ptr}
    {args : Arg T} {r : Heap T × vector × Ptr} (hr : v.emplace E h pos args = some r) :
    r.2.1.m_size ≤ r.2.1.m_capacity := by
  unfold vector.emplace at hr
  obtain ⟨_, _, hr⟩ := Option.bind_eq_some.mp hr
  by_cases hcap : v.m_size < v.m_capacity
  · rw [if_pos hcap] at hr
    split at hr
    · unfold vector._emplace_back_with_unused_capacity at hr
      obtain ⟨h1, _, hr⟩ := Option.bind_eq_some.mp hr
      cases hr
      exact hcap
    · obtain ⟨a, _, hr⟩ := Option.bind_eq_some.mp hr
      obtain ⟨h2, _, hr⟩ := Option.bind_eq_some.mp hr
      obtain ⟨r3, _, hr⟩ := Option.bind_eq_some.mp hr
      obtain ⟨h4, _, hr⟩ := Option.bind_eq_some.mp hr
      cases hr
      exact hcap
  · rw [if_neg hcap] at hr
    unfold vector._emplace_reallocate at hr
    obtain ⟨_, _, hr⟩ := Option.bind_eq_some.mp hr
    obtain ⟨idx, _, hr⟩ := Option.bind_eq_some.mp hr
    obtain ⟨h1, _, hr⟩ := Option.bind_eq_some.mp hr
    obtain ⟨h3, _, hr⟩ := Option.bind_eq_some.mp hr
    obtain ⟨r5, h5, hr⟩ := Option.bind_eq_some.mp hr
    cases hr
    unfold vector._changeArray at h5
    obtain ⟨h6, _, h5⟩ := Option.bind_eq_some.mp h5
    cases h5
    exact le_refl _

theorem vector.erase_fields {E : ElemType T} {h : Heap T} {v : vector} {pos : Ptr}
    {r : Heap T × vector × Ptr} (hr : v.erase E h pos = some r)
    (hv : v.m_size ≤ v.m_capacity) : r.2.1.m_size ≤ r.2.1.m_capacity := by
  unfold vector.erase at hr
  obtain ⟨_, _, hr⟩ := Option.bind_eq_some.mp hr
  obtain ⟨r1, _, hr⟩ := Option.bind_eq_some.mp hr
  obtain ⟨h2, _, hr⟩ := Option.bind_eq_some.mp hr
  cases hr
  show v.m_size - 1 ≤ v.m_capacity
  omega

theorem vector.erase_range_fields {E : ElemType T} {h : Heap T} {v : vector}
    {first last : Ptr} {r : Heap T × vector × Ptr}
    (hr : v.erase_range E h first last = some r)
    (hv : v.m_size ≤ v.m_capacity) : r.2.1.m_size ≤ r.2.1.m_capacity := by
  unfold vector.erase_range at hr
  obtain ⟨_, _, hr⟩ := Option.bind_eq_some.mp hr
  split at hr
  · obtain ⟨_, _, hr⟩ := Option.bind_eq_some.mp hr
    obtain ⟨_, _, hr⟩ := Option.bind_eq_some.mp hr
    obtain ⟨r1, _, hr⟩ := Option.bind_eq_some.mp hr
    obtain ⟨h2, _, hr⟩ := Option.bind_eq_some.mp hr
    obtain ⟨d, _, hr⟩ := Option.bind_eq_some.mp hr
    cases hr
    show v.m_size - d ≤ v.m_capacity
    omega
  · cases hr
    exact hv

theorem vector.pop_back_fields {E : ElemType T} {h : Heap T} {v : vector}
    {r : Heap T × vector} (hr : v.pop_back E h = some r)
    (hv : v.m_size ≤ v.m_capacity) : r.2.m_size ≤ r.2.m_capacity := by
  unfold vector.pop_back at hr
  obtain ⟨_, _, hr⟩ := Option.bind_eq_some.mp hr
  obtain ⟨h1, _, hr⟩ := Option.bind_eq_some.mp hr
  cases hr
  show v.m_size - 1 ≤ v.m_capacity
  omega

theorem vector.ctor_count_fields {E : ElemType T} {h : Heap T} {count : Nat}
    {r : Heap T × vector} (hr : vector.ctor_count E h count = some r) :
    r.2.m_size = count ∧ r.2.m_capacity = count := by
  unfold vector.ctor_count at hr
  obtain ⟨h1, _, hr⟩ := Option.bind_eq_some.mp hr
  cases hr
  exact ⟨rfl, rfl⟩

theorem vector.ctor_count_value_fields {E : ElemType T} {h : Heap T} {count : Nat}
    {value : Ref T} {r : Heap T × vector}
    (hr : vector.ctor_count_value E h count value = some r) :
    r.2.m_size = count ∧ r.2.m_capacity = count := by
  unfold vector.ctor_count_value at hr
  obtain ⟨h1, _, hr⟩ := Option.bind_eq_some.mp hr
  cases hr
  exact ⟨rfl, rfl⟩

/-- What the copy constructor records: `m_size` and `m_capacity` are both taken from
`other`, while the buffer is obtained for `other.m_size` slots. -/
theorem vector.ctor_copy_fields {E : ElemType T} {h : Heap T} {other : vector}
    {r : Heap T × vector} (hr : vector.ctor_copy E h other = some r) :
    r.2.m_size = other.m_size ∧ r.2.m_capacity = other.m_capacity ∧
      r.2.m_data = (_allocate h other.m_size).1 := by
  unfold vector.ctor_copy at hr
  obtain ⟨h1, _, hr⟩ := Option.bind_eq_some.mp hr
  cases hr
  exact ⟨rfl, rfl, rfl⟩

end FieldLemmas


/-! ## The claims -/

section Claims
variable {T : Type}

theorem vector.push_back_all_spec (E : ElemType T) :
    ∀ (calls : List (Bool × T)) (h : Heap T) (v : vector) (s : List T), Owns h v s →
      ∃ h' v', vector.push_back_all E h v calls = some (h', v') ∧
        Owns h' v' (s ++ calls.map Prod.snd) := by
  intro calls
  induction calls with
  | nil => intro h v s O; exact ⟨h, v, rfl, by simpa using O⟩
  | cons c cs ih =>
    intro h v s O
    have hstep : ∃ h1 v1, (if c.1 = true then v.push_back_move E h (Ref.ext c.2)
        else v.push_back E h (Ref.ext c.2)) = some (h1, v1) ∧ Owns h1 v1 (s ++ [c.2]) := by
      by_cases hc : c.1 = true
      · obtain ⟨h1, v1, hs, O1, _⟩ := vector.emplace_back_spec E O (Arg.builds_move E c.2)
        exact ⟨h1, v1, by simp [hc, vector.push_back_move, hs], O1⟩
      · obtain ⟨h1, v1, hs, O1, _⟩ := vector.emplace_back_spec E O (Arg.builds_copy E c.2)
        exact ⟨h1, v1, by simp [hc, vector.push_back, hs], O1⟩
    obtain ⟨h1, v1, hs1, O1⟩ := hstep
    obtain ⟨h', v', hs, O'⟩ := ih h1 v1 _ O1
    refine ⟨h', v', ?_, by simpa using O'⟩
    simp only [vector.push_back_all, Option.bind_eq_bind]
    rw [hs1]
    exact hs

/-- C1: on a well-formed vector holding `s` (size `n`), `insert(begin()+i, x)` with
`0 <= i <= n` succeeds and leaves the vector holding `s[0..i) ++ [x] ++ s[i..n)` with
size `n + 1`, for both overloads of `insert`, whether the vector had spare capacity
(in-place shift) or was full (reallocation): no assumption is made on the capacity. -/
theorem C1_insert_contents (E : ElemType T) (h : Heap T) (v : vector) (s : List T)
    (i : Nat) (x : T) (O : Owns h v s) (hi : i ≤ s.length) :
    (∃ h' v' p, v.insert E h (v.begin_.add i) (Ref.ext x) = some (h', v', p) ∧
      Owns h' v' (s.take i ++ [x] ++ s.drop i) ∧
      v'.toList h' = some (s.take i ++ [x] ++ s.drop i) ∧ v'.size = s.length + 1) ∧
    (∃ h' v' p, v.insert_move E h (v.begin_.add i) (Ref.ext x) = some (h', v', p) ∧
      Owns h' v' (s.take i ++ [x] ++ s.drop i) ∧
      v'.toList h' = some (s.take i ++ [x] ++ s.drop i) ∧ v'.size = s.length + 1) := by
  have key : ∀ args : Arg T, Arg.Builds E args x →
      ∃ h' v' p, v.emplace E h (v.begin_.add i) args = some (h', v', p) ∧
        Owns h' v' (s.take i ++ [x] ++ s.drop i) ∧
        v'.toList h' = some (s.take i ++ [x] ++ s.drop i) ∧ v'.size = s.length + 1 := by
    intro args hb
    obtain ⟨h', v', hs, O', _, _⟩ := vector.emplace_spec E O hi hb
    have O'' : Owns h' v' (s.take i ++ [x] ++ s.drop i) := by simpa using O'
    refine ⟨h', v', _, by rw [vector.begin_add]; exact hs, O'', O''.toList_eq, ?_⟩
    have := O''.size_eq
    simp only [vector.size, this, List.length_append, List.length_take, List.length_drop,
      List.length_singleton]
    omega
  exact ⟨key _ (Arg.builds_copy E x), key _ (Arg.builds_move E x)⟩

/-- Witness of C1 on `{10, 20, 30}` at index 1, once with spare capacity and once at
full capacity. -/
theorem C1_insert_contents_witness :
    (Owns heapSpare vecSpare [10, 20, 30] ∧ 1 ≤ [10, 20, 30].length ∧
      ∃ h' v' p, vecSpare.insert fooElem heapSpare (vecSpare.begin_.add 1) (Ref.ext 99) =
          some (h', v', p) ∧
        Owns h' v' (([10, 20, 30] : List Int).take 1 ++ [99] ++ [10, 20, 30].drop 1) ∧
        v'.toList h' = some (([10, 20, 30] : List Int).take 1 ++ [99] ++ [10, 20, 30].drop 1) ∧
        v'.size = [10, 20, 30].length + 1) ∧
    (Owns heapFull vecFull [10, 20, 30] ∧ 1 ≤ [10, 20, 30].length ∧
      ∃ h' v' p, vecFull.insert fooElem heapFull (vecFull.begin_.add 1) (Ref.ext 99) =
          some (h', v', p) ∧
        Owns h' v' (([10, 20, 30] : List Int).take 1 ++ [99] ++ [10, 20, 30].drop 1) ∧
        v'.toList h' = some (([10, 20, 30] : List Int).take 1 ++ [99] ++ [10, 20, 30].drop 1) ∧
        v'.size = [10, 20, 30].length + 1) :=
  ⟨⟨Owns.of_toList (by decide) (by decide) rfl rfl, by decide,
      (C1_insert_contents fooElem heapSpare vecSpare [10, 20, 30] 1 99
        (Owns.of_toList (by decide) (by decide) rfl rfl) (by decide)).1⟩,
   ⟨Owns.of_toList (by decide) (by decide) rfl rfl, by decide,
      (C1_insert_contents fooElem heapFull vecFull [10, 20, 30] 1 99
        (Owns.of_toList (by decide) (by decide) rfl rfl) (by decide)).1⟩⟩

/-- C2 (defect in the code): copy-construction from `other` with `size() == 2` and
`capacity() == 4` yields a vector with `capacity() == 4`, not `other.size()`, although
the buffer it obtained has only 2 slots. -/
theorem C2_copy_capacity_not_size :
    (otherSpare.bind fun o => (vector.ctor_copy intElem o.1 o.2).map fun r =>
      (o.2.size, o.2.capacity, r.2.capacity, r.1.bufferSlots r.2.m_data)) =
    some (2, 4, 4, some 2) := by
  decide

/-- C3 (defect in the code): copy-construction from an empty vector with capacity 4
yields a vector whose data pointer is null while its capacity is 4. -/
theorem C3_copy_null_data_nonzero_capacity :
    (otherReserved.bind fun o => (vector.ctor_copy intElem o.1 o.2).map fun r =>
      (o.2.size, o.2.capacity, r.2.data, r.2.capacity)) =
    some (0, 4, none, 4) := by
  decide

/-- C4 (defect in the code): the copy of a vector with size 2 and capacity 4 owns a
buffer of 2 slots while `capacity()` is 4, and the next `emplace_back`, taken with
`size < capacity`, writes outside the owned buffer (no result). -/
theorem C4_copy_buffer_smaller_than_capacity :
    (otherSpare.bind fun o => (vector.ctor_copy intElem o.1 o.2).map fun r =>
      (r.2.size, r.2.capacity, r.1.bufferSlots r.2.data,
        r.2.emplace_back intElem r.1 (Arg.make 3))) =
    some (2, 4, some 2, none) := rfl

end Claims

section Claims2
variable {T : Type}

theorem exists_of_isSome {α : Type} {o : Option α} {P : α → Prop} (hs : o.isSome = true)
    (hP : ∀ r, o = some r → P r) : ∃ r, o = some r ∧ P r := by
  obtain ⟨r, hr⟩ := Option.isSome_iff_exists.mp hs
  exact ⟨r, hr, hP r hr⟩

/-- C5: `size <= capacity` holds for the empty vector and is preserved by every public
operation: whenever an operation returns (its assertions held and it stayed inside its
buffers), every vector it produces or leaves behind has `size() <= capacity()`,
provided the vectors it was given had. -/
theorem C5_size_le_capacity (E : ElemType T) (h : Heap T) (v other : vector)
    (hv : v.size ≤ v.capacity) (ho : other.size ≤ other.capacity) :
    vector.ctor_default.size ≤ vector.ctor_default.capacity ∧
    (∀ count r, vector.ctor_count E h count = some r → r.2.size ≤ r.2.capacity) ∧
    (∀ count value r, vector.ctor_count_value E h count value = some r →
      r.2.size ≤ r.2.capacity) ∧
    (∀ r, vector.ctor_copy E h other = some r → r.2.size ≤ r.2.capacity) ∧
    ((vector.ctor_move other).1.size ≤ (vector.ctor_move other).1.capacity ∧
      (vector.ctor_move other).2.size ≤ (vector.ctor_move other).2.capacity) ∧
    (∀ r, v.assign_copy E h (some other) = some r → r.2.size ≤ r.2.capacity) ∧
    (∀ r, v.assign_copy E h none = some r → r.2.size ≤ r.2.capacity) ∧
    (∀ r, v.assign_move E h (some other) = some r →
      r.2.1.size ≤ r.2.1.capacity ∧ ∀ o, r.2.2 = some o → o.size ≤ o.capacity) ∧
    (∀ r, v.assign_move E h none = some r → r.2.1.size ≤ r.2.1.capacity) ∧
    (∀ n r, v.reserve E h n = some r → r.2.size ≤ r.2.capacity) ∧
    (∀ r, v.shrink_to_fit E h = some r → r.2.size ≤ r.2.capacity) ∧
    (∀ r, v.clear E h = some r → r.2.size ≤ r.2.capacity) ∧
    (∀ first last r, v.assign E h first last = some r → r.2.size ≤ r.2.capacity) ∧
    (∀ args r, v.emplace_back E h args = some r → r.2.1.size ≤ r.2.1.capacity) ∧
    (∀ pos args r, v.emplace E h pos args = some r → r.2.1.size ≤ r.2.1.capacity) ∧
    (∀ pos value r, v.insert E h pos value = some r → r.2.1.size ≤ r.2.1.capacity) ∧
    (∀ pos value r, v.insert_move E h pos value = some r → r.2.1.size ≤ r.2.1.capacity) ∧
    (∀ pos r, v.erase E h pos = some r → r.2.1.size ≤ r.2.1.capacity) ∧
    (∀ first last r, v.erase_range E h first last = some r →
      r.2.1.size ≤ r.2.1.capacity) ∧
    (∀ value r, v.push_back E h value = some r → r.2.size ≤ r.2.capacity) ∧
    (∀ value r, v.push_back_move E h value = some r → r.2.size ≤ r.2.capacity) ∧
    (∀ r, v.pop_back E h = some r → r.2.size ≤ r.2.capacity) := by
  have hv : v.m_size ≤ v.m_capacity := hv
  have ho : other.m_size ≤ other.m_capacity := ho
  simp only [vector.size, vector.capacity]
  refine ⟨le_refl _, ?_, ?_, ?_, ⟨ho, le_refl _⟩, ?_, ?_, ?_, ?_, ?_, ?_, ?_, ?_, ?_, ?_, ?_,
    ?_, ?_, ?_, ?_, ?_, ?_⟩
  · intro count r hr
    have := vector.ctor_count_fields hr; omega
  · intro count value r hr
    have := vector.ctor_count_value_fields hr; omega
  · intro r hr
    have := vector.ctor_copy_fields hr; omega
  · intro r hr
    exact vector.assign_fields hr hv
  · intro r hr
    cases hr; exact hv
  · intro r hr
    simp only [vector.assign_move] at hr
    obtain ⟨r1, _, hr⟩ := Option.bind_eq_some.mp hr
    cases hr
    exact ⟨ho, fun o' ho' => by cases ho'; exact le_refl _⟩
  · intro r hr
    cases hr; exact hv
  · intro n r hr
    exact vector.reserve_fields hr hv
  · intro r hr
    exact vector.shrink_to_fit_fields hr
  · intro r hr
    exact vector.clear_fields hr
  · intro first last r hr
    exact vector.assign_fields hr hv
  · intro args r hr
    exact vector.emplace_back_fields hr hv
  · intro pos args r hr
    exact vector.emplace_fields hr
  · intro pos value r hr
    exact vector.emplace_fields hr
  · intro pos value r hr
    exact vector.emplace_fields hr
  · intro pos r hr
    exact vector.erase_fields hr hv
  · intro first last r hr
    exact vector.erase_range_fields hr hv
  · intro value r hr
    simp only [vector.push_back] at hr
    obtain ⟨r1, h1, hr⟩ := Option.bind_eq_some.mp hr
    cases hr
    exact vector.emplace_back_fields h1 hv
  · intro value r hr
    simp only [vector.push_back_move] at hr
    obtain ⟨r1, h1, hr⟩ := Option.bind_eq_some.mp hr
    cases hr
    exact vector.emplace_back_fields h1 hv
  · intro r hr
    exact vector.pop_back_fields hr hv

/-- Witness of C5: on a heap holding `{10, 20, 30}` (capacity 4) and `{1, 2}`, both
vectors satisfy `size <= capacity`, every public operation returns, and each result
satisfies `size <= capacity` again. -/
theorem C5_size_le_capacity_witness :
    vecSpare.size ≤ vecSpare.capacity ∧ vecOther.size ≤ vecOther.capacity ∧
    (∃ r, vector.ctor_count fooElem heapTwo 2 = some r ∧ r.2.size ≤ r.2.capacity) ∧
    (∃ r, vector.ctor_count_value fooElem heapTwo 2 (Ref.ext 7) = some r ∧
      r.2.size ≤ r.2.capacity) ∧
    (∃ r, vector.ctor_copy fooElem heapTwo vecOther = some r ∧ r.2.size ≤ r.2.capacity) ∧
    (∃ r, vecSpare.assign_copy fooElem heapTwo (some vecOther) = some r ∧
      r.2.size ≤ r.2.capacity) ∧
    (∃ r, vecSpare.assign_move fooElem heapTwo (some vecOther) = some r ∧
      r.2.1.size ≤ r.2.1.capacity) ∧
    (∃ r, vecSpare.reserve fooElem heapTwo 10 = some r ∧ r.2.size ≤ r.2.capacity) ∧
    (∃ r, vecSpare.shrink_to_fit fooElem heapTwo = some r ∧ r.2.size ≤ r.2.capacity) ∧
    (∃ r, vecSpare.clear fooElem heapTwo = some r ∧ r.2.size ≤ r.2.capacity) ∧
    (∃ r, vecSpare.assign fooElem heapTwo vecOther.begin_ vecOther.end_ = some r ∧
      r.2.size ≤ r.2.capacity) ∧
    (∃ r, vecSpare.emplace_back fooElem heapTwo (Arg.make 99) = some r ∧
      r.2.1.size ≤ r.2.1.capacity) ∧
    (∃ r, vecSpare.emplace fooElem heapTwo (vecSpare.begin_.add 1) (Arg.make 99) = some r ∧
      r.2.1.size ≤ r.2.1.capacity) ∧
    (∃ r, vecSpare.insert fooElem heapTwo (vecSpare.begin_.add 1) (Ref.ext 99) = some r ∧
      r.2.1.size ≤ r.2.1.capacity) ∧
    (∃ r, vecSpare.insert_move fooElem heapTwo (vecSpare.begin_.add 1) (Ref.ext 99) =
      some r ∧ r.2.1.size ≤ r.2.1.capacity) ∧
    (∃ r, vecSpare.erase fooElem heapTwo (vecSpare.begin_.add 1) = some r ∧
      r.2.1.size ≤ r.2.1.capacity) ∧
    (∃ r, vecSpare.erase_range fooElem heapTwo (vecSpare.begin_.add 0)
      (vecSpare.begin_.add 2) = some r ∧ r.2.1.size ≤ r.2.1.capacity) ∧
    (∃ r, vecSpare.push_back fooElem heapTwo (Ref.ext 99) = some r ∧
      r.2.size ≤ r.2.capacity) ∧
    (∃ r, vecSpare.push_back_move fooElem heapTwo (Ref.ext 99) = some r ∧
      r.2.size ≤ r.2.capacity) ∧
    (∃ r, vecSpare.pop_back fooElem heapTwo = some r ∧ r.2.size ≤ r.2.capacity) := by
  obtain ⟨_, c2, c3, c4, _, c6, _, c8, _, c10, c11, c12, c13, c14, c15, c16, c17, c18, c19,
    c20, c21, c22⟩ :=
    C5_size_le_capacity fooElem heapTwo vecSpare vecOther (by decide) (by decide)
  exact ⟨by decide, by decide,
    exists_of_isSome rfl (c2 _), exists_of_isSome rfl (c3 _ _), exists_of_isSome rfl c4,
    exists_of_isSome rfl c6, exists_of_isSome rfl (fun r hr => (c8 r hr).1),
    exists_of_isSome rfl (c10 _), exists_of_isSome rfl c11, exists_of_isSome rfl c12,
    exists_of_isSome rfl (c13 _ _), exists_of_isSome rfl (c14 _),
    exists_of_isSome rfl (c15 _ _), exists_of_isSome rfl (c16 _ _),
    exists_of_isSome rfl (c17 _ _), exists_of_isSome rfl (c18 _),
    exists_of_isSome rfl (c19 _ _), exists_of_isSome rfl (c20 _),
    exists_of_isSome rfl (c21 _), exists_of_isSome rfl c22⟩

/-- C6: starting from the empty vector, a run of `push_back` calls (either overload)
returns, after which `size()` is the number of calls and `v[i]` is the `i`-th pushed
value for every `i < size()`. -/
theorem C6_push_back_sequence (E : ElemType T) (h : Heap T) (calls : List (Bool × T)) :
    ∃ h' v', vector.push_back_all E h vector.ctor_default calls = some (h', v') ∧
      v'.size = calls.length ∧
      ∀ i, i < v'.size → v'.get h' i = (calls.map Prod.snd)[i]? := by
  obtain ⟨h', v', hs, O'⟩ := vector.push_back_all_spec E calls h _ [] (Owns.empty h)
  simp only [List.nil_append] at O'
  refine ⟨h', v', hs, by simp [vector.size, O'.size_eq], fun i hi => O'.get i hi⟩

/-- C7: on a well-formed vector holding `s` (size `n >= 1`), `erase(begin()+i)` with
`i < n` returns; the vector then holds `s` without element `i` (elements before `i`
untouched, later ones one slot down), has size `n - 1` and the same capacity; the
returned iterator is `begin()+i`, it equals the new `end()` iff `i = n - 1`, and
otherwise it refers to the old `s[i+1]`. -/
theorem C7_erase_single (E : ElemType T) (h : Heap T) (v : vector) (s : List T) (i : Nat)
    (O : Owns h v s) (hi : i < s.length) :
    ∃ h' v' p, v.erase E h (v.begin_.add i) = some (h', v', p) ∧
      Owns h' v' (s.take i ++ s.drop (i + 1)) ∧
      v'.toList h' = some (s.take i ++ s.drop (i + 1)) ∧
      (∀ j, j < i → v'.get h' j = s[j]?) ∧
      (∀ j, i ≤ j → j < s.length - 1 → v'.get h' j = s[j + 1]?) ∧
      v'.size = s.length - 1 ∧ v'.capacity = v.capacity ∧
      p = v'.begin_.add i ∧ (p = v'.end_ ↔ i = s.length - 1) ∧
      (i ≠ s.length - 1 → h'.load p = s[i + 1]?) := by
  obtain ⟨h', hs, _, O'⟩ := vector.erase_spec E O hi
  have hn := O.size_eq
  have hsz : ({ v with m_size := v.m_size - 1 } : vector).m_size = s.length - 1 := by
    simp [hn]
  have hget : ∀ j, j < s.length - 1 →
      ({ v with m_size := v.m_size - 1 } : vector).get h' j = (s.eraseIdx i)[j]? :=
    fun j hj => O'.get j (by rw [hsz]; exact hj)
  have O'' : Owns h' { v with m_size := v.m_size - 1 } (s.take i ++ s.drop (i + 1)) := by
    rw [← List.eraseIdx_eq_take_drop_succ]; exact O'
  refine ⟨h', _, _, by rw [vector.begin_add]; exact hs, O'', O''.toList_eq, ?_, ?_, hsz, rfl,
    ?_, ?_, ?_⟩
  · intro j hj
    rw [hget j (by omega), List.getElem?_eraseIdx, if_pos hj]
  · intro j hj1 hj2
    rw [hget j hj2, List.getElem?_eraseIdx, if_neg (by omega)]
  · rw [vector.begin_add]; rfl
  · simp only [vector.end_, vector._ptrAt, Ptr.mk.injEq, true_and]
    omega
  · intro hne
    have := hget i (by omega)
    rw [List.getElem?_eraseIdx, if_neg (by omega)] at this
    rw [← this]
    simp [vector.get, vector.index, vector.assert, hn]
    have : i < s.length - 1 := by omega
    simp [this, vector._ptrAt]

/-- Witness of C7: Scenario B of the specification, erasing index 2 of
`{1, 2, 3, 4, 5}` gives `{1, 2, 4, 5}` and an iterator referring to `4`. -/
theorem C7_erase_single_witness :
    Owns heapFive vecFive [1, 2, 3, 4, 5] ∧ 2 < [1, 2, 3, 4, 5].length ∧
    ∃ h' v' p, vecFive.erase fooElem heapFive (vecFive.begin_.add 2) = some (h', v', p) ∧
      v'.toList h' = some [1, 2, 4, 5] ∧ h'.load p = some 4 ∧ v'.size = 4 ∧
      v'.capacity = 5 := by
  have O : Owns heapFive vecFive [1, 2, 3, 4, 5] :=
    Owns.of_toList (by decide) (by decide) rfl rfl
  obtain ⟨h', v', p, hs, _, hl, _, _, hsz, hcap, _, _, hp⟩ :=
    C7_erase_single fooElem heapFive vecFive [1, 2, 3, 4, 5] 2 O (by decide)
  exact ⟨O, by decide, h', v', p, hs, hl, hp (by decide), hsz, hcap⟩

/-- C8: on a well-formed vector holding `s` (size `n`), `erase(begin()+a, begin()+b)`
with `a <= b <= n` returns; the vector then holds `s[0..a) ++ s[b..n)`, has size
`n - (b - a)` and the same capacity, and the returned iterator is `begin()+a`. -/
theorem C8_erase_range (E : ElemType T) (h : Heap T) (v : vector) (s : List T) (a b : Nat)
    (O : Owns h v s) (hab : a ≤ b) (hb : b ≤ s.length) :
    ∃ h' v' p, v.erase_range E h (v.begin_.add a) (v.begin_.add b) = some (h', v', p) ∧
      Owns h' v' (s.take a ++ s.drop b) ∧
      v'.toList h' = some (s.take a ++ s.drop b) ∧
      v'.size = s.length - (b - a) ∧ v'.capacity = v.capacity ∧
      p = v'.begin_.add a := by
  obtain ⟨h', hs, _, O'⟩ := vector.erase_range_spec E O hab hb
  refine ⟨h', _, _, by rw [vector.begin_add, vector.begin_add]; exact hs, O', O'.toList_eq,
    by simp [vector.size, O.size_eq], rfl, by rw [vector.begin_add]; rfl⟩

/-- Witness of C8: erasing `[1, 3)` of `{1, 2, 3, 4, 5}` gives `{1, 4, 5}`. -/
theorem C8_erase_range_witness :
    Owns heapFive vecFive [1, 2, 3, 4, 5] ∧ 1 ≤ 3 ∧ 3 ≤ [1, 2, 3, 4, 5].length ∧
    ∃ h' v' p, vecFive.erase_range fooElem heapFive (vecFive.begin_.add 1)
        (vecFive.begin_.add 3) = some (h', v', p) ∧
      v'.toList h' = some [1, 4, 5] ∧ v'.size = 3 ∧ v'.capacity = 5 ∧
      p = v'.begin_.add 1 := by
  have O : Owns heapFive vecFive [1, 2, 3, 4, 5] :=
    Owns.of_toList (by decide) (by decide) rfl rfl
  obtain ⟨h', v', p, hs, _, hl, hsz, hcap, hp⟩ :=
    C8_erase_range fooElem heapFive vecFive [1, 2, 3, 4, 5] 1 3 O (by decide) (by decide)
  exact ⟨O, by decide, by decide, h', v', p, hs, hl, hsz, hcap, hp⟩

/-- C9: `erase(begin()+a, begin()+a)` with `a <= size` returns without touching
anything: the heap, and with it every counter of element constructions, assignments
and destructions and every element, is the same afterwards, so are size and capacity,
and the returned iterator is `begin()+a`. -/
theorem C9_erase_empty_range (E : ElemType T) (h : Heap T) (v : vector) (a : Nat)
    (ha : a ≤ v.size) :
    ∃ h' v' p, v.erase_range E h (v.begin_.add a) (v.begin_.add a) = some (h', v', p) ∧
      h' = h ∧ h'.stats = h.stats ∧ v' = v ∧ v'.size = v.size ∧
      v'.capacity = v.capacity ∧ v'.toList h' = v.toList h ∧ p = v.begin_.add a := by
  refine ⟨h, v, v.begin_.add a, ?_, rfl, rfl, rfl, rfl, rfl, rfl, rfl⟩
  have ha' : a ≤ v.m_size := ha
  simp [vector.erase_range, vector.assert, vector.checkIteratorRange, vector.begin_add,
    vector._ptrAt, ha']

/-- Witness of C9: the two empty erasures of the test, at `begin()` and at `end()` of a
five-element vector. -/
theorem C9_erase_empty_range_witness :
    (0 ≤ vecFive.size ∧
      ∃ h' v' p, vecFive.erase_range fooElem heapFive (vecFive.begin_.add 0)
          (vecFive.begin_.add 0) = some (h', v', p) ∧
        h' = heapFive ∧ h'.stats = heapFive.stats ∧ v' = vecFive ∧
        v'.size = vecFive.size ∧ v'.capacity = vecFive.capacity ∧
        v'.toList h' = vecFive.toList heapFive ∧ p = vecFive.begin_.add 0) ∧
    (5 ≤ vecFive.size ∧
      ∃ h' v' p, vecFive.erase_range fooElem heapFive (vecFive.begin_.add 5)
          (vecFive.begin_.add 5) = some (h', v', p) ∧
        h' = heapFive ∧ h'.stats = heapFive.stats ∧ v' = vecFive ∧
        v'.size = vecFive.size ∧ v'.capacity = vecFive.capacity ∧
        v'.toList h' = vecFive.toList heapFive ∧ p = vecFive.begin_.add 5) :=
  ⟨⟨by decide, C9_erase_empty_range fooElem heapFive vecFive 0 (by decide)⟩,
   ⟨by decide, C9_erase_empty_range fooElem heapFive vecFive 5 (by decide)⟩⟩

/-- C10: on a well-formed vector of size `n`, `insert(pos, x)` with `pos` in
`[begin(), end()]` returns; the capacity afterwards is exactly `n + 1` when the vector
had no spare capacity (`size == capacity`) and is unchanged when it had
(`size < capacity`). -/
theorem C10_insert_capacity (E : ElemType T) (h : Heap T) (v : vector) (s : List T)
    (i : Nat) (x : T) (O : Owns h v s) (hi : i ≤ s.length) :
    (∃ h' v' p, v.insert E h (v.begin_.add i) (Ref.ext x) = some (h', v', p) ∧
      (v.size = v.capacity → v'.capacity = s.length + 1) ∧
      (v.size < v.capacity → v'.capacity = v.capacity)) ∧
    (∃ h' v' p, v.insert_move E h (v.begin_.add i) (Ref.ext x) = some (h', v', p) ∧
      (v.size = v.capacity → v'.capacity = s.length + 1) ∧
      (v.size < v.capacity → v'.capacity = v.capacity)) := by
  have key : ∀ args : Arg T, Arg.Builds E args x →
      ∃ h' v' p, v.emplace E h (v.begin_.add i) args = some (h', v', p) ∧
        (v.size = v.capacity → v'.capacity = s.length + 1) ∧
        (v.size < v.capacity → v'.capacity = v.capacity) := by
    intro args hb
    obtain ⟨h', v', hs, _, hfull, hspare⟩ := vector.emplace_spec E O hi hb
    refine ⟨h', v', _, by rw [vector.begin_add]; exact hs, ?_, fun hlt => (hspare hlt).1⟩
    intro hf
    rw [← O.size_eq]
    exact hfull hf
  exact ⟨key _ (Arg.builds_copy E x), key _ (Arg.builds_move E x)⟩

/-- Witness of C10: Scenario C of the specification (`insert` of 99 at index 1 into the
full `{10, 20, 30}`: capacity becomes 4), and the same insertion with one spare slot
(capacity stays 4). -/
theorem C10_insert_capacity_witness :
    (Owns heapFull vecFull [10, 20, 30] ∧ 1 ≤ [10, 20, 30].length ∧
      ∃ h' v' p, vecFull.insert fooElem heapFull (vecFull.begin_.add 1) (Ref.ext 99) =
          some (h', v', p) ∧ v'.capacity = 4) ∧
    (Owns heapSpare vecSpare [10, 20, 30] ∧ 1 ≤ [10, 20, 30].length ∧
      ∃ h' v' p, vecSpare.insert fooElem heapSpare (vecSpare.begin_.add 1) (Ref.ext 99) =
          some (h', v', p) ∧ v'.capacity = 4) := by
  have O1 : Owns heapFull vecFull [10, 20, 30] :=
    Owns.of_toList (by decide) (by decide) rfl rfl
  have O2 : Owns heapSpare vecSpare [10, 20, 30] :=
    Owns.of_toList (by decide) (by decide) rfl rfl
  obtain ⟨h1, v1, p1, hs1, hf1, _⟩ :=
    (C10_insert_capacity fooElem heapFull vecFull [10, 20, 30] 1 99 O1 (by decide)).1
  obtain ⟨h2, v2, p2, hs2, _, hsp2⟩ :=
    (C10_insert_capacity fooElem heapSpare vecSpare [10, 20, 30] 1 99 O2 (by decide)).1
  exact ⟨⟨O1, by decide, h1, v1, p1, hs1, hf1 (by decide)⟩,
    ⟨O2, by decide, h2, v2, p2, hs2, hsp2 (by decide)⟩⟩

end Claims2

section Claims3
variable {T : Type}

/-- C13: on a well-formed vector holding `s`, `reserve(n)` with `n > capacity()` returns;
afterwards the capacity is exactly `n`, the size is unchanged and the vector holds the
same sequence `s`, element by element in the same order. -/
theorem C13_reserve_grows (E : ElemType T) (h : Heap T) (v : vector) (s : List T) (n : Nat)
    (O : Owns h v s) (hn : v.capacity < n) :
    ∃ h' v', v.reserve E h n = some (h', v') ∧ v'.capacity = n ∧ v'.size = v.size ∧
      Owns h' v' s ∧ v'.toList h' = some s ∧ v.toList h = some s ∧
      ∀ i, i < v.size → v'.get h' i = v.get h i := by
  have hn' : v.m_capacity < n := hn
  obtain ⟨h', v', hs, O', hcap, hsz, _, _⟩ :=
    vector._setCapacity_spec E O (c := n) (by have := O.size_le; omega)
  refine ⟨h', v', by simp [vector.reserve, hn', hs], hcap, hsz, O', O'.toList_eq, O.toList_eq,
    ?_⟩
  intro i hi
  rw [O'.get i (by rw [hsz]; exact hi), O.get i hi]

/-- Witness of C13: Scenario A of the specification, `reserve(10)` on a three-element
vector at full capacity. -/
theorem C13_reserve_grows_witness :
    Owns heapFull vecFull [10, 20, 30] ∧ vecFull.capacity < 10 ∧
    ∃ h' v', vecFull.reserve fooElem heapFull 10 = some (h', v') ∧ v'.capacity = 10 ∧
      v'.size = 3 ∧ v'.toList h' = some [10, 20, 30] := by
  have O : Owns heapFull vecFull [10, 20, 30] :=
    Owns.of_toList (by decide) (by decide) rfl rfl
  obtain ⟨h', v', hs, hcap, hsz, _, hl, _, _⟩ :=
    C13_reserve_grows fooElem heapFull vecFull [10, 20, 30] 10 O (by decide)
  exact ⟨O, by decide, h', v', hs, hcap, hsz, hl⟩

/-- C14: `reserve(n)` with `n <= capacity()` returns the heap and the vector exactly as
they were: same data pointer, capacity and size, same elements, and every counter of
element constructions, assignments and destructions and of allocator calls unchanged. -/
theorem C14_reserve_noop (E : ElemType T) (h : Heap T) (v : vector) (n : Nat)
    (hn : n ≤ v.capacity) :
    ∃ h' v', v.reserve E h n = some (h', v') ∧ h' = h ∧ h'.stats = h.stats ∧ v' = v ∧
      v'.data = v.data ∧ v'.capacity = v.capacity ∧ v'.size = v.size ∧
      v'.toList h' = v.toList h := by
  have hn' : ¬ v.m_capacity < n := by have : n ≤ v.m_capacity := hn; omega
  exact ⟨h, v, by simp [vector.reserve, hn'], rfl, rfl, rfl, rfl, rfl, rfl, rfl⟩

/-- Witness of C14: `reserve(2)` on a vector of capacity 4. -/
theorem C14_reserve_noop_witness :
    2 ≤ vecSpare.capacity ∧
    ∃ h' v', vecSpare.reserve fooElem heapSpare 2 = some (h', v') ∧ h' = heapSpare ∧
      h'.stats = heapSpare.stats ∧ v' = vecSpare ∧ v'.data = vecSpare.data ∧
      v'.capacity = vecSpare.capacity ∧ v'.size = vecSpare.size ∧
      v'.toList h' = vecSpare.toList heapSpare :=
  ⟨by decide, C14_reserve_noop fooElem heapSpare vecSpare 2 (by decide)⟩

/-- C15: on a well-formed vector holding `s`, `shrink_to_fit()` returns; afterwards
`capacity() == size()`, the size is unchanged and the vector holds the same sequence;
when the capacity already equals the size, heap (all counters included) and vector
(data pointer included) are exactly as before. -/
theorem C15_shrink_to_fit (E : ElemType T) (h : Heap T) (v : vector) (s : List T)
    (O : Owns h v s) :
    ∃ h' v', v.shrink_to_fit E h = some (h', v') ∧ v'.capacity = v'.size ∧
      v'.size = v.size ∧ Owns h' v' s ∧ v'.toList h' = some s ∧
      (∀ i, i < v.size → v'.get h' i = v.get h i) ∧
      (v.capacity = v.size → h' = h ∧ v' = v) := by
  obtain ⟨h', v', hs, O', hcap, hsz, hsame, _⟩ :=
    vector._setCapacity_spec E O (c := v.m_size) (le_refl _)
  refine ⟨h', v', hs, by simp [vector.capacity, vector.size, hcap, hsz], hsz, O',
    O'.toList_eq, ?_, fun e => hsame e.symm⟩
  intro i hi
  rw [O'.get i (by rw [hsz]; exact hi), O.get i hi]

/-- Witness of C15: shrinking `{10, 20, 30}` of capacity 4 gives capacity 3. -/
theorem C15_shrink_to_fit_witness :
    Owns heapSpare vecSpare [10, 20, 30] ∧
    ∃ h' v', vecSpare.shrink_to_fit fooElem heapSpare = some (h', v') ∧ v'.capacity = 3 ∧
      v'.toList h' = some [10, 20, 30] := by
  have O : Owns heapSpare vecSpare [10, 20, 30] :=
    Owns.of_toList (by decide) (by decide) rfl rfl
  obtain ⟨h', v', hs, hcap, hsz, _, hl, _, _⟩ :=
    C15_shrink_to_fit fooElem heapSpare vecSpare [10, 20, 30] O
  exact ⟨O, h', v', hs, by rw [hcap, hsz]; rfl, hl⟩

/-- C20: move-construction from `other` yields a vector with exactly `other`'s data
pointer, capacity and size, so on any heap where `other` held `s` the new vector holds
`s`; `other` is left with size 0, capacity 0 and a null data pointer; the heap is not
an input of the operation, so no element is constructed, assigned or destroyed and
nothing is allocated or freed. -/
theorem C20_move_construct (h : Heap T) (other : vector) (s : List T) (O : Owns h other s) :
    (vector.ctor_move other).1.data = other.data ∧
    (vector.ctor_move other).1.capacity = other.capacity ∧
    (vector.ctor_move other).1.size = other.size ∧
    Owns h (vector.ctor_move other).1 s ∧
    (vector.ctor_move other).1.toList h = some s ∧
    (vector.ctor_move other).2.size = 0 ∧ (vector.ctor_move other).2.capacity = 0 ∧
    (vector.ctor_move other).2.data = none ∧
    Owns h (vector.ctor_move other).2 ([] : List T) := by
  have hv : (vector.ctor_move other).1 = other := rfl
  refine ⟨rfl, rfl, rfl, by rw [hv]; exact O, by rw [hv]; exact O.toList_eq, rfl, rfl, rfl,
    Owns.empty h⟩

/-- Witness of C20: moving out of `{10, 20, 30}`. -/
theorem C20_move_construct_witness :
    Owns heapFull vecFull [10, 20, 30] ∧
    (vector.ctor_move vecFull).1.data = vecFull.data ∧
    (vector.ctor_move vecFull).1.capacity = vecFull.capacity ∧
    (vector.ctor_move vecFull).1.size = vecFull.size ∧
    Owns heapFull (vector.ctor_move vecFull).1 [10, 20, 30] ∧
    (vector.ctor_move vecFull).1.toList heapFull = some [10, 20, 30] ∧
    (vector.ctor_move vecFull).2.size = 0 ∧ (vector.ctor_move vecFull).2.capacity = 0 ∧
    (vector.ctor_move vecFull).2.data = none ∧
    Owns heapFull (vector.ctor_move vecFull).2 ([] : List Int) :=
  ⟨Owns.of_toList (by decide) (by decide) rfl rfl,
    C20_move_construct heapFull vecFull [10, 20, 30]
      (Owns.of_toList (by decide) (by decide) rfl rfl)⟩

end Claims3

section Claims4
variable {T : Type}

/-- C11: on a well-formed vector holding `s` (size `n`), `insert(begin()+i, v[j])` with
`i <= n`, `j < n` and the argument a `const T&` to the live element `v[j]` (the
reference `operator[]` returns) succeeds and leaves the vector holding
`s[0..i) ++ [s[j]] ++ s[i..n)`, `s[j]` being the value before the call.  No
assumption is made on the capacity, so this covers the in-place path
(`size < capacity`) and the reallocating path (`size == capacity`). -/
theorem C11_insert_aliasing (E : ElemType T) (h : Heap T) (v : vector) (s : List T)
    (i j : Nat) (O : Owns h v s) (hi : i ≤ s.length) (hj : j < s.length) :
    ∃ r, v.index j = some r ∧
      ∃ h' v' p, v.insert E h (v.begin_.add i) (Ref.slot r) = some (h', v', p) ∧
        Owns h' v' (s.take i ++ [s[j]] ++ s.drop i) ∧
        v'.toList h' = some (s.take i ++ [s[j]] ++ s.drop i) ∧
        v'.size = s.length + 1 ∧ p = v'.begin_.add i ∧ h'.load p = some s[j] := by
  have hjs : j < v.m_size := by rw [O.size_eq]; exact hj
  refine ⟨v._ptrAt j, by simp [vector.index, vector.assert, hjs], ?_⟩
  obtain ⟨h', v', hs, O', _, _⟩ :=
    vector.emplace_reads E O hi (Arg.reads_copy_slot E (O.cell_eq hj))
  have O'' : Owns h' v' (s.take i ++ [s[j]] ++ s.drop i) := by simpa using O'
  have hlen : (s.take i ++ [s[j]] ++ s.drop i).length = s.length + 1 := by
    simp only [List.length_append, List.length_take, List.length_drop,
      List.length_singleton]
    omega
  refine ⟨h', v', _, by rw [vector.begin_add]; exact hs, O'', O''.toList_eq, ?_,
    by rw [vector.begin_add], ?_⟩
  · rw [vector.size, O''.size_eq, hlen]
  · apply Heap.load_of_cell
    apply O''.elems
    rw [List.append_assoc, List.getElem?_append_right (by simp [hi])]
    simp [hi]

/-- Witness of C11: `insert(begin()+1, v[2])` on `{10, 20, 30}`, once with spare
capacity and once at full capacity, gives `{10, 30, 20, 30}`. -/
theorem C11_insert_aliasing_witness :
    (Owns heapSpare vecSpare [10, 20, 30] ∧ 1 ≤ [10, 20, 30].length ∧
      2 < [10, 20, 30].length ∧
      ∃ h' v' p, vecSpare.insert fooElem heapSpare (vecSpare.begin_.add 1)
          (Ref.slot (vecSpare._ptrAt 2)) = some (h', v', p) ∧
        v'.toList h' = some [10, 30, 20, 30]) ∧
    (Owns heapFull vecFull [10, 20, 30] ∧ 1 ≤ [10, 20, 30].length ∧
      2 < [10, 20, 30].length ∧
      ∃ h' v' p, vecFull.insert fooElem heapFull (vecFull.begin_.add 1)
          (Ref.slot (vecFull._ptrAt 2)) = some (h', v', p) ∧
        v'.toList h' = some [10, 30, 20, 30]) := by
  have O1 : Owns heapSpare vecSpare [10, 20, 30] :=
    Owns.of_toList (by decide) (by decide) rfl rfl
  have O2 : Owns heapFull vecFull [10, 20, 30] :=
    Owns.of_toList (by decide) (by decide) rfl rfl
  obtain ⟨r1, hr1, h1, v1, p1, hs1, _, hl1, _⟩ :=
    C11_insert_aliasing fooElem heapSpare vecSpare [10, 20, 30] 1 2 O1 (by decide)
      (by decide)
  obtain ⟨r2, hr2, h2, v2, p2, hs2, _, hl2, _⟩ :=
    C11_insert_aliasing fooElem heapFull vecFull [10, 20, 30] 1 2 O2 (by decide)
      (by decide)
  have e1 : r1 = vecSpare._ptrAt 2 := by
    have : vecSpare.index 2 = some (vecSpare._ptrAt 2) := rfl
    rw [this] at hr1; exact (Option.some.inj hr1).symm
  have e2 : r2 = vecFull._ptrAt 2 := by
    have : vecFull.index 2 = some (vecFull._ptrAt 2) := rfl
    rw [this] at hr2; exact (Option.some.inj hr2).symm
  subst e1 e2
  exact ⟨⟨O1, by decide, by decide, h1, v1, p1, hs1, hl1⟩,
    ⟨O2, by decide, by decide, h2, v2, p2, hs2, hl2⟩⟩

end Claims4

section AssignGrow
variable {T : Type}

theorem Stats.dtor_eq (E : ElemType T) (st : Stats) (n : Nat) :
    (if E.trivDtor then st else { st with dtor := st.dtor + n }) =
      { st with dtor := st.dtor + E.dtorCalls n } := by
  unfold ElemType.dtorCalls
  by_cases ht : E.trivDtor = true <;> simp [ht]

theorem Stats.copyCtor_eq (E : ElemType T) (st : Stats) (n : Nat) :
    (if E.trivCopyCtor then st else { st with copyCtor := st.copyCtor + n }) =
      { st with copyCtor := st.copyCtor + E.copyCtorCalls n } := by
  unfold ElemType.copyCtorCalls
  by_cases ht : E.trivCopyCtor = true <;> simp [ht]

theorem Stats.copyAssign_eq (E : ElemType T) (st : Stats) (n : Nat) :
    (if E.trivCopyAssign then st else { st with copyAssign := st.copyAssign + n }) =
      { st with copyAssign := st.copyAssign + E.copyAssignCalls n } := by
  unfold ElemType.copyAssignCalls
  by_cases ht : E.trivCopyAssign = true <;> simp [ht]

/-- Outcome of `_clear()`: every live element is destroyed, the size becomes 0, buffer
and capacity stay. -/
theorem vector._clear_spec (E : ElemType T) {h : Heap T} {v : vector} {s : List T}
    (O : Owns h v s) :
    ∃ h', v._clear E h = some (h', { v with m_size := 0 }) ∧ h.Frame h' ∧
      Owns h' { v with m_size := 0 } ([] : List T) ∧
      h'.stats = { h.stats with dtor := h.stats.dtor + E.dtorCalls v.m_size } ∧
      (∀ j, j < v.m_size → h'.cell? (v._ptrAt j) = some Cell.dead) ∧
      (∀ q : Ptr, ¬ q.within (v._ptrAt 0) v.m_size → h'.cell? q = h.cell? q) := by
  by_cases hsz : v.m_size = 0
  · have hv : ({ v with m_size := 0 } : vector) = v := by
      cases v; simp only [vector.mk.injEq, true_and] at *; exact hsz.symm
    refine ⟨h, by simp [vector._clear, hsz, hv], Heap.Frame.refl h, ?_, ?_,
      fun j hj => by omega, fun _ _ => rfl⟩
    · exact ⟨rfl, Nat.zero_le _, O.null_iff, O.slots, fun i x hx => by simp at hx⟩
    · simp [ElemType.dtorCalls, hsz]
  · obtain ⟨h', hs, hfr, hst, ha, hb⟩ := _destroyRange_spec E h (v._ptrAt 0) v.m_size
      (fun k hk => O.isLive (i := 0 + k) (by omega))
    have e1 : (v._ptrAt 0).add v.m_size = v._ptrAt v.m_size := by
      rw [vector._ptrAt_add, Nat.zero_add]
    rw [e1] at hs
    refine ⟨h', ?_, hfr, ?_, by rw [hst, Stats.dtor_eq], ?_, hb⟩
    · have : (v.m_size != 0) = true := by simp [hsz]
      simp [vector._clear, this, hs]
    · exact ⟨rfl, Nat.zero_le _, O.null_iff, O.frame_slots hfr, fun i x hx => by simp at hx⟩
    · intro j hj
      exact ha _ (by simp; omega)

/-- Outcome of `_clearAndSetCapacity(c)` with `c > capacity`: the vector is empty in a
fresh buffer of exactly `c` raw slots; the old elements were destroyed and the old
buffer, if any, freed. -/
theorem vector._clearAndSetCapacity_spec (E : ElemType T) {h : Heap T} {v : vector}
    {s : List T} (O : Owns h v s) {c : Nat} (hc : v.m_capacity < c) :
    ∃ h', v._clearAndSetCapacity E h c =
        some (h', { m_data := some h.mem.length, m_capacity := c, m_size := 0 }) ∧
      Owns h' { m_data := some h.mem.length, m_capacity := c, m_size := 0 } ([] : List T) ∧
      h'.stats = v.grownStats E h.stats ∧
      h'.mem.length = h.mem.length + 1 ∧
      (∀ q : Ptr, q.base ≠ v.m_data → q.base ≠ some h.mem.length →
        h'.cell? q = h.cell? q) := by
  obtain ⟨h1, hs1, hfr1, O1, hst1, _, hb1⟩ := vector._clear_spec E O
  have hcz : c ≠ 0 := by omega
  have hne : c ≠ v.m_capacity := by omega
  have hlen1 : h1.mem.length = h.mem.length := hfr1.1
  have hal : _allocate h1 c = (some h.mem.length, (h1.alloc c).2) := by
    rw [_allocate_pos h1 hcz, hlen1]
  have hfree : ∃ h3, (h1.alloc c).2.free v.m_data = some h3 ∧
      h3.mem.length = h.mem.length + 1 ∧
      h3.slots? h.mem.length = some c ∧
      h3.stats = v.grownStats E h.stats ∧
      (∀ q : Ptr, q.base ≠ v.m_data → h3.cell? q = (h1.alloc c).2.cell? q) := by
    have hsl0 : (h1.alloc c).2.slots? h.mem.length = some c := by
      rw [Heap.alloc_slots, hlen1, if_pos rfl]
    cases hd : v.m_data with
    | none =>
      have hcap0 : v.m_capacity = 0 := O.null_iff.mp hd
      refine ⟨(h1.alloc c).2, rfl, by rw [Heap.alloc_length, hlen1], hsl0, ?_,
        fun _ _ => rfl⟩
      rw [Heap.alloc_stats, hst1]
      simp [vector.grownStats, hcap0]
    | some b =>
      have hblt := O.data_lt hd
      have hcapne : v.m_capacity ≠ 0 := fun e => by
        have := O.null_iff.mpr e; rw [hd] at this; cases this
      have hsl : (h1.alloc c).2.slots? b = some v.m_capacity := by
        have := O.slots; rw [hd] at this
        rw [Heap.alloc_slots, hlen1, if_neg (by omega), hfr1.2]
        exact this
      obtain ⟨h3, hs3, hlen3, hst3, hsl3, hcell3⟩ := Heap.free_spec hsl
      refine ⟨h3, hs3, by rw [hlen3, Heap.alloc_length, hlen1], ?_, ?_,
        fun q hq => by rw [hcell3, if_neg hq]⟩
      · rw [hsl3, if_neg (by omega), hsl0]
      · rw [hst3, Heap.alloc_stats, hst1]
        simp [vector.grownStats, hcapne]
  obtain ⟨h3, hs3, hlen3, hsl3, hst3, hcell3⟩ := hfree
  refine ⟨h3, ?_, ?_, hst3, hlen3, ?_⟩
  · simp only [vector._clearAndSetCapacity, hs1, Option.bind_eq_bind, Option.some_bind,
      vector._setCapacity, vector.assert, Nat.zero_le, decide_True, if_true, if_neg hne,
      if_neg hcz, hal, bne_self_eq_false, Bool.false_eq_true, if_false, hs3,
      Option.pure_def]
  · exact ⟨rfl, Nat.zero_le _, by simp [hcz], hsl3, fun i x hx => by simp at hx⟩
  · intro q hq1 hq2
    rw [hcell3 q hq1, Heap.alloc_cell, hlen1, if_neg hq2, hb1 q (fun hw => hq1 hw.1)]

end AssignGrow

section AssignPaths
variable {T : Type}

theorem Owns.isSome_frame {h h' : Heap T} {v : vector} {s : List T} (O : Owns h v s)
    (hf : h.Frame h') {i : Nat} (hi : i < v.m_capacity) : (h'.cell? (v._ptrAt i)).isSome := by
  rw [hf.isSome_cell]; exact O.isSome hi

/-- The bulk path of `_assign_range` after the capacity check: `memmove` of the range
onto the front of the buffer. -/
theorem vector.assign_fill_trivial {h : Heap T} {v : vector} {s : List T} (O : Owns h v s)
    {first : Ptr} {ws : List T} (hcap : ws.length ≤ v.m_capacity)
    (hsrc : ∀ k x, ws[k]? = some x → h.cell? (first.add k) = some (Cell.live x)) :
    ∃ h', h.memmove (v._ptrAt 0) first ws.length = some h' ∧
      Owns h' { v with m_size := ws.length } ws ∧ h'.stats = h.stats ∧
      (∀ q : Ptr, q.base ≠ v.m_data → h'.cell? q = h.cell? q) := by
  have hsrc' : ∀ k (hk : k < ws.length), h.cell? (first.add k) = some (Cell.live ws[k]) :=
    fun k hk => hsrc k ws[k] (List.getElem?_eq_getElem hk)
  obtain ⟨h', hs, hfr, hst, ha, hb⟩ := Heap.memmove_spec h (v._ptrAt 0) first ws.length
    (fun k hk => by rw [hsrc' k hk]; rfl)
    (fun k hk => O.isSome (i := 0 + k) (by omega))
  refine ⟨h', hs, ⟨rfl, hcap, O.null_iff, O.frame_slots hfr, ?_⟩, hst,
    fun q hq => hb q (fun hw => hq hw.1)⟩
  intro j x hx
  have hj := getElem?_lt_length hx
  have := ha j hj
  rw [vector._ptrAt_add, Nat.zero_add] at this
  show h'.cell? (v._ptrAt j) = _
  rw [this]
  exact hsrc j x hx

/-- The element-wise growing path of `_assign_range` after the capacity check:
copy-assignment over the live slots, copy-construction into the following ones. -/
theorem vector.assign_fill (E : ElemType T) {h : Heap T} {v : vector} {s : List T}
    (O : Owns h v s) {first : Ptr} {ws : List T} (hlen : s.length ≤ ws.length)
    (hcap : ws.length ≤ v.m_capacity)
    (hsrc : ∀ k x, ws[k]? = some x → h.cell? (first.add k) = some (Cell.live x))
    (hext : first.base ≠ v.m_data ∨ ws = []) :
    ∃ h1 h', _copyAssignRange E h first (first.add v.m_size) (v._ptrAt 0) =
        some (h1, (v._ptrAt 0).add v.m_size) ∧
      _copyConstructRange E h1 (first.add v.m_size) (first.add ws.length)
        (v._ptrAt v.m_size) = some h' ∧
      Owns h' { v with m_size := ws.length } ws ∧
      h'.stats = { h.stats with
        copyAssign := h.stats.copyAssign + E.copyAssignCalls v.m_size,
        copyCtor := h.stats.copyCtor + E.copyCtorCalls (ws.length - v.m_size) } ∧
      (∀ q : Ptr, q.base ≠ v.m_data → h'.cell? q = h.cell? q) := by
  have hn := O.size_eq
  have hsrc' : ∀ k (hk : k < ws.length), h.cell? (first.add k) = some (Cell.live ws[k]) :=
    fun k hk => hsrc k ws[k] (List.getElem?_eq_getElem hk)
  have hbase : ∀ k, k < ws.length → (first.add k).base ≠ v.m_data := by
    intro k hk
    rcases hext with he | he
    · exact he
    · subst he; simp at hk
  obtain ⟨h1, hs1, hfr1, hst1, ha1, hb1⟩ := _copyAssignRange_spec E h first (v._ptrAt 0)
    v.m_size (fun _ => Nat.zero_le _)
    (fun k hk => ⟨_, hsrc' k (by omega)⟩)
    (fun k hk => O.isLive (i := 0 + k) (by omega))
  have hsrc1 : ∀ k, k < ws.length → h1.cell? (first.add k) = h.cell? (first.add k) :=
    fun k hk => hb1 _ (fun hw => hbase k hk hw.1)
  obtain ⟨h2, hs2, hfr2, hst2, ha2, hb2⟩ := _copyConstructRange_spec E h1
    (first.add v.m_size) (v._ptrAt v.m_size) (ws.length - v.m_size)
    (fun _ => by simp [Ptr.add, vector._ptrAt])
    (fun k hk => by
      rw [Ptr.add_add, Heap.isLive, hsrc1 _ (by omega)]
      exact ⟨_, hsrc' _ (by omega)⟩)
    (fun k hk => O.isSome_frame hfr1 (i := v.m_size + k) (by omega))
  have e2 : (first.add v.m_size).add (ws.length - v.m_size) = first.add ws.length := by
    rw [Ptr.add_add]; congr 1; omega
  rw [e2] at hs2
  refine ⟨h1, h2, hs1, hs2, ?_, ?_, ?_⟩
  · refine ⟨rfl, hcap, O.null_iff, O.frame_slots (hfr1.trans hfr2), ?_⟩
    intro j x hx
    have hj := getElem?_lt_length hx
    show h2.cell? (v._ptrAt j) = _
    by_cases hjs : j < v.m_size
    · rw [hb2 (v._ptrAt j) (by simp; omega)]
      have := ha1 j hjs
      rw [vector._ptrAt_add, Nat.zero_add] at this
      rw [this]
      exact hsrc j x hx
    · have := ha2 (j - v.m_size) (by omega)
      rw [vector._ptrAt_add, Ptr.add_add] at this
      have ea : v.m_size + (j - v.m_size) = j := by omega
      rw [ea] at this
      rw [this, hsrc1 j hj]
      exact hsrc j x hx
  · rw [hst2, Stats.copyCtor_eq, hst1, Stats.copyAssign_eq]
  · intro q hq
    rw [hb2 q (fun hw => hq hw.1), hb1 q (fun hw => hq hw.1)]

/-- The element-wise shrinking path of `_assign_range`: copy-assignment over the first
`newSize` slots, destruction of the trailing ones. -/
theorem vector.assign_shrink (E : ElemType T) {h : Heap T} {v : vector} {s : List T}
    (O : Owns h v s) {first : Ptr} {ws : List T} (hlen : ws.length ≤ s.length)
    (hsrc : ∀ k x, ws[k]? = some x → h.cell? (first.add k) = some (Cell.live x)) :
    ∃ h1 h', _copyAssignRange E h first (first.add ws.length) (v._ptrAt 0) =
        some (h1, (v._ptrAt 0).add ws.length) ∧
      _destroyRange E h1 (v._ptrAt ws.length) (v._ptrAt v.m_size) = some h' ∧
      Owns h' { v with m_size := ws.length } ws ∧
      h'.stats = { h.stats with
        copyAssign := h.stats.copyAssign + E.copyAssignCalls ws.length,
        dtor := h.stats.dtor + E.dtorCalls (v.m_size - ws.length) } ∧
      (∀ q : Ptr, q.base ≠ v.m_data → h'.cell? q = h.cell? q) ∧
      (∀ j, ws.length ≤ j → j < v.m_size → h'.cell? (v._ptrAt j) = some Cell.dead) := by
  have hn := O.size_eq
  have hsrc' : ∀ k (hk : k < ws.length), h.cell? (first.add k) = some (Cell.live ws[k]) :=
    fun k hk => hsrc k ws[k] (List.getElem?_eq_getElem hk)
  obtain ⟨h1, hs1, hfr1, hst1, ha1, hb1⟩ := _copyAssignRange_spec E h first (v._ptrAt 0)
    ws.length (fun _ => Nat.zero_le _)
    (fun k hk => ⟨_, hsrc' k hk⟩)
    (fun k hk => O.isLive (i := 0 + k) (by omega))
  obtain ⟨h2, hs2, hfr2, hst2, ha2, hb2⟩ := _destroyRange_spec E h1 (v._ptrAt ws.length)
    (v.m_size - ws.length)
    (fun k hk => by
      rw [vector._ptrAt_add, Heap.isLive, hb1 (v._ptrAt (ws.length + k)) (by simp)]
      exact O.isLive (by omega))
  have e2 : (v._ptrAt ws.length).add (v.m_size - ws.length) = v._ptrAt v.m_size := by
    rw [vector._ptrAt_add]; congr 1; omega
  rw [e2] at hs2
  refine ⟨h1, h2, hs1, hs2, ?_, ?_, ?_, ?_⟩
  · refine ⟨rfl, by have := O.size_le; show ws.length ≤ v.m_capacity; omega, O.null_iff,
      O.frame_slots (hfr1.trans hfr2), ?_⟩
    intro j x hx
    have hj := getElem?_lt_length hx
    show h2.cell? (v._ptrAt j) = _
    rw [hb2 (v._ptrAt j) (by simp; omega)]
    have := ha1 j hj
    rw [vector._ptrAt_add, Nat.zero_add] at this
    rw [this]
    exact hsrc j x hx
  · rw [hst2, Stats.dtor_eq, hst1, Stats.copyAssign_eq]
  · intro q hq
    rw [hb2 q (fun hw => hq hw.1), hb1 q (fun hw => hq hw.1)]
  · intro j hj1 hj2
    exact ha2 (v._ptrAt j) (by simp; omega)

end AssignPaths

section AssignRange
variable {T : Type}

/-- The capacity check at the head of `_assign_range`: grows to exactly `newSize` when
the capacity is too small, and leaves everything as it is otherwise.  The source range
is not disturbed. -/
theorem vector.assign_grow (E : ElemType T) {h : Heap T} {v : vector} {s : List T}
    (O : Owns h v s) {first : Ptr} {ws : List T}
    (hsrc : ∀ k x, ws[k]? = some x → h.cell? (first.add k) = some (Cell.live x))
    (hext : first.base ≠ v.m_data ∨ ws = []) :
    ∃ h1 v1 s1, (if v.m_capacity < ws.length then v._clearAndSetCapacity E h ws.length
        else some (h, v)) = some (h1, v1) ∧
      Owns h1 v1 s1 ∧ ws.length ≤ v1.m_capacity ∧
      v1.m_capacity = (if v.m_capacity < ws.length then ws.length else v.m_capacity) ∧
      v1.m_data = (if v.m_capacity < ws.length then some h.mem.length else v.m_data) ∧
      v1.m_size = (if v.m_capacity < ws.length then 0 else v.m_size) ∧
      h1.stats = (if v.m_capacity < ws.length then v.grownStats E h.stats else h.stats) ∧
      (∀ k x, ws[k]? = some x → h1.cell? (first.add k) = some (Cell.live x)) ∧
      (first.base ≠ v1.m_data ∨ ws = []) ∧
      (∀ q : Ptr, q.base ≠ v.m_data → q.base ≠ some h.mem.length →
        h1.cell? q = h.cell? q) := by
  by_cases hc : v.m_capacity < ws.length
  · obtain ⟨h1, hs, O1, hst, hlen, hfr⟩ := vector._clearAndSetCapacity_spec E O hc
    have hws : ws ≠ [] := by
      intro he; subst he; simp at hc
    have hb : first.base ≠ v.m_data := hext.resolve_right hws
    have hfresh : ∀ k x, ws[k]? = some x → (first.add k).base ≠ some h.mem.length := by
      intro k x hx hbase
      have hcell := hsrc k x hx
      have hp : first.add k = ⟨some h.mem.length, (first.add k).off⟩ := by
        rw [← hbase]
      rw [hp] at hcell
      have hlt := Heap.cell?_lt hcell
      omega
    have hfb : first.base ≠ some h.mem.length := by
      obtain ⟨x, ws', rfl⟩ := List.exists_cons_of_ne_nil hws
      exact hfresh 0 x (by simp)
    refine ⟨h1, _, [], ?_, O1, ?_, ?_, ?_, ?_, ?_, ?_, Or.inl hfb, hfr⟩
    · rw [if_pos hc, hs]
    · exact Nat.le_refl _
    · rw [if_pos hc]
    · rw [if_pos hc]
    · rw [if_pos hc]
    · rw [if_pos hc, hst]
    · intro k x hx
      rw [hfr (first.add k) hb (hfresh k x hx)]
      exact hsrc k x hx
  · refine ⟨h, v, s, ?_, O, Nat.le_of_not_lt hc, ?_, ?_, ?_, ?_, hsrc, hext,
      fun _ _ _ => rfl⟩ <;> rw [if_neg hc]

/-- Specification of `_assign_range(first, first + n)` for a range holding the sequence
`ws` outside the buffer: the vector then holds `ws`, the capacity grows to exactly `n`
when it was smaller and is kept otherwise, the counters are those of `assignStats`, and
the cells of other allocations are untouched. -/
theorem vector._assign_range_spec (E : ElemType T) {h : Heap T} {v : vector} {s : List T}
    (O : Owns h v s) {first : Ptr} {ws : List T}
    (hsrc : ∀ k x, ws[k]? = some x → h.cell? (first.add k) = some (Cell.live x))
    (hext : first.base ≠ v.m_data ∨ ws = []) :
    ∃ h' v', v._assign_range E h first (first.add ws.length) = some (h', v') ∧
      Owns h' v' ws ∧
      v'.m_capacity = (if v.m_capacity < ws.length then ws.length else v.m_capacity) ∧
      v'.m_data = (if v.m_capacity < ws.length then some h.mem.length else v.m_data) ∧
      h'.stats = v.assignStats E ws.length h.stats ∧
      (∀ q : Ptr, q.base ≠ v.m_data → q.base ≠ some h.mem.length →
        h'.cell? q = h.cell? q) ∧
      (E.trivCopyable = false → ∀ j, ws.length ≤ j → j < v.m_size →
        h'.cell? (v._ptrAt j) = some Cell.dead) := by
  have hn := O.size_eq
  unfold vector._assign_range
  rw [Ptr.diff_add]
  simp only [Option.bind_eq_bind, Option.some_bind]
  by_cases ht : E.trivCopyable = true
  · rw [if_pos ht]
    obtain ⟨h1, v1, s1, hs1, O1, hcap1, hc1, hd1, hz1, hst1, hsrc1, hext1, hfr1⟩ :=
      vector.assign_grow E O hsrc hext
    obtain ⟨h2, hs2, O2, hst2, hfr2⟩ := vector.assign_fill_trivial O1 hcap1 hsrc1
    refine ⟨h2, { v1 with m_size := ws.length }, ?_, O2, hc1, hd1, ?_, ?_, ?_⟩
    · rw [hs1]; simp only [Option.some_bind]; rw [hs2]; rfl
    · rw [hst2, hst1]; simp [vector.assignStats, ht]
    · intro q hq hq'
      rw [hfr2 q (by rw [hd1]; split <;> assumption), hfr1 q hq hq']
    · intro hf; rw [ht] at hf; cases hf
  · rw [if_neg ht]
    by_cases hg : v.m_size < ws.length
    · rw [if_pos hg]
      obtain ⟨h1, v1, s1, hs1, O1, hcap1, hc1, hd1, hz1, hst1, hsrc1, hext1, hfr1⟩ :=
        vector.assign_grow E O hsrc hext
      have hlen1 : s1.length ≤ ws.length := by
        rw [← O1.size_eq, hz1]; split <;> omega
      obtain ⟨h2, h3, hs2, hs3, O3, hst3, hfr3⟩ :=
        vector.assign_fill E O1 hlen1 hcap1 hsrc1 hext1
      refine ⟨h3, { v1 with m_size := ws.length }, ?_, O3, hc1, hd1, ?_, ?_,
        fun _ j hj1 hj2 => absurd hg (by omega)⟩
      · rw [hs1]; simp only [Option.some_bind]; rw [hs2]; simp only [Option.some_bind]
        rw [hs3]; rfl
      · rw [hst3, hst1, hz1]
        by_cases hc : v.m_capacity < ws.length
        · simp [vector.assignStats, ht, hg, hc, vector.grownStats, ElemType.copyAssignCalls]
        · simp [vector.assignStats, ht, hg, hc]
      · intro q hq hq'
        rw [hfr3 q (by rw [hd1]; split <;> assumption), hfr1 q hq hq']
    · rw [if_neg hg]
      have hle : ws.length ≤ s.length := by omega
      obtain ⟨h1, h2, hs1, hs2, O2, hst2, hfr2, hdead⟩ :=
        vector.assign_shrink E O hle hsrc
      have hc : ¬ v.m_capacity < ws.length := by have := O.size_le; omega
      refine ⟨h2, { v with m_size := ws.length }, ?_, O2, ?_, ?_, ?_, ?_, fun _ => hdead⟩
      · rw [hs1]; simp only [Option.some_bind]; rw [hs2]; rfl
      · rw [if_neg hc]
      · rw [if_neg hc]
      · rw [hst2]; simp [vector.assignStats, ht, hg]
      · intro q hq _
        exact hfr2 q hq

end AssignRange

section AssignApi
variable {T : Type}

theorem Heap.slots?_of_cells {h h' : Heap T} {b n : Nat} (hn : 0 < n)
    (hs : h.slots? b = some n)
    (hc : ∀ o, h'.cell? ⟨some b, o⟩ = h.cell? ⟨some b, o⟩) : h'.slots? b = some n := by
  have hiff : ∀ o, (h'.cell? ⟨some b, o⟩).isSome ↔ o < n := by
    intro o; rw [hc o]; exact Heap.cell?_of_slots hs o
  unfold Heap.slots?
  cases hb : h'.block? b with
  | none =>
    have := (hiff 0).mpr hn
    rw [Heap.cell?_of_block_none hb] at this
    cases this
  | some blk =>
    simp only [Option.map_some', Option.some.injEq]
    have h1 : ∀ o, o < blk.length ↔ o < n := by
      intro o
      rw [← hiff o, Heap.cell?_of_block hb]
      constructor
      · intro hlt; rw [List.getElem?_eq_getElem hlt]; rfl
      · intro hsome
        by_contra hge
        rw [List.getElem?_eq_none (by omega)] at hsome
        cases hsome
    by_contra hne
    rcases Nat.lt_or_gt_of_ne hne with hlt | hgt
    · exact absurd ((h1 blk.length).mpr hlt) (Nat.lt_irrefl _)
    · exact absurd ((h1 n).mp hgt) (Nat.lt_irrefl _)

/-- A vector stays well formed, with the same elements, in every heap whose cells of the
vector's allocation are the same. -/
theorem Owns.of_cells {h h' : Heap T} {v : vector} {s : List T} (O : Owns h v s)
    (hc : ∀ q : Ptr, q.base = v.m_data → h'.cell? q = h.cell? q) : Owns h' v s := by
  refine ⟨O.size_eq, O.size_le, O.null_iff, ?_, ?_⟩
  · have hs := O.slots
    cases hd : v.m_data with
    | none => rw [hd] at hs; exact hs
    | some b =>
      rw [hd] at hs
      have hpos : 0 < v.m_capacity := by
        rcases Nat.eq_zero_or_pos v.m_capacity with h0 | h0
        · have := O.null_iff.mpr h0; rw [hd] at this; cases this
        · exact h0
      exact Heap.slots?_of_cells hpos hs (fun o => hc ⟨some b, o⟩ hd.symm)
  · intro i x hx
    rw [hc (v._ptrAt i) rfl]
    exact O.elems i x hx

/-- A range that passes the external-range check and holds constructed objects lies in
another allocation, or is empty. -/
theorem vector.external_of_check {h : Heap T} {v : vector} {s : List T} (O : Owns h v s)
    {first : Ptr} {ws : List T}
    (hsrc : ∀ k x, ws[k]? = some x → h.cell? (first.add k) = some (Cell.live x))
    (hchk : v.checkIteratorExternalRange first (first.add ws.length) = true) :
    first.base ≠ v.m_data ∨ ws = [] := by
  by_cases hb : first.base = v.m_data
  · right
    cases ws with
    | nil => rfl
    | cons x ws' =>
      exfalso
      have hcell := hsrc 0 x (by simp)
      have hcap : v.m_capacity ≤ first.off := by
        simp only [vector.checkIteratorExternalRange, Bool.and_eq_true, Bool.or_eq_true,
          decide_eq_true_eq, bne_iff_ne] at hchk
        rcases hchk.2 with hne | hle
        · exact absurd hb hne
        · exact hle
      obtain ⟨fb, fo⟩ := first
      simp only at hb hcap
      cases fb with
      | none => cases hcell
      | some b0 =>
        have hs := O.slots
        rw [← hb] at hs
        have := (Heap.cell?_of_slots hs (fo + 0)).mp (by
          have : (⟨some b0, fo⟩ : Ptr).add 0 = ⟨some b0, fo + 0⟩ := rfl
          rw [← this, hcell]; rfl)
        omega
  · exact Or.inl hb

theorem vector.check_add (v : vector) (first : Ptr) (n : Nat)
    (hext : first.base ≠ v.m_data ∨ v.m_capacity ≤ first.off) :
    v.checkIteratorExternalRange first (first.add n) = true := by
  simp only [vector.checkIteratorExternalRange, Bool.and_eq_true, Bool.or_eq_true,
    decide_eq_true_eq, bne_iff_ne]
  exact ⟨⟨rfl, by simp [Ptr.add]⟩, hext⟩

/-- Specification of `assign(first, first + n)` for a range that passes the
external-range check and holds the sequence `ws`. -/
theorem vector.assign_spec (E : ElemType T) {h : Heap T} {v : vector} {s : List T}
    (O : Owns h v s) {first : Ptr} {ws : List T}
    (hsrc : ∀ k x, ws[k]? = some x → h.cell? (first.add k) = some (Cell.live x))
    (hchk : v.checkIteratorExternalRange first (first.add ws.length) = true) :
    ∃ h' v', v.assign E h first (first.add ws.length) = some (h', v') ∧
      Owns h' v' ws ∧
      v'.m_capacity = (if v.m_capacity < ws.length then ws.length else v.m_capacity) ∧
      v'.m_data = (if v.m_capacity < ws.length then some h.mem.length else v.m_data) ∧
      h'.stats = v.assignStats E ws.length h.stats ∧
      (∀ q : Ptr, q.base ≠ v.m_data → q.base ≠ some h.mem.length →
        h'.cell? q = h.cell? q) ∧
      (E.trivCopyable = false → ∀ j, ws.length ≤ j → j < v.m_size →
        h'.cell? (v._ptrAt j) = some Cell.dead) := by
  obtain ⟨h', v', hs, rest⟩ :=
    vector._assign_range_spec E O hsrc (vector.external_of_check O hsrc hchk)
  refine ⟨h', v', ?_, rest⟩
  simp [vector.assign, vector.assert, hchk, hs]

/-- The cells of a source range in another allocation are not changed by `assign`. -/
theorem vector.assign_source_kept {h h' : Heap T} {v : vector} {first : Ptr} {ws : List T}
    (hsrc : ∀ k x, ws[k]? = some x → h.cell? (first.add k) = some (Cell.live x))
    (hext : first.base ≠ v.m_data ∨ ws = [])
    (hfr : ∀ q : Ptr, q.base ≠ v.m_data → q.base ≠ some h.mem.length →
      h'.cell? q = h.cell? q) :
    ∀ k, k < ws.length → h'.cell? (first.add k) = h.cell? (first.add k) := by
  intro k hk
  have hb : first.base ≠ v.m_data := by
    rcases hext with he | he
    · exact he
    · subst he; simp at hk
  refine hfr (first.add k) hb ?_
  intro hbase
  have hcell := hsrc k ws[k] (List.getElem?_eq_getElem hk)
  have hp : first.add k = ⟨some h.mem.length, (first.add k).off⟩ := by
    rw [← hbase]
  rw [hp] at hcell
  have hlt := Heap.cell?_lt hcell
  omega

/-- Specification of `a = b` for two distinct vectors: `a` then holds the sequence of
`b`, and `b` is as it was. -/
theorem vector.assign_copy_spec (E : ElemType T) {h : Heap T} {a b : vector}
    {s t : List T} (Oa : Owns h a s) (Ob : Owns h b t)
    (hdis : a.m_data ≠ b.m_data ∨ b.m_data = none) :
    ∃ h' a', a.assign_copy E h (some b) = some (h', a') ∧ Owns h' a' t ∧ Owns h' b t ∧
      a'.m_capacity = (if a.m_capacity < t.length then t.length else a.m_capacity) ∧
      h'.stats = a.assignStats E t.length h.stats := by
  have hsrc : ∀ k x, t[k]? = some x → h.cell? (b.begin_.add k) = some (Cell.live x) := by
    intro k x hx; rw [vector.begin_add]; exact Ob.elems k x hx
  have hend : b.end_ = b.begin_.add t.length := by
    rw [vector.begin_add, ← Ob.size_eq]; rfl
  have hchk : a.checkIteratorExternalRange b.begin_ (b.begin_.add t.length) = true := by
    apply vector.check_add
    rcases hdis with hd | hd
    · exact Or.inl (fun he => hd he.symm)
    · by_cases ha : a.m_data = none
      · right; rw [Oa.null_iff.mp ha]; exact Nat.zero_le _
      · left; intro he; apply ha; rw [← he]; exact hd
  obtain ⟨h', a', hs, O', hcap, _, hst, hfr, _⟩ := vector.assign_spec E Oa hsrc hchk
  refine ⟨h', a', ?_, O', ?_, hcap, hst⟩
  · simp only [vector.assign_copy]; rw [hend]; exact hs
  · apply Ob.of_cells
    intro q hq
    cases hd : b.m_data with
    | none =>
      obtain ⟨qb, qo⟩ := q
      simp only [hd] at hq
      subst hq
      rfl
    | some b0 =>
      refine hfr q ?_ ?_
      · rw [hq]
        rcases hdis with hne | hnone
        · exact fun he => hne he.symm
        · rw [hd] at hnone; cases hnone
      · rw [hq]; exact Ob.data_ne_fresh

theorem vector.assignStats_allocs (E : ElemType T) (v : vector) (n : Nat) (st : Stats)
    (hle : v.m_size ≤ v.m_capacity) :
    (v.assignStats E n st).allocs = st.allocs + (if v.m_capacity < n then 1 else 0) ∧
    (v.assignStats E n st).frees =
      st.frees + (if v.m_capacity < n ∧ v.m_capacity ≠ 0 then 1 else 0) := by
  unfold vector.assignStats vector.grownStats
  by_cases ht : E.trivCopyable = true
  · by_cases hc : v.m_capacity < n
    · by_cases h0 : v.m_capacity = 0
      · have hn0 : 0 < n := by omega
        simp [ht, h0, hn0]
      · simp [ht, hc, h0]
    · simp [ht, hc]
  · by_cases hg : v.m_size < n
    · by_cases hc : v.m_capacity < n
      · by_cases h0 : v.m_capacity = 0
        · have hn0 : 0 < n := by omega
          simp [ht, hg, h0, hn0]
        · simp [ht, hc, hg, h0]
      · simp [ht, hc, hg]
    · have hc : ¬ v.m_capacity < n := by omega
      simp [ht, hc, hg]

end AssignApi

section AssignClaims
variable {T : Type}

/-- C16: for every well-formed vector `v` and every range `[first, first + n)` that
passes the external-range check of `assign` and holds the constructed objects `ws`,
`assign(first, last)` returns, `size()` is `last - first`, the vector holds `ws`, and
`v[i]` equals `first[i]` (which the call does not change) for every `i < size()`; the
element type `E` is arbitrary, so this covers the `memmove` path and the element-wise
paths.  For a second well-formed vector `b` with its own buffer (or none), `v = b`
returns, `v` then holds the sequence of `b`, and `b` is well formed with the same size
and elements as before. -/
theorem C16_assign_contents (E : ElemType T) (h : Heap T) (v b : vector)
    (s t ws : List T) (first : Ptr) (O : Owns h v s)
    (hsrc : ∀ k x, ws[k]? = some x → h.load (first.add k) = some x)
    (hchk : v.checkIteratorExternalRange first (first.add ws.length) = true)
    (Ob : Owns h b t) (hdis : v.m_data ≠ b.m_data ∨ b.m_data = none) :
    (∃ h' v', v.assign E h first (first.add ws.length) = some (h', v') ∧
      (first.add ws.length).diff first = some v'.size ∧
      Owns h' v' ws ∧ v'.toList h' = some ws ∧
      ∀ i, i < v'.size →
        v'.get h' i = h.load (first.add i) ∧
        h'.load (first.add i) = h.load (first.add i)) ∧
    (∃ h' v', v.assign_copy E h (some b) = some (h', v') ∧
      v'.size = b.size ∧ Owns h' v' t ∧ v'.toList h' = some t ∧
      Owns h' b t ∧ b.toList h' = some t ∧ b.toList h = some t ∧
      ∀ i, i < b.size → v'.get h' i = b.get h i ∧ b.get h' i = b.get h i) := by
  have hsrc' : ∀ k x, ws[k]? = some x → h.cell? (first.add k) = some (Cell.live x) :=
    fun k x hx => Heap.load_eq_some.mp (hsrc k x hx)
  constructor
  · obtain ⟨h', v', hs, O', _, _, _, hfr, _⟩ := vector.assign_spec E O hsrc' hchk
    have hsz : v'.size = ws.length := O'.size_eq
    refine ⟨h', v', hs, by rw [Ptr.diff_add, hsz], O', O'.toList_eq, ?_⟩
    intro i hi
    have hi' : i < ws.length := by rw [← hsz]; exact hi
    have hx := hsrc i ws[i] (List.getElem?_eq_getElem hi')
    have hkept := vector.assign_source_kept hsrc'
      (vector.external_of_check O hsrc' hchk) hfr i hi'
    refine ⟨?_, ?_⟩
    · rw [O'.get i hi, hx]
      simp [List.getElem?_eq_getElem hi']
    · unfold Heap.load; rw [hkept]
  · obtain ⟨h', v', hs, O', Ob', _, _⟩ := vector.assign_copy_spec E O Ob hdis
    have hsz : v'.size = b.size := by
      show v'.m_size = b.m_size
      rw [O'.size_eq, Ob.size_eq]
    refine ⟨h', v', hs, hsz, O', O'.toList_eq, Ob', Ob'.toList_eq, Ob.toList_eq, ?_⟩
    intro i hi
    rw [O'.get i (by show i < v'.size; rw [hsz]; exact hi), Ob'.get i hi, Ob.get i hi]
    exact ⟨rfl, rfl⟩

/-- Witness of C16: Scenario D of the specification, `assign` of the two-element range
`{10, 20}` of another buffer to the vector `{1, 2, 3, 4, 5}`, and `v = b` for the
vectors `{1, 2, 3, 4, 5}` and `{10, 20, 30}`, with the element type `Foo`. -/
theorem C16_assign_contents_witness :
    Owns heapPair vecFiveB [1, 2, 3, 4, 5] ∧
    (∀ k x, ([10, 20] : List Int)[k]? = some x →
      heapPair.load (vecSpare.begin_.add k) = some x) ∧
    vecFiveB.checkIteratorExternalRange vecSpare.begin_
      (vecSpare.begin_.add ([10, 20] : List Int).length) = true ∧
    Owns heapPair vecSpare [10, 20, 30] ∧
    (vecFiveB.m_data ≠ vecSpare.m_data ∨ vecSpare.m_data = none) ∧
    (∃ h' v', vecFiveB.assign fooElem heapPair vecSpare.begin_ (vecSpare.begin_.add 2) =
        some (h', v') ∧ v'.size = 2 ∧ v'.toList h' = some [10, 20]) ∧
    (∃ h' v', vecFiveB.assign_copy fooElem heapPair (some vecSpare) = some (h', v') ∧
      v'.toList h' = some [10, 20, 30] ∧ vecSpare.toList h' = some [10, 20, 30]) := by
  have O : Owns heapPair vecFiveB [1, 2, 3, 4, 5] :=
    Owns.of_toList (by decide) (by decide) rfl rfl
  have Ob : Owns heapPair vecSpare [10, 20, 30] :=
    Owns.of_toList (by decide) (by decide) rfl rfl
  have hsrc : ∀ k x, ([10, 20] : List Int)[k]? = some x →
      heapPair.load (vecSpare.begin_.add k) = some x := by
    intro k x hx
    rw [vector.begin_add]
    have hk : k < 2 := getElem?_lt_length hx
    exact Heap.load_eq_some.mpr (Ob.elems k x (by
      rw [← hx, List.getElem?_eq_getElem (by simp; omega),
        List.getElem?_eq_getElem (by simp; omega)]
      interval_cases k <;> rfl))
  have hdis : vecFiveB.m_data ≠ vecSpare.m_data ∨ vecSpare.m_data = none :=
    Or.inl (by decide)
  obtain ⟨⟨h1, v1, hs1, hd1, _, hl1, _⟩, ⟨h2, v2, hs2, _, _, hl2, _, hb2, _⟩⟩ :=
    C16_assign_contents fooElem heapPair vecFiveB vecSpare [1, 2, 3, 4, 5] [10, 20, 30]
      [10, 20] vecSpare.begin_ O hsrc rfl Ob hdis
  refine ⟨O, hsrc, rfl, Ob, hdis, ⟨h1, v1, hs1, ?_, hl1⟩, ⟨h2, v2, hs2, hl2, hb2⟩⟩
  rw [Ptr.diff_add] at hd1
  exact (Option.some.inj hd1).symm

/-- C17: for every well-formed vector `v`, every element type and every range of length
`newSize` that passes the external-range check and holds constructed objects, `assign`
returns after at most one allocation: when `newSize <= capacity()` the allocation and
deallocation counters, the capacity and the data pointer are unchanged; when
`newSize > capacity()` exactly one allocation is made, at most one deallocation, and
the capacity is exactly `newSize`. -/
theorem C17_assign_one_reallocation (E : ElemType T) (h : Heap T) (v : vector)
    (s ws : List T) (first : Ptr) (O : Owns h v s)
    (hsrc : ∀ k x, ws[k]? = some x → h.load (first.add k) = some x)
    (hchk : v.checkIteratorExternalRange first (first.add ws.length) = true) :
    ∃ h' v', v.assign E h first (first.add ws.length) = some (h', v') ∧
      h'.stats.allocs ≤ h.stats.allocs + 1 ∧
      (ws.length ≤ v.capacity →
        h'.stats.allocs = h.stats.allocs ∧ h'.stats.frees = h.stats.frees ∧
        v'.capacity = v.capacity ∧ v'.data = v.data) ∧
      (v.capacity < ws.length →
        h'.stats.allocs = h.stats.allocs + 1 ∧ h'.stats.frees ≤ h.stats.frees + 1 ∧
        v'.capacity = ws.length) := by
  have hsrc' : ∀ k x, ws[k]? = some x → h.cell? (first.add k) = some (Cell.live x) :=
    fun k x hx => Heap.load_eq_some.mp (hsrc k x hx)
  obtain ⟨h', v', hs, O', hcap, hdat, hst, _, _⟩ := vector.assign_spec E O hsrc' hchk
  obtain ⟨ha, hf⟩ := vector.assignStats_allocs E v ws.length h.stats O.size_le
  rw [← hst] at ha hf
  refine ⟨h', v', hs, ?_, ?_, ?_⟩
  · rw [ha]; split <;> omega
  · intro hle
    have hc : ¬ v.m_capacity < ws.length := Nat.not_lt.mpr hle
    rw [if_neg hc] at ha hcap hdat
    rw [if_neg (fun hh => hc hh.1)] at hf
    exact ⟨ha, hf, hcap, hdat⟩
  · intro hc
    have hc' : v.m_capacity < ws.length := hc
    rw [if_pos hc'] at ha hcap
    refine ⟨ha, ?_, hcap⟩
    rw [hf]; split <;> omega

/-- Witness of C17: `assign` of the five-element range `{1, 2, 3, 4, 5}` of another
buffer to the vector `{10, 20, 30}` of capacity 4: one allocation, capacity 5. -/
theorem C17_assign_one_reallocation_witness :
    Owns heapPair vecSpare [10, 20, 30] ∧
    (∀ k x, ([1, 2, 3, 4, 5] : List Int)[k]? = some x →
      heapPair.load (vecFiveB.begin_.add k) = some x) ∧
    vecSpare.checkIteratorExternalRange vecFiveB.begin_
      (vecFiveB.begin_.add ([1, 2, 3, 4, 5] : List Int).length) = true ∧
    ∃ h' v', vecSpare.assign intElem heapPair vecFiveB.begin_ (vecFiveB.begin_.add 5) =
        some (h', v') ∧ h'.stats.allocs = 1 ∧ v'.capacity = 5 := by
  have O : Owns heapPair vecSpare [10, 20, 30] :=
    Owns.of_toList (by decide) (by decide) rfl rfl
  have Ob : Owns heapPair vecFiveB [1, 2, 3, 4, 5] :=
    Owns.of_toList (by decide) (by decide) rfl rfl
  have hsrc : ∀ k x, ([1, 2, 3, 4, 5] : List Int)[k]? = some x →
      heapPair.load (vecFiveB.begin_.add k) = some x := by
    intro k x hx
    rw [vector.begin_add]
    exact Heap.load_eq_some.mpr (Ob.elems k x hx)
  obtain ⟨h', v', hs, _, _, hgrow⟩ :=
    C17_assign_one_reallocation intElem heapPair vecSpare [10, 20, 30] [1, 2, 3, 4, 5]
      vecFiveB.begin_ O hsrc rfl
  obtain ⟨ha, _, hc⟩ := hgrow (by decide)
  exact ⟨O, hsrc, rfl, h', v', hs, ha, hc⟩

/-- C18: for an element type whose copy assignment and destructor are not trivial (and
which is therefore not trivially copyable), every well-formed vector `v` of size `n`
and every range of length `newSize <= n` that passes the external-range check and holds
the constructed objects `ws`, `assign` returns and changes exactly two counters: the
copy assignments grow by `newSize` and the destructions by `n - newSize`; no
constructor, move assignment or allocator call is counted.  Slots `0 .. newSize` hold
the assigned values, slots `[newSize, n)` hold destroyed objects, and the buffer is the
same one. -/
theorem C18_assign_shrink_counts (E : ElemType T) (h : Heap T) (v : vector)
    (s ws : List T) (first : Ptr) (O : Owns h v s)
    (hsrc : ∀ k x, ws[k]? = some x → h.load (first.add k) = some x)
    (hchk : v.checkIteratorExternalRange first (first.add ws.length) = true)
    (hE : E.trivCopyable = false) (hA : E.trivCopyAssign = false)
    (hD : E.trivDtor = false) (hle : ws.length ≤ v.size) :
    ∃ h' v', v.assign E h first (first.add ws.length) = some (h', v') ∧
      h'.stats = { h.stats with
        copyAssign := h.stats.copyAssign + ws.length,
        dtor := h.stats.dtor + (v.size - ws.length) } ∧
      (∀ i x, ws[i]? = some x → h'.cell? (v._ptrAt i) = some (Cell.live x)) ∧
      (∀ j, ws.length ≤ j → j < v.size → h'.cell? (v._ptrAt j) = some Cell.dead) ∧
      v'.data = v.data ∧ v'.capacity = v.capacity := by
  have hsrc' : ∀ k x, ws[k]? = some x → h.cell? (first.add k) = some (Cell.live x) :=
    fun k x hx => Heap.load_eq_some.mp (hsrc k x hx)
  have hle' : ws.length ≤ v.m_size := hle
  have hc : ¬ v.m_capacity < ws.length := by have := O.size_le; omega
  obtain ⟨h', v', hs, O', hcap, hdat, hst, _, hdead⟩ := vector.assign_spec E O hsrc' hchk
  rw [if_neg hc] at hcap hdat
  refine ⟨h', v', hs, ?_, ?_, hdead hE, hdat, hcap⟩
  · rw [hst]
    have hg : ¬ v.m_size < ws.length := by omega
    simp [vector.assignStats, hE, hg, ElemType.copyAssignCalls, ElemType.dtorCalls, hA, hD,
      vector.size]
  · intro i x hx
    have := O'.elems i x hx
    have e : v'._ptrAt i = v._ptrAt i := by
      show (⟨v'.m_data, i⟩ : Ptr) = ⟨v.m_data, i⟩
      rw [hdat]
    rw [← e]; exact this

/-- Witness of C18: Scenario D of the specification with the element type `Foo`: two
copy assignments, three destructions, nothing constructed. -/
theorem C18_assign_shrink_counts_witness :
    Owns heapPair vecFiveB [1, 2, 3, 4, 5] ∧
    (∀ k x, ([10, 20] : List Int)[k]? = some x →
      heapPair.load (vecSpare.begin_.add k) = some x) ∧
    vecFiveB.checkIteratorExternalRange vecSpare.begin_
      (vecSpare.begin_.add ([10, 20] : List Int).length) = true ∧
    fooElem.trivCopyable = false ∧ fooElem.trivCopyAssign = false ∧
    fooElem.trivDtor = false ∧ ([10, 20] : List Int).length ≤ vecFiveB.size ∧
    ∃ h' v', vecFiveB.assign fooElem heapPair vecSpare.begin_ (vecSpare.begin_.add 2) =
        some (h', v') ∧
      h'.stats = { copyAssign := 2, dtor := 3 } := by
  have O : Owns heapPair vecFiveB [1, 2, 3, 4, 5] :=
    Owns.of_toList (by decide) (by decide) rfl rfl
  have Ob : Owns heapPair vecSpare [10, 20, 30] :=
    Owns.of_toList (by decide) (by decide) rfl rfl
  have hsrc : ∀ k x, ([10, 20] : List Int)[k]? = some x →
      heapPair.load (vecSpare.begin_.add k) = some x := by
    intro k x hx
    rw [vector.begin_add]
    have hk : k < 2 := getElem?_lt_length hx
    exact Heap.load_eq_some.mpr (Ob.elems k x (by
      rw [← hx, List.getElem?_eq_getElem (by simp; omega),
        List.getElem?_eq_getElem (by simp; omega)]
      interval_cases k <;> rfl))
  obtain ⟨h', v', hs, hst, _⟩ :=
    C18_assign_shrink_counts fooElem heapPair vecFiveB [1, 2, 3, 4, 5] [10, 20]
      vecSpare.begin_ O hsrc rfl rfl rfl rfl (by decide)
  exact ⟨O, hsrc, rfl, rfl, rfl, rfl, by decide, h', v', hs, hst⟩

/-- C19: for an element type whose copy constructor, copy assignment and destructor are
not trivial, every well-formed vector `v` of size `n` and every range of length
`newSize > n` that passes the external-range check and holds constructed objects,
`assign` returns.  When `newSize <= capacity()` exactly two counters change: the copy
assignments grow by `n` and the copy constructions by `newSize - n` (no destruction, no
allocator call).  When `newSize > capacity()` the destructions grow by `n`, the copy
constructions by `newSize`, one allocation is made and the old buffer, if any, is
released; no copy assignment is counted. -/
theorem C19_assign_grow_counts (E : ElemType T) (h : Heap T) (v : vector)
    (s ws : List T) (first : Ptr) (O : Owns h v s)
    (hsrc : ∀ k x, ws[k]? = some x → h.load (first.add k) = some x)
    (hchk : v.checkIteratorExternalRange first (first.add ws.length) = true)
    (hE : E.trivCopyable = false) (hA : E.trivCopyAssign = false)
    (hC : E.trivCopyCtor = false) (hD : E.trivDtor = false)
    (hgt : v.size < ws.length) :
    ∃ h' v', v.assign E h first (first.add ws.length) = some (h', v') ∧
      (ws.length ≤ v.capacity →
        h'.stats = { h.stats with
          copyAssign := h.stats.copyAssign + v.size,
          copyCtor := h.stats.copyCtor + (ws.length - v.size) }) ∧
      (v.capacity < ws.length →
        h'.stats = { h.stats with
          dtor := h.stats.dtor + v.size,
          copyCtor := h.stats.copyCtor + ws.length,
          allocs := h.stats.allocs + 1,
          frees := h.stats.frees + (if v.capacity = 0 then 0 else 1) }) := by
  have hsrc' : ∀ k x, ws[k]? = some x → h.cell? (first.add k) = some (Cell.live x) :=
    fun k x hx => Heap.load_eq_some.mp (hsrc k x hx)
  have hgt' : v.m_size < ws.length := hgt
  obtain ⟨h', v', hs, _, _, _, hst, _, _⟩ := vector.assign_spec E O hsrc' hchk
  refine ⟨h', v', hs, ?_, ?_⟩
  · intro hle
    have hc : ¬ v.m_capacity < ws.length := Nat.not_lt.mpr hle
    rw [hst]
    simp [vector.assignStats, hE, hgt', hc, ElemType.copyAssignCalls,
      ElemType.copyCtorCalls, hA, hC, vector.size]
  · intro hc
    have hc' : v.m_capacity < ws.length := hc
    rw [hst]
    simp [vector.assignStats, vector.grownStats, hE, hgt', hc', ElemType.copyCtorCalls,
      ElemType.dtorCalls, hC, hD, vector.size, vector.capacity]

/-- Witness of C19: `assign` of the five-element range `{1, 2, 3, 4, 5}` of another
buffer to the vector `{10, 20, 30}` of capacity 4, element type `Foo`: three
destructions, five copy constructions, one allocation, one deallocation. -/
theorem C19_assign_grow_counts_witness :
    Owns heapPair vecSpare [10, 20, 30] ∧
    (∀ k x, ([1, 2, 3, 4, 5] : List Int)[k]? = some x →
      heapPair.load (vecFiveB.begin_.add k) = some x) ∧
    vecSpare.checkIteratorExternalRange vecFiveB.begin_
      (vecFiveB.begin_.add ([1, 2, 3, 4, 5] : List Int).length) = true ∧
    fooElem.trivCopyable = false ∧ fooElem.trivCopyAssign = false ∧
    fooElem.trivCopyCtor = false ∧ fooElem.trivDtor = false ∧
    vecSpare.size < ([1, 2, 3, 4, 5] : List Int).length ∧
    ∃ h' v', vecSpare.assign fooElem heapPair vecFiveB.begin_ (vecFiveB.begin_.add 5) =
        some (h', v') ∧
      h'.stats = { dtor := 3, copyCtor := 5, allocs := 1, frees := 1 } := by
  have O : Owns heapPair vecSpare [10, 20, 30] :=
    Owns.of_toList (by decide) (by decide) rfl rfl
  have Ob : Owns heapPair vecFiveB [1, 2, 3, 4, 5] :=
    Owns.of_toList (by decide) (by decide) rfl rfl
  have hsrc : ∀ k x, ([1, 2, 3, 4, 5] : List Int)[k]? = some x →
      heapPair.load (vecFiveB.begin_.add k) = some x := by
    intro k x hx
    rw [vector.begin_add]
    exact Heap.load_eq_some.mpr (Ob.elems k x hx)
  obtain ⟨h', v', hs, _, hgrow⟩ :=
    C19_assign_grow_counts fooElem heapPair vecSpare [10, 20, 30] [1, 2, 3, 4, 5]
      vecFiveB.begin_ O hsrc rfl rfl rfl rfl rfl (by decide)
  exact ⟨O, hsrc, rfl, rfl, rfl, rfl, rfl, by decide, h', v', hs, hgrow (by decide)⟩

end AssignClaims

section CopyLemmas
variable {T : Type}

theorem vector.readElems_data (h : Heap T) {v w : vector} (hd : v.m_data = w.m_data) :
    ∀ n, vector.readElems h v n = vector.readElems h w n := by
  intro n
  induction n with
  | zero => rfl
  | succ n ih =>
    have e : v._ptrAt n = w._ptrAt n := by
      show (⟨v.m_data, n⟩ : Ptr) = ⟨w.m_data, n⟩
      rw [hd]
    simp only [vector.readElems, ih, e]

theorem vector.toList_data (h : Heap T) {v w : vector} (hd : v.m_data = w.m_data)
    (hs : v.m_size = w.m_size) : v.toList h = w.toList h := by
  unfold vector.toList
  rw [hs]
  exact vector.readElems_data h hd _

/-- Specification of the copy constructor: it returns; the copy has the size and the
`m_capacity` of `other`, its buffer is a fresh allocation of `other.m_size` slots (none
when that is 0) holding the elements of `other` in order; `other` is as it was; the
copy-constructor counter grows by the size (nothing is counted on the `memmove` path),
one allocation is made when the size is not 0, and no other counter changes. -/
theorem vector.ctor_copy_spec (E : ElemType T) {h : Heap T} {other : vector} {s : List T}
    (O : Owns h other s) :
    ∃ h' c, other.ctor_copy E h = some (h', c) ∧
      c.m_size = other.m_size ∧ c.m_capacity = other.m_capacity ∧
      c.m_data = (if other.m_size = 0 then none else some h.mem.length) ∧
      Owns h' { c with m_capacity := c.m_size } s ∧ c.toList h' = some s ∧
      Owns h' other s ∧
      h'.stats = { h.stats with
        copyCtor := h.stats.copyCtor + E.copyCtorCalls s.length,
        allocs := h.stats.allocs + (if other.m_size = 0 then 0 else 1) } ∧
      (∀ q : Ptr, q.base ≠ some h.mem.length → h'.cell? q = h.cell? q) := by
  have hn := O.size_eq
  unfold vector.ctor_copy
  by_cases h0 : other.m_size = 0
  · have hs0 : s = [] := List.eq_nil_of_length_eq_zero (by rw [← hn]; exact h0)
    subst hs0
    obtain ⟨h', hs, hfr, hst, _, hb⟩ := _copyConstructRange_spec E h (other._ptrAt 0)
      (⟨none, 0⟩ : Ptr) 0 (fun _ => Nat.le_refl _) (fun k hk => absurd hk (Nat.not_lt_zero k))
      (fun k hk => absurd hk (Nat.not_lt_zero k))
    have hcells : ∀ q : Ptr, h'.cell? q = h.cell? q :=
      fun q => hb q (fun hw => absurd hw.2.2 (by simp))
    have Oc : Owns h' { m_data := none, m_capacity := 0, m_size := 0 } ([] : List T) :=
      ⟨rfl, Nat.le_refl _, by simp, rfl, fun i x hx => by simp at hx⟩
    refine ⟨h', { m_data := none, m_capacity := other.m_capacity, m_size := 0 }, ?_, h0.symm,
      rfl, by rw [if_pos h0], Oc, Oc.toList_eq, O.of_cells (fun q _ => hcells q), ?_,
      fun q _ => hcells q⟩
    · rw [h0, _allocate_zero]
      simp only [vector._ptrAt, Ptr.add, Nat.add_zero, Option.bind_eq_bind] at hs ⊢
      rw [hs]
      rfl
    · rw [hst, Stats.copyCtor_eq, if_pos h0]
      simp [ElemType.copyCtorCalls]
  · have hA := _allocate_pos h h0
    have hsrc : ∀ k, k < other.m_size → (h.alloc other.m_size).2.isLive (other._ptrAt k) := by
      intro k hk
      obtain ⟨x, hx⟩ := O.isLive hk
      exact ⟨x, by rw [Heap.alloc_agrees _ _ _ (by rw [hx]; rfl), hx]⟩
    obtain ⟨h', hs, hfr, hst, ha, hb⟩ := _copyConstructRange_spec E (h.alloc other.m_size).2
      (other._ptrAt 0) (⟨some h.mem.length, 0⟩ : Ptr) other.m_size
      (fun _ => Nat.le_refl _)
      (fun k hk => by rw [vector._ptrAt_add, Nat.zero_add]; exact hsrc k hk)
      (fun k hk => by
        rw [Heap.alloc_cell]
        simp [Ptr.add, hk])
    have hold : ∀ q : Ptr, q.base ≠ some h.mem.length → h'.cell? q = h.cell? q := by
      intro q hq
      rw [hb q (fun hw => hq hw.1), Heap.alloc_cell, if_neg hq]
    have Oc : Owns h' (⟨some h.mem.length, other.m_size, other.m_size⟩ : vector) s := by
      refine ⟨hn, Nat.le_refl _, by simp [h0], ?_, ?_⟩
      · show h'.slots? h.mem.length = some other.m_size
        rw [hfr.2, Heap.alloc_slots, if_pos rfl]
      · intro i x hx
        have hi : i < other.m_size := by rw [hn]; exact getElem?_lt_length hx
        have := ha i hi
        rw [vector._ptrAt_add, Nat.zero_add] at this
        show h'.cell? (⟨some h.mem.length, i⟩ : Ptr) = _
        have e : (⟨some h.mem.length, 0⟩ : Ptr).add i = ⟨some h.mem.length, i⟩ := by
          simp [Ptr.add]
        rw [e] at this
        rw [this, Heap.alloc_agrees _ _ _ (by rw [O.elems i x hx]; rfl)]
        exact O.elems i x hx
    refine ⟨h', ⟨some h.mem.length, other.m_capacity, other.m_size⟩, ?_, rfl, rfl,
      by rw [if_neg h0], Oc,
      (vector.toList_data h' (v := ⟨some h.mem.length, other.m_capacity, other.m_size⟩)
        (w := ⟨some h.mem.length, other.m_size, other.m_size⟩) rfl rfl).trans Oc.toList_eq,
      O.of_cells (fun q hq => hold q (by rw [hq]; exact O.data_ne_fresh)), ?_, hold⟩
    · rw [hA]
      simp only [vector._ptrAt, Ptr.add, Nat.zero_add, Option.bind_eq_bind] at hs ⊢
      rw [hs]
      rfl
    · rw [hst, Stats.copyCtor_eq, Heap.alloc_stats, if_neg h0, hn]

/-- Writing through `copy[i]` after a copy construction: the store is inside the copy's
own allocation, and `other` is as it was. -/
theorem vector.ctor_copy_store (E : ElemType T) {h : Heap T} {other : vector} {s : List T}
    (O : Owns h other s) {h' : Heap T} {c : vector}
    (hc : other.ctor_copy E h = some (h', c)) (i : Nat) (hi : i < c.m_size) (x : T) :
    ∃ p h'', c.index i = some p ∧ h'.store p (Cell.live x) = some h'' ∧
      c.get h'' i = some x ∧ Owns h'' other s := by
  obtain ⟨h1, c1, hs, hsz, _, hdat, Oc, _, Oo, _, _⟩ := vector.ctor_copy_spec E O
  rw [hs] at hc
  obtain ⟨rfl, rfl⟩ := Prod.mk.inj (Option.some.inj hc)
  have hne : other.m_size ≠ 0 := by omega
  rw [if_neg hne] at hdat
  obtain ⟨y, hy⟩ := Oc.isLive (i := i) hi
  obtain ⟨h'', hst, hfr, _, hcell⟩ := Heap.store_spec hy (Cell.live x)
  have hp : c1._ptrAt i = (⟨some h.mem.length, i⟩ : Ptr) := by
    show (⟨c1.m_data, i⟩ : Ptr) = _
    rw [hdat]
  refine ⟨c1._ptrAt i, h'', by simp [vector.index, vector.assert, hi], hst, ?_, ?_⟩
  · have : h''.cell? (c1._ptrAt i) = some (Cell.live x) := by
      rw [hcell]; exact if_pos rfl
    simp [vector.get, vector.index, vector.assert, hi, Heap.load_eq_some.mpr this]
  · apply Oo.of_cells
    intro q hq
    rw [hcell]
    apply if_neg
    intro he
    have hfresh : other.m_data ≠ some h.mem.length := O.data_ne_fresh
    apply hfresh
    rw [← hq, he]
    exact hdat

end CopyLemmas

section CopyClaims

/-- C12: the program `vector<int> other; other.reserve(4); other.push_back(1);
other.push_back(2); vector<int> copy(other); copy.push_back(3);`.  The copy
construction returns a vector of size 2 holding `1, 2`, and `other` still holds `1, 2`;
the copy records capacity 4 over a buffer of 2 slots, so the slot `push_back` constructs
into, `copy.end()`, is outside the copy's allocation and the later mutation of the copy
has no defined outcome. -/
theorem C12_copy_then_push_back_overruns :
    ∃ h0 other h1 copy, otherSpare = some (h0, other) ∧
      other.ctor_copy intElem h0 = some (h1, copy) ∧
      copy.size = 2 ∧ copy.toList h1 = some [1, 2] ∧ other.toList h1 = some [1, 2] ∧
      copy.size < copy.capacity ∧ h1.bufferSlots copy.data = some copy.size ∧
      h1.cell? copy.end_ = none ∧
      copy.push_back intElem h1 (Ref.ext 3) = none := by
  obtain ⟨o, ho, r, hr, hP⟩ := exists_of_isSome (o := otherSpare)
    (P := fun o => ∃ r, o.2.ctor_copy intElem o.1 = some r ∧
      r.2.size = 2 ∧ r.2.toList r.1 = some [1, 2] ∧ o.2.toList r.1 = some [1, 2] ∧
      r.2.size < r.2.capacity ∧ r.1.bufferSlots r.2.data = some r.2.size ∧
      r.1.cell? r.2.end_ = none ∧ r.2.push_back intElem r.1 (Ref.ext 3) = none)
    rfl
    (fun o ho => by
      have e : some o = otherSpare := ho.symm
      cases e
      exact exists_of_isSome rfl (fun r hr => by
        have e2 : some r = _ := hr.symm
        cases e2
        exact ⟨rfl, rfl, rfl, by decide, rfl, rfl, rfl⟩))
  exact ⟨o.1, o.2, r.1, r.2, ho, hr, hP⟩

end CopyClaims

section UniquePtrClaims

/-- Counterexample to C27 as stated: with `a` owning allocation 1 and `b` owning
allocation 2, after `a = move(b)` the source `b` is not null: it holds `a`'s former
pointer. -/
theorem C27_move_assign_source_not_null :
    ((unique_ptr.assign_move { m_ptr := some 1 } { m_ptr := some 2 }).1.get = some 2) ∧
    ((unique_ptr.assign_move { m_ptr := some 1 } { m_ptr := some 2 }).2.get = some 1) ∧
    ¬ ((unique_ptr.assign_move { m_ptr := some 1 } { m_ptr := some 2 }).2.get = none) := by
  decide

/-- C27 as amended: for all wrappers `a` and `b`, after `a = move(b)` the target holds
`b`'s former pointer and the source holds `a`'s former pointer (the two are exchanged),
so the source is null exactly when `a` was empty; move-construction from `b` yields a
wrapper holding `b`'s former pointer and leaves `b` null. -/
theorem C27_move_assign_exchanges (a b : unique_ptr) :
    (unique_ptr.assign_move a b).1.get = b.get ∧
    (unique_ptr.assign_move a b).2.get = a.get ∧
    ((unique_ptr.assign_move a b).2.get = none ↔ a.get = none) ∧
    (unique_ptr.ctor_move b).1.get = b.get ∧
    (unique_ptr.ctor_move b).2.get = none :=
  ⟨rfl, rfl, Iff.rfl, rfl, rfl⟩

end UniquePtrClaims

section TidyLemmas
variable {T : Type}

/-- Specification of `_tidy()`: the elements are destroyed, the buffer is released, and
the vector is left empty without a buffer; nothing else in the heap changes. -/
theorem vector._tidy_spec (E : ElemType T) {h : Heap T} {v : vector} {s : List T}
    (O : Owns h v s) :
    ∃ h', v._tidy E h = some (h', { m_data := none, m_capacity := 0, m_size := 0 }) ∧
      h'.mem.length = h.mem.length ∧
      h'.stats = { h.stats with
        dtor := h.stats.dtor + (if v.m_data = none then 0 else E.dtorCalls v.m_size),
        frees := h.stats.frees + (if v.m_data = none then 0 else 1) } ∧
      (∀ b, v.m_data = some b → h'.slots? b = none) ∧
      (∀ q : Ptr, q.base ≠ v.m_data → h'.cell? q = h.cell? q) := by
  cases hd : v.m_data with
  | none =>
    have hcap : v.m_capacity = 0 := O.null_iff.mp hd
    have hsz : v.m_size = 0 := by have := O.size_le; omega
    have hv : v = { m_data := none, m_capacity := 0, m_size := 0 } := by
      obtain ⟨d, c, n⟩ := v
      simp only at hd hcap hsz
      subst hd hcap hsz
      rfl
    refine ⟨h, ?_, rfl, ?_, fun b hb => (by cases hb), fun _ _ => rfl⟩
    · unfold vector._tidy
      rw [hd]
      exact congrArg (fun w => some (h, w)) hv
    · simp
  | some b =>
    have hslots : h.slots? b = some v.m_capacity := by
      have := O.slots; rw [hd] at this; exact this
    obtain ⟨h1, hs1, hfr1, hst1, _, hb1⟩ := _destroyRange_spec E h (v._ptrAt 0) v.m_size
      (fun k hk => O.isLive (i := 0 + k) (by omega))
    have e : (v._ptrAt 0).add v.m_size = v._ptrAt v.m_size := by
      rw [vector._ptrAt_add, Nat.zero_add]
    rw [e] at hs1
    obtain ⟨h2, hs2, hlen2, hst2, hsl2, hc2⟩ :=
      Heap.free_spec (h := h1) (b := b) (n := v.m_capacity) (by rw [hfr1.2]; exact hslots)
    refine ⟨h2, ?_, by rw [hlen2, hfr1.1], ?_, ?_, ?_⟩
    · unfold vector._tidy
      rw [hd]
      simp only [Option.bind_eq_bind]
      rw [hs1]
      simp only [Option.some_bind]
      rw [hs2]
      rfl
    · rw [hst2, hst1, Stats.dtor_eq]
      simp
    · intro b' hb'
      cases hb'
      rw [hsl2, if_pos rfl]
    · intro q hq
      rw [hc2, if_neg hq]
      exact hb1 q (fun hw => hq (by rw [hw.1]; exact hd))

end TidyLemmas

section MoveAssignClaims
variable {T : Type}

/-- C21: for two well-formed vectors `a` (holding `s`) and `b` (holding `t`) with
different buffers, `a = move(b)` returns; `a` then has `b`'s former data pointer,
capacity and size and holds `t`; `b` is left with size 0, capacity 0 and no buffer;
the destructor counter grows by the number of `a`'s former elements (nothing is counted
for a trivially destructible type), `a`'s former buffer, if any, is released by one
deallocation, and no other counter changes, so no element is constructed or assigned.
Self move-assignment returns heap and vector unchanged. -/
theorem C21_move_assign (E : ElemType T) (h : Heap T) (a b : vector) (s t : List T)
    (Oa : Owns h a s) (Ob : Owns h b t) (hdis : a.m_data ≠ b.m_data ∨ b.m_data = none) :
    (∃ h' a' b', a.assign_move E h (some b) = some (h', a', some b') ∧
      a'.data = b.data ∧ a'.capacity = b.capacity ∧ a'.size = b.size ∧
      Owns h' a' t ∧ a'.toList h' = some t ∧ b.toList h = some t ∧
      b'.size = 0 ∧ b'.capacity = 0 ∧ b'.data = none ∧ Owns h' b' ([] : List T) ∧
      h'.stats = { h.stats with
        dtor := h.stats.dtor + (if a.m_data = none then 0 else E.dtorCalls a.size),
        frees := h.stats.frees + (if a.m_data = none then 0 else 1) } ∧
      (E.trivDtor = false → h'.stats.dtor = h.stats.dtor + a.size) ∧
      (∀ blk, a.data = some blk → h'.slots? blk = none)) ∧
    a.assign_move E h none = some (h, a, none) := by
  refine ⟨?_, rfl⟩
  obtain ⟨h', hs, hlen, hst, hfree, hkeep⟩ := vector._tidy_spec E Oa
  have hb : ∀ q : Ptr, q.base = b.m_data → h'.cell? q = h.cell? q := by
    intro q hq
    cases hd : b.m_data with
    | none =>
      obtain ⟨qb, qo⟩ := q
      simp only [hd] at hq
      subst hq
      rfl
    | some b0 =>
      refine hkeep q ?_
      rw [hq]
      rcases hdis with hne | hnone
      · exact fun he => hne he.symm
      · rw [hd] at hnone; cases hnone
  have Ob' : Owns h' b t := Ob.of_cells hb
  have hab : (⟨b.m_data, b.m_capacity, b.m_size⟩ : vector) = b := rfl
  refine ⟨h', ⟨b.m_data, b.m_capacity, b.m_size⟩, ⟨none, 0, 0⟩, ?_, rfl, rfl, rfl,
    by rw [hab]; exact Ob', by rw [hab]; exact Ob'.toList_eq, Ob.toList_eq, rfl, rfl, rfl,
    Owns.empty h', hst, ?_, hfree⟩
  · simp only [vector.assign_move, Option.bind_eq_bind]
    rw [hs]
    rfl
  · intro hD
    rw [hst]
    show h.stats.dtor + _ = _
    by_cases hn : a.m_data = none
    · have hcap : a.m_capacity = 0 := Oa.null_iff.mp hn
      have hsz : a.m_size = 0 := by have := Oa.size_le; omega
      simp [hn, vector.size, hsz]
    · simp [hn, ElemType.dtorCalls, hD, vector.size]

/-- Witness of C21: `a = move(b)` for `a = {10, 20, 30}` and `b = {1, 2, 3, 4, 5}` with
the element type `Foo`: three destructions, one deallocation, nothing else counted. -/
theorem C21_move_assign_witness :
    Owns heapPair vecSpare [10, 20, 30] ∧ Owns heapPair vecFiveB [1, 2, 3, 4, 5] ∧
    (vecSpare.m_data ≠ vecFiveB.m_data ∨ vecFiveB.m_data = none) ∧
    ∃ h' a' b', vecSpare.assign_move fooElem heapPair (some vecFiveB) =
        some (h', a', some b') ∧
      a'.toList h' = some [1, 2, 3, 4, 5] ∧ b'.size = 0 ∧ b'.capacity = 0 ∧
      b'.data = none ∧ h'.stats = { dtor := 3, frees := 1 } := by
  have Oa : Owns heapPair vecSpare [10, 20, 30] :=
    Owns.of_toList (by decide) (by decide) rfl rfl
  have Ob : Owns heapPair vecFiveB [1, 2, 3, 4, 5] :=
    Owns.of_toList (by decide) (by decide) rfl rfl
  have hdis : vecSpare.m_data ≠ vecFiveB.m_data ∨ vecFiveB.m_data = none :=
    Or.inl (by decide)
  obtain ⟨⟨h', a', b', hs, _, _, _, _, hl, _, hb1, hb2, hb3, _, hst, _, _⟩, _⟩ :=
    C21_move_assign fooElem heapPair vecSpare vecFiveB [10, 20, 30] [1, 2, 3, 4, 5]
      Oa Ob hdis
  exact ⟨Oa, Ob, hdis, h', a', b', hs, hl, hb1, hb2, hb3, hst⟩

end MoveAssignClaims

section EqualLemmas
variable {T : Type} [DecidableEq T]

/-- The loop of `std::equal` over two runs of constructed objects returns whether the
two runs hold equal values. -/
theorem vector.equalLoop_spec (h : Heap T) :
    ∀ (xs ys : List T) (p q : Ptr), xs.length = ys.length →
      (∀ k x, xs[k]? = some x → h.cell? (p.add k) = some (Cell.live x)) →
      (∀ k y, ys[k]? = some y → h.cell? (q.add k) = some (Cell.live y)) →
      vector.equalLoop h xs.length p q = some (decide (xs = ys)) := by
  intro xs
  induction xs with
  | nil =>
    intro ys p q hlen _ _
    have : ys = [] := List.eq_nil_of_length_eq_zero hlen.symm
    subst this
    rfl
  | cons x xs ih =>
    intro ys p q hlen hp hq
    cases ys with
    | nil => simp at hlen
    | cons y ys =>
      have hx : h.load p = some x := by
        have := hp 0 x (by simp)
        rw [Ptr.add_zero] at this
        exact Heap.load_eq_some.mpr this
      have hy : h.load q = some y := by
        have := hq 0 y (by simp)
        rw [Ptr.add_zero] at this
        exact Heap.load_eq_some.mpr this
      have hlen' : xs.length = ys.length := by simpa using hlen
      have hrec := ih ys (p.add 1) (q.add 1) hlen'
        (fun k z hz => by
          rw [Ptr.add_add, Nat.add_comm 1 k]
          exact hp (k + 1) z (by simpa using hz))
        (fun k z hz => by
          rw [Ptr.add_add, Nat.add_comm 1 k]
          exact hq (k + 1) z (by simpa using hz))
      simp only [List.length_cons, vector.equalLoop, Option.bind_eq_bind, hx, hy,
        Option.some_bind]
      by_cases hxy : x = y
      · subst hxy
        rw [if_pos rfl, hrec]
        simp
      · rw [if_neg hxy]
        simp [hxy]

/-- Specification of `operator==` on two well-formed vectors: it returns whether the two
sequences are equal. -/
theorem vector.eq_spec {h : Heap T} {a b : vector} {s t : List T}
    (Oa : Owns h a s) (Ob : Owns h b t) : a.eq h b = some (decide (s = t)) := by
  unfold vector.eq
  by_cases hsz : a.m_size = b.m_size
  · rw [if_neg (fun hne => hne hsz)]
    have e : a._ptrAt a.m_size = (a._ptrAt 0).add a.m_size := by
      rw [vector._ptrAt_add, Nat.zero_add]
    rw [e, Ptr.diff_add]
    simp only [Option.bind_eq_bind, Option.some_bind]
    have hlen : s.length = t.length := by rw [← Oa.size_eq, ← Ob.size_eq]; exact hsz
    rw [Oa.size_eq]
    exact vector.equalLoop_spec h s t (a._ptrAt 0) (b._ptrAt 0) hlen
      (fun k x hx => by rw [vector._ptrAt_add, Nat.zero_add]; exact Oa.elems k x hx)
      (fun k y hy => by rw [vector._ptrAt_add, Nat.zero_add]; exact Ob.elems k y hy)
  · rw [if_pos hsz]
    have hne : s ≠ t := by
      intro he
      apply hsz
      rw [Oa.size_eq, Ob.size_eq, he]
    simp [hne]

end EqualLemmas

section EqualClaims
variable {T : Type} [DecidableEq T]

/-- C22: for two well-formed vectors `a` and `b` of any capacities, `a == b` returns,
and it returns `true` if and only if `a.size() == b.size()` and `a[i] == b[i]` for every
`i < a.size()`; `a != b` returns the negation of `a == b`. -/
theorem C22_equality (h : Heap T) (a b : vector) (s t : List T)
    (Oa : Owns h a s) (Ob : Owns h b t) :
    ∃ r, a.eq h b = some r ∧
      (r = true ↔ a.size = b.size ∧ ∀ i, i < a.size → a.get h i = b.get h i) ∧
      a.ne h b = some (!r) := by
  refine ⟨decide (s = t), vector.eq_spec Oa Ob, ?_, ?_⟩
  · rw [decide_eq_true_iff]
    constructor
    · intro he
      subst he
      have hsz : a.size = b.size := by
        show a.m_size = b.m_size
        rw [Oa.size_eq, Ob.size_eq]
      refine ⟨hsz, fun i hi => ?_⟩
      rw [Oa.get i hi, Ob.get i (by show i < b.size; rw [← hsz]; exact hi)]
    · intro ⟨hsz, hel⟩
      have hsz' : a.m_size = b.m_size := hsz
      apply List.ext_getElem?
      intro i
      by_cases hi : i < a.m_size
      · have := hel i hi
        rw [Oa.get i hi, Ob.get i (by rw [← hsz']; exact hi)] at this
        exact this
      · rw [List.getElem?_eq_none (by rw [← Oa.size_eq]; omega),
          List.getElem?_eq_none (by rw [← Ob.size_eq]; omega)]
  · simp [vector.ne, vector.eq_spec Oa Ob]

/-- Witness of C22: Scenario E of the specification: two separately stored vectors
`{10, 20, 30}`, of capacities 4 and 3, compare equal; `{10, 20, 30}` and
`{1, 2, 3, 4, 5}` compare unequal. -/
theorem C22_equality_witness :
    Owns heapTwin vecSpare [10, 20, 30] ∧ Owns heapTwin vecTwin [10, 20, 30] ∧
    Owns heapPair vecSpare [10, 20, 30] ∧ Owns heapPair vecFiveB [1, 2, 3, 4, 5] ∧
    vecSpare.capacity ≠ vecTwin.capacity ∧
    vecSpare.eq heapTwin vecTwin = some true ∧
    vecSpare.ne heapTwin vecTwin = some false ∧
    vecSpare.eq heapPair vecFiveB = some false ∧
    vecSpare.ne heapPair vecFiveB = some true := by
  have Oa : Owns heapTwin vecSpare [10, 20, 30] :=
    Owns.of_toList (by decide) (by decide) rfl rfl
  have Ob : Owns heapTwin vecTwin [10, 20, 30] :=
    Owns.of_toList (by decide) (by decide) rfl rfl
  have Oc : Owns heapPair vecSpare [10, 20, 30] :=
    Owns.of_toList (by decide) (by decide) rfl rfl
  have Od : Owns heapPair vecFiveB [1, 2, 3, 4, 5] :=
    Owns.of_toList (by decide) (by decide) rfl rfl
  obtain ⟨r1, h1, hi1, hn1⟩ := C22_equality heapTwin vecSpare vecTwin _ _ Oa Ob
  obtain ⟨r2, h2, hi2, hn2⟩ := C22_equality heapPair vecSpare vecFiveB _ _ Oc Od
  have e1 : r1 = true := hi1.mpr ⟨rfl, fun i hi => by
    rw [Oa.get i hi, Ob.get i hi]⟩
  have e2 : r2 = false := by
    cases r2 with
    | false => rfl
    | true => exact absurd (hi2.mp rfl).1 (by decide)
  subst e1 e2
  exact ⟨Oa, Ob, Oc, Od, by decide, h1, hn1, h2, hn2⟩

end EqualClaims

section EmplaceBackClaims
variable {T : Type}

/-- A run of `push_back` calls on a well-formed vector at full capacity: every call
grows the capacity by exactly one, so the vector is at full capacity afterwards too. -/
theorem vector.push_back_all_capacity (E : ElemType T) :
    ∀ (calls : List (Bool × T)) (h : Heap T) (v : vector) (s : List T), Owns h v s →
      v.m_size = v.m_capacity →
      ∃ h' v', vector.push_back_all E h v calls = some (h', v') ∧
        v'.m_capacity = v.m_capacity + calls.length ∧ v'.m_size = v'.m_capacity := by
  intro calls
  induction calls with
  | nil => intro h v s _ hfull; exact ⟨h, v, rfl, rfl, hfull⟩
  | cons c cs ih =>
    intro h v s O hfull
    have hstep : ∃ h1 v1, (if c.1 = true then v.push_back_move E h (Ref.ext c.2)
        else v.push_back E h (Ref.ext c.2)) = some (h1, v1) ∧ Owns h1 v1 (s ++ [c.2]) ∧
        v1.m_capacity = v.m_capacity + 1 ∧ v1.m_size = v1.m_capacity := by
      by_cases hc : c.1 = true
      · obtain ⟨h1, v1, hs, O1, hsz, hgrow, _⟩ :=
          vector.emplace_back_spec E O (Arg.builds_move E c.2)
        exact ⟨h1, v1, by simp [hc, vector.push_back_move, hs], O1, hgrow hfull,
          by rw [hsz, hgrow hfull, hfull]⟩
      · obtain ⟨h1, v1, hs, O1, hsz, hgrow, _⟩ :=
          vector.emplace_back_spec E O (Arg.builds_copy E c.2)
        exact ⟨h1, v1, by simp [hc, vector.push_back, hs], O1, hgrow hfull,
          by rw [hsz, hgrow hfull, hfull]⟩
    obtain ⟨h1, v1, hs1, O1, hcap1, hfull1⟩ := hstep
    obtain ⟨h', v', hs, hcap, hfull'⟩ := ih h1 v1 _ O1 hfull1
    refine ⟨h', v', ?_, by rw [hcap, hcap1, List.length_cons]; omega, hfull'⟩
    simp only [vector.push_back_all, Option.bind_eq_bind]
    rw [hs1]
    exact hs

/-- C23: on a well-formed vector holding `s` (size `n`, capacity `c`), `emplace_back`
with arguments that build the element `x` returns; the size is `n + 1`, the vector
holds `s ++ [x]` (so `v[n]` is `x` and the first `n` elements read as before), and the
returned reference is the slot of `v[n]`, holding `x`; the capacity is `c + 1` when
`n == c` and stays `c` when `n < c`.  After `k` calls of `push_back` (either overload)
on the empty vector, `capacity()` and `size()` are both `k`. -/
theorem C23_emplace_back (E : ElemType T) (h : Heap T) (v : vector) (s : List T)
    (args : Arg T) (x : T) (calls : List (Bool × T)) (O : Owns h v s)
    (hb : Arg.Builds E args x) :
    (∃ h' v' p, v.emplace_back E h args = some (h', v', p) ∧
      v'.size = v.size + 1 ∧ Owns h' v' (s ++ [x]) ∧ v'.toList h' = some (s ++ [x]) ∧
      v'.get h' v.size = some x ∧ (∀ i, i < v.size → v'.get h' i = v.get h i) ∧
      v'.index v.size = some p ∧ h'.load p = some x ∧
      (v.size = v.capacity → v'.capacity = v.capacity + 1) ∧
      (v.size < v.capacity → v'.capacity = v.capacity)) ∧
    (∃ h' v', vector.push_back_all E h vector.ctor_default calls = some (h', v') ∧
      v'.capacity = calls.length ∧ v'.size = calls.length) := by
  constructor
  · obtain ⟨h', v', hs, O', hsz, hgrow, hkeep⟩ := vector.emplace_back_spec E O hb
    have hn := O.size_eq
    have hlt : v.m_size < v'.m_size := by omega
    have hget : v'.get h' v.m_size = some x := by
      rw [O'.get v.m_size hlt, hn]
      simp
    refine ⟨h', v', _, hs, hsz, O', O'.toList_eq, hget, ?_, ?_, ?_, hgrow,
      fun hc => (hkeep hc).1⟩
    · intro i hi
      have hi' : i < v.m_size := hi
      rw [O'.get i (by omega), O.get i hi']
      rw [List.getElem?_append_left (by rw [← hn]; exact hi')]
    · show v'.index v.m_size = _
      simp [vector.index, vector.assert, hlt]
    · have hc := O'.elems v.m_size x (by rw [hn]; simp)
      exact Heap.load_eq_some.mpr hc
  · obtain ⟨h', v', hs, hcap, hfull⟩ :=
      vector.push_back_all_capacity E calls h vector.ctor_default [] (Owns.empty h) rfl
    have hc : v'.m_capacity = calls.length := by
      rw [hcap]; simp [vector.ctor_default]
    exact ⟨h', v', hs, hc, by show v'.m_size = _; rw [hfull, hc]⟩

/-- Witness of C23: `emplace_back(4)` on `{10, 20, 30}` with capacity 3 (the capacity
becomes 4) and with capacity 4 (the capacity stays 4), element type `Foo`. -/
theorem C23_emplace_back_witness :
    Owns heapFull vecFull [10, 20, 30] ∧ Owns heapSpare vecSpare [10, 20, 30] ∧
    Arg.Builds fooElem (Arg.make 4) 4 ∧
    (∃ h' v' p, vecFull.emplace_back fooElem heapFull (Arg.make 4) = some (h', v', p) ∧
      v'.toList h' = some [10, 20, 30, 4] ∧ v'.capacity = 4 ∧ h'.load p = some 4) ∧
    (∃ h' v' p, vecSpare.emplace_back fooElem heapSpare (Arg.make 4) = some (h', v', p) ∧
      v'.toList h' = some [10, 20, 30, 4] ∧ v'.capacity = 4 ∧ h'.load p = some 4) := by
  have O1 : Owns heapFull vecFull [10, 20, 30] :=
    Owns.of_toList (by decide) (by decide) rfl rfl
  have O2 : Owns heapSpare vecSpare [10, 20, 30] :=
    Owns.of_toList (by decide) (by decide) rfl rfl
  have hb : Arg.Builds fooElem (Arg.make (4 : Int)) 4 := Arg.builds_make fooElem 4
  obtain ⟨⟨h1, v1, p1, hs1, _, _, hl1, _, _, _, hp1, hg1, _⟩, _⟩ :=
    C23_emplace_back fooElem heapFull vecFull [10, 20, 30] (Arg.make 4) 4 [] O1 hb
  obtain ⟨⟨h2, v2, p2, hs2, _, _, hl2, _, _, _, hp2, _, hk2⟩, _⟩ :=
    C23_emplace_back fooElem heapSpare vecSpare [10, 20, 30] (Arg.make 4) 4 [] O2 hb
  exact ⟨O1, O2, hb, ⟨h1, v1, p1, hs1, hl1, hg1 rfl, hp1⟩,
    ⟨h2, v2, p2, hs2, hl2, hk2 (by decide), hp2⟩⟩

end EmplaceBackClaims

section ConstructLemmas
variable {T : Type}

theorem iterate_defaultCtor (n : Nat) (s : Stats) :
    (fun s : Stats => { s with defaultCtor := s.defaultCtor + 1 })^[n] s =
      { s with defaultCtor := s.defaultCtor + n } := by
  induction n generalizing s with
  | zero => rfl
  | succ n ih => rw [Function.iterate_succ_apply, ih]; simp only [Nat.add_assoc, Nat.add_comm 1 n]

/-- The loop `_constructN(at, count, args...)` for arguments outside the heap that build
`x` and change the counters by `f`: every one of the `count` slots then holds `x`, the
counters changed `count` times, and no other slot changed. -/
theorem _constructN_spec (E : ElemType T) {args : Arg T} {x : T} {f : Stats → Stats}
    (hb : ∀ h : Heap T, h.evalArg E args = some (x, h.tick f)) :
    ∀ (n : Nat) (h : Heap T) (p : Ptr), (∀ k, k < n → (h.cell? (p.add k)).isSome) →
      ∃ h', _constructN E n p args h = some h' ∧ h.Frame h' ∧ h'.stats = f^[n] h.stats ∧
        (∀ q, q.within p n → h'.cell? q = some (Cell.live x)) ∧
        (∀ q, ¬ q.within p n → h'.cell? q = h.cell? q) := by
  intro n
  induction n with
  | zero =>
    intro h p _
    exact ⟨h, rfl, Heap.Frame.refl h, rfl, fun q hq => absurd hq (Ptr.within_zero q p),
      fun _ _ => rfl⟩
  | succ n ih =>
    intro h p hp
    have hp0 : (h.cell? p).isSome := by
      have := hp 0 (by omega)
      rw [Ptr.add_zero] at this
      exact this
    have hba : Arg.BuildsAt E h args x := ⟨f, hb h⟩
    obtain ⟨h1, hs1, hfr1, ⟨f', hst1, hev⟩, hcell1⟩ := _constructSingle_at hba hp0
    have hff : f' h.stats = f h.stats := by
      rw [hb h] at hev
      have := congrArg (fun o : Option (T × Heap T) => o.map (fun r => r.2.stats)) hev
      simp only [Option.map_some', Option.some.injEq] at this
      exact this.symm
    have hne : ∀ k, p.add (k + 1) ≠ p := by
      intro k; obtain ⟨b, o⟩ := p; simp [Ptr.add]
    obtain ⟨h', hs, hfr, hst, ha, hb'⟩ := ih h1 (p.add 1) (by
      intro k hk
      rw [Ptr.add_one_add, hfr1.isSome_cell]
      exact hp (k + 1) (by omega))
    have hp_nw : ¬ p.within (p.add 1) n := by
      intro ⟨_, h1', _⟩; simp only [Ptr.add] at h1'; omega
    refine ⟨h', by simp [_constructN, hs1, hs], hfr1.trans hfr, ?_, ?_, ?_⟩
    · rw [hst, hst1, hff, Function.iterate_succ_apply]
    · intro q hq
      rw [Ptr.within_succ] at hq
      rcases hq with rfl | hq
      · rw [hb' q hp_nw, hcell1, if_pos rfl]
      · exact ha q hq
    · intro q hq
      rw [Ptr.within_succ] at hq
      push_neg at hq
      rw [hb' q hq.2, hcell1, if_neg hq.1]

/-- The body shared by `vector(count)` and `vector(count, value)`: a buffer of exactly
`count` slots is obtained and `count` elements are constructed in it. -/
theorem vector.ctor_fill (E : ElemType T) {args : Arg T} {x : T} {f : Stats → Stats}
    (hb : ∀ h : Heap T, h.evalArg E args = some (x, h.tick f)) (h : Heap T) (count : Nat) :
    ∃ h', _constructN E count (⟨(_allocate h count).1, 0⟩ : Ptr) args (_allocate h count).2 =
        some h' ∧
      Owns h' (⟨(_allocate h count).1, count, count⟩ : vector) (List.replicate count x) ∧
      h'.stats = f^[count] { h.stats with
        allocs := h.stats.allocs + (if count = 0 then 0 else 1) } := by
  by_cases h0 : count = 0
  · subst h0
    refine ⟨h, rfl, ?_, by simp⟩
    exact ⟨rfl, Nat.le_refl _, by simp [_allocate], rfl, fun i y hy => by simp at hy⟩
  · rw [_allocate_pos h h0]
    obtain ⟨h', hs, hfr, hst, ha, _⟩ := _constructN_spec E hb count (h.alloc count).2
      (⟨some h.mem.length, 0⟩ : Ptr) (fun k hk => by
        rw [Heap.alloc_cell]
        simp [Ptr.add, hk])
    refine ⟨h', hs, ?_, by rw [hst, Heap.alloc_stats, if_neg h0]⟩
    refine ⟨by simp, Nat.le_refl _, by simp [h0], ?_, ?_⟩
    · show h'.slots? h.mem.length = some count
      rw [hfr.2, Heap.alloc_slots, if_pos rfl]
    · intro i y hy
      have hi : i < count := by
        have := getElem?_lt_length hy
        simpa using this
      have hy' : y = x := by
        rw [List.getElem?_replicate, if_pos hi] at hy
        exact (Option.some.inj hy).symm
      subst hy'
      exact ha _ ⟨rfl, Nat.zero_le _, by simpa using hi⟩

end ConstructLemmas

section ConstructorClaims
variable {T : Type}

/-- C24: for every heap, count and value `x`, `vector(count, x)` returns a vector with
`size() == capacity() == count`, owning a buffer of exactly `count` slots that all hold
`x`, after exactly `count` copy constructions and one allocation (none for `count == 0`)
and no other counted operation; `vector(count)` returns the same with `count`
default-constructed elements and `count` default constructions; the default constructor
yields size 0, capacity 0 and a null data pointer, and does not touch the heap. -/
theorem C24_constructors (E : ElemType T) (h : Heap T) (count : Nat) (x : T) :
    (∃ h' v, vector.ctor_count_value E h count (Ref.ext x) = some (h', v) ∧
      v.size = count ∧ v.capacity = count ∧ Owns h' v (List.replicate count x) ∧
      (∀ i, i < count → v.get h' i = some x) ∧
      h'.stats = { h.stats with
        copyCtor := h.stats.copyCtor + count,
        allocs := h.stats.allocs + (if count = 0 then 0 else 1) }) ∧
    (∃ h' v, vector.ctor_count E h count = some (h', v) ∧
      v.size = count ∧ v.capacity = count ∧ Owns h' v (List.replicate count E.dflt) ∧
      (∀ i, i < count → v.get h' i = some E.dflt) ∧
      h'.stats = { h.stats with
        defaultCtor := h.stats.defaultCtor + count,
        allocs := h.stats.allocs + (if count = 0 then 0 else 1) }) ∧
    (vector.ctor_default.size = 0 ∧ vector.ctor_default.capacity = 0 ∧
      vector.ctor_default.data = none ∧ Owns h vector.ctor_default ([] : List T)) := by
  refine ⟨?_, ?_, rfl, rfl, rfl, Owns.empty h⟩
  · have hb : ∀ h0 : Heap T, h0.evalArg E (Arg.copy (Ref.ext x)) =
        some (x, h0.tick fun st => { st with copyCtor := st.copyCtor + 1 }) := fun _ => rfl
    obtain ⟨h', hs, O', hst⟩ := vector.ctor_fill E hb h count
    refine ⟨h', ⟨(_allocate h count).1, count, count⟩, ?_, rfl, rfl, O', ?_, ?_⟩
    · simp only [vector.ctor_count_value, Option.bind_eq_bind]
      rw [show (vector._ptrAt ⟨(_allocate h count).1, count, count⟩ 0) =
        (⟨(_allocate h count).1, 0⟩ : Ptr) from rfl, hs]
      rfl
    · intro i hi
      rw [O'.get i hi]
      simp [hi]
    · rw [hst, iterate_copyCtor]
  · have hb : ∀ h0 : Heap T, h0.evalArg E Arg.dflt =
        some (E.dflt, h0.tick fun st => { st with defaultCtor := st.defaultCtor + 1 }) :=
      fun _ => rfl
    obtain ⟨h', hs, O', hst⟩ := vector.ctor_fill E hb h count
    refine ⟨h', ⟨(_allocate h count).1, count, count⟩, ?_, rfl, rfl, O', ?_, ?_⟩
    · simp only [vector.ctor_count, Option.bind_eq_bind]
      rw [show (vector._ptrAt ⟨(_allocate h count).1, count, count⟩ 0) =
        (⟨(_allocate h count).1, 0⟩ : Ptr) from rfl, hs]
      rfl
    · intro i hi
      rw [O'.get i hi]
      simp [hi]
    · rw [hst, iterate_defaultCtor]

end ConstructorClaims

section ClearPopClaims
variable {T : Type}

/-- Specification of `pop_back()` on a non-empty well-formed vector. -/
theorem vector.pop_back_spec (E : ElemType T) {h : Heap T} {v : vector} {s : List T}
    (O : Owns h v s) (hn : 0 < v.m_size) :
    ∃ h', v.pop_back E h = some (h', { v with m_size := v.m_size - 1 }) ∧ h.Frame h' ∧
      Owns h' { v with m_size := v.m_size - 1 } s.dropLast ∧
      h'.stats = { h.stats with dtor := h.stats.dtor + E.dtorCalls 1 } ∧
      h'.cell? (v._ptrAt (v.m_size - 1)) = some Cell.dead ∧
      (∀ q : Ptr, q ≠ v._ptrAt (v.m_size - 1) → h'.cell? q = h.cell? q) := by
  have hlen := O.size_eq
  obtain ⟨h', hs, hfr, hst, ha, hb⟩ := _destroyRange_spec E h (v._ptrAt (v.m_size - 1)) 1
    (fun k hk => by
      rw [vector._ptrAt_add]
      exact O.isLive (by omega))
  have e : (v._ptrAt (v.m_size - 1)).add 1 = v._ptrAt v.m_size := by
    rw [vector._ptrAt_add]; congr 1; omega
  rw [e] at hs
  have hnw : ∀ q : Ptr, q ≠ v._ptrAt (v.m_size - 1) →
      ¬ q.within (v._ptrAt (v.m_size - 1)) 1 := by
    intro q hq hw
    apply hq
    obtain ⟨qb, qo⟩ := q
    obtain ⟨hw1, hw2, hw3⟩ := hw
    simp only [vector._ptrAt] at hw1 hw2 hw3 ⊢
    subst hw1
    congr 1
    omega
  refine ⟨h', ?_, hfr, ?_, ?_, ?_, fun q hq => hb q (hnw q hq)⟩
  · simp [vector.pop_back, vector.assert, hn, hs]
  · refine ⟨?_, ?_, O.null_iff, O.frame_slots hfr, ?_⟩
    · show v.m_size - 1 = s.dropLast.length
      rw [List.length_dropLast, hlen]
    · show v.m_size - 1 ≤ v.m_capacity
      have := O.size_le; omega
    · intro i x hx
      have hi : i < s.length - 1 := by
        have := getElem?_lt_length hx
        rw [List.length_dropLast] at this
        exact this
      have hx' : s[i]? = some x := by
        rw [List.dropLast_eq_take, List.getElem?_take] at hx
        rw [if_pos hi] at hx
        exact hx
      show h'.cell? (v._ptrAt i) = _
      rw [hb (v._ptrAt i) (by simp; omega)]
      exact O.elems i x hx'
  · rw [hst, Stats.dtor_eq]
  · exact ha _ ⟨rfl, Nat.le_refl _, by omega⟩

/-- C25: on a well-formed vector holding `n` elements, `clear()` returns; the size is 0,
capacity and data pointer are unchanged and the buffer keeps its slots; each of the `n`
slots held a live object before and holds a destroyed one after; the destructor counter
grows by `n` for an element type with a non-trivial destructor (nothing is counted for
a trivially destructible type), and no other counter changes. -/
theorem C25_clear (E : ElemType T) (h : Heap T) (v : vector) (s : List T)
    (O : Owns h v s) :
    ∃ h' v', v.clear E h = some (h', v') ∧
      v'.size = 0 ∧ v'.capacity = v.capacity ∧ v'.data = v.data ∧
      Owns h' v' ([] : List T) ∧
      (∀ j, j < v.size → h.isLive (v._ptrAt j) ∧ h'.cell? (v._ptrAt j) = some Cell.dead) ∧
      h'.stats = { h.stats with dtor := h.stats.dtor + E.dtorCalls v.size } ∧
      (E.trivDtor = false → h'.stats.dtor = h.stats.dtor + v.size) := by
  obtain ⟨h', hs, _, O', hst, hdead, _⟩ := vector._clear_spec E O
  refine ⟨h', { v with m_size := 0 }, hs, rfl, rfl, rfl, O',
    fun j hj => ⟨O.isLive hj, hdead j hj⟩, hst, ?_⟩
  intro hD
  rw [hst]
  simp [ElemType.dtorCalls, hD, vector.size]

/-- Witness of C25: `clear()` on `{10, 20, 30}` of capacity 4 with the element type
`Foo`: three destructions, capacity still 4. -/
theorem C25_clear_witness :
    Owns heapSpare vecSpare [10, 20, 30] ∧
    ∃ h' v', vecSpare.clear fooElem heapSpare = some (h', v') ∧ v'.size = 0 ∧
      v'.capacity = 4 ∧ h'.stats = { dtor := 3 } := by
  have O : Owns heapSpare vecSpare [10, 20, 30] :=
    Owns.of_toList (by decide) (by decide) rfl rfl
  obtain ⟨h', v', hs, hsz, hcap, _, _, _, hst, _⟩ :=
    C25_clear fooElem heapSpare vecSpare [10, 20, 30] O
  exact ⟨O, h', v', hs, hsz, hcap, hst⟩

/-- C26: on a well-formed vector holding `s` with size `n >= 1`, `pop_back()` returns;
the size is `n - 1`, capacity and data pointer are unchanged, the vector holds `s`
without its last element (so the first `n - 1` elements read as before), the slot of
the former last element holds a destroyed object and no other slot changed; the
destructor counter grows by one for an element type with a non-trivial destructor, and
no other counter changes. -/
theorem C26_pop_back (E : ElemType T) (h : Heap T) (v : vector) (s : List T)
    (O : Owns h v s) (hn : 1 ≤ v.size) :
    ∃ h' v', v.pop_back E h = some (h', v') ∧
      v'.size = v.size - 1 ∧ v'.capacity = v.capacity ∧ v'.data = v.data ∧
      Owns h' v' s.dropLast ∧ v'.toList h' = some s.dropLast ∧
      (∀ i, i < v.size - 1 → v'.get h' i = v.get h i) ∧
      h'.cell? (v._ptrAt (v.size - 1)) = some Cell.dead ∧
      (∀ q : Ptr, q ≠ v._ptrAt (v.size - 1) → h'.cell? q = h.cell? q) ∧
      h'.stats = { h.stats with dtor := h.stats.dtor + E.dtorCalls 1 } ∧
      (E.trivDtor = false → h'.stats.dtor = h.stats.dtor + 1) := by
  have hn' : 0 < v.m_size := hn
  obtain ⟨h', hs, _, O', hst, hdead, hkeep⟩ := vector.pop_back_spec E O hn'
  refine ⟨h', { v with m_size := v.m_size - 1 }, hs, rfl, rfl, rfl, O', O'.toList_eq, ?_,
    hdead, hkeep, hst, ?_⟩
  · intro i hi
    have hi' : i < v.m_size - 1 := hi
    rw [O'.get i hi', O.get i (by omega)]
    rw [List.dropLast_eq_take, List.getElem?_take, if_pos (by rw [← O.size_eq]; exact hi')]
  · intro hD
    rw [hst]
    simp [ElemType.dtorCalls, hD]

/-- Witness of C26: `pop_back()` on `{10, 20, 30}` with the element type `Foo`. -/
theorem C26_pop_back_witness :
    Owns heapSpare vecSpare [10, 20, 30] ∧ 1 ≤ vecSpare.size ∧
    ∃ h' v', vecSpare.pop_back fooElem heapSpare = some (h', v') ∧ v'.size = 2 ∧
      v'.capacity = 4 ∧ v'.toList h' = some [10, 20] ∧ h'.stats = { dtor := 1 } := by
  have O : Owns heapSpare vecSpare [10, 20, 30] :=
    Owns.of_toList (by decide) (by decide) rfl rfl
  obtain ⟨h', v', hs, hsz, hcap, _, _, hl, _, _, _, hst, _⟩ :=
    C26_pop_back fooElem heapSpare vecSpare [10, 20, 30] O (by decide)
  exact ⟨O, by decide, h', v', hs, hsz, hcap, hl, hst⟩

end ClearPopClaims

section BackwardClaims
variable {T : Type}

/-- C28: for every element type (in particular one whose move assignment is not
trivial), every heap, every source range `[first, last)` holding the constructed
objects `xs` (`count` of them) and every `dest` whose `count` slots `[dest - count,
dest)` hold constructed objects, with `dest >= last` when both lie in the same buffer,
`_moveAssignBackwardRange(first, last, dest)` returns and the slots `[dest - count,
dest)` then hold `xs` in the same order.  On the buffer `{10, 20, 30}` of `Foo`s,
shifting `[0, 2)` right by one slot backward leaves `10, 20` in slots 1 and 2, whereas
forward `_moveAssignRange` with the same source and destination slots leaves `0, 10`
(slot 1 is overwritten before it is read, then moved from): the element `20` is lost. -/
theorem C28_move_assign_backward (E : ElemType T) (h : Heap T) (first d : Ptr)
    (xs : List T)
    (hsrc : ∀ k x, xs[k]? = some x → h.load (first.add k) = some x)
    (hdst : ∀ k, k < xs.length → h.isLive (d.add k))
    (hge : d.base = first.base → (first.add xs.length).off ≤ (d.add xs.length).off) :
    (∃ r, _moveAssignBackwardRange E h first (first.add xs.length) (d.add xs.length) =
        some r ∧
      (∀ k x, xs[k]? = some x → r.1.load (d.add k) = some x) ∧
      (E.trivMoveAssign = false →
        r.1.stats = { h.stats with moveAssign := h.stats.moveAssign + xs.length })) ∧
    (∃ r, _moveAssignBackwardRange fooElem heapFull ⟨some 0, 0⟩ ⟨some 0, 2⟩ ⟨some 0, 3⟩ =
        some r ∧
      r.1.load ⟨some 0, 1⟩ = some 10 ∧ r.1.load ⟨some 0, 2⟩ = some 20) ∧
    (∃ r, _moveAssignRange fooElem heapFull ⟨some 0, 0⟩ ⟨some 0, 2⟩ ⟨some 0, 1⟩ = some r ∧
      r.1.load ⟨some 0, 1⟩ = some 0 ∧ r.1.load ⟨some 0, 2⟩ = some 10) := by
  refine ⟨?_, exists_of_isSome rfl (fun r hr => ?_), exists_of_isSome rfl (fun r hr => ?_)⟩
  · have hsafe : d.base = first.base → first.off ≤ d.off := by
      intro hb
      have := hge hb
      simp only [Ptr.add] at this
      omega
    obtain ⟨h', hs, _, hst, ha, _, _⟩ := _moveAssignBackwardRange_spec E h first d xs.length
      hsafe
      (fun k hk => ⟨xs[k], Heap.load_eq_some.mp
        (hsrc k xs[k] (List.getElem?_eq_getElem hk))⟩)
      hdst
    refine ⟨_, hs, ?_, ?_⟩
    · intro k x hx
      have hk := getElem?_lt_length hx
      apply Heap.load_eq_some.mpr
      show h'.cell? (d.add k) = _
      rw [ha k hk]
      exact Heap.load_eq_some.mp (hsrc k x hx)
    · intro hE
      show h'.stats = _
      rw [hst]
      simp [hE]
  · have e : some r = _ := hr.symm
    cases e
    exact ⟨rfl, rfl⟩
  · have e : some r = _ := hr.symm
    cases e
    exact ⟨rfl, rfl⟩

/-- Witness of C28: the range `[0, 2)` of the buffer `{10, 20, 30}` of `Foo`s moved
backward to the slots `[1, 3)`. -/
theorem C28_move_assign_backward_witness :
    (∀ k x, ([10, 20] : List Int)[k]? = some x →
      heapFull.load ((⟨some 0, 0⟩ : Ptr).add k) = some x) ∧
    (∀ k, k < ([10, 20] : List Int).length → heapFull.isLive ((⟨some 0, 1⟩ : Ptr).add k)) ∧
    ((⟨some 0, 1⟩ : Ptr).base = (⟨some 0, 0⟩ : Ptr).base →
      ((⟨some 0, 0⟩ : Ptr).add ([10, 20] : List Int).length).off ≤
        ((⟨some 0, 1⟩ : Ptr).add ([10, 20] : List Int).length).off) ∧
    ∃ r, _moveAssignBackwardRange fooElem heapFull ⟨some 0, 0⟩
        ((⟨some 0, 0⟩ : Ptr).add 2) ((⟨some 0, 1⟩ : Ptr).add 2) = some r ∧
      r.1.load ⟨some 0, 1⟩ = some 10 ∧ r.1.load ⟨some 0, 2⟩ = some 20 ∧
      r.1.stats = { moveAssign := 2 } := by
  have O : Owns heapFull vecFull [10, 20, 30] :=
    Owns.of_toList (by decide) (by decide) rfl rfl
  have hsrc : ∀ k x, ([10, 20] : List Int)[k]? = some x →
      heapFull.load ((⟨some 0, 0⟩ : Ptr).add k) = some x := by
    intro k x hx
    have hk : k < 2 := getElem?_lt_length hx
    interval_cases k
    · simp at hx; subst hx; rfl
    · simp at hx; subst hx; rfl
  have hdst : ∀ k, k < ([10, 20] : List Int).length →
      heapFull.isLive ((⟨some 0, 1⟩ : Ptr).add k) := by
    intro k hk
    exact O.isLive (i := 1 + k) (by
      have : k < 2 := hk
      show 1 + k < 3
      omega)
  have hge : (⟨some 0, 1⟩ : Ptr).base = (⟨some 0, 0⟩ : Ptr).base →
      ((⟨some 0, 0⟩ : Ptr).add ([10, 20] : List Int).length).off ≤
        ((⟨some 0, 1⟩ : Ptr).add ([10, 20] : List Int).length).off := fun _ => by decide
  obtain ⟨⟨r, hr, hl, hst⟩, _, _⟩ :=
    C28_move_assign_backward fooElem heapFull ⟨some 0, 0⟩ ⟨some 0, 1⟩ [10, 20] hsrc hdst hge
  exact ⟨hsrc, hdst, hge, r, hr, hl 0 10 rfl, hl 1 20 rfl, hst rfl⟩

end BackwardClaims

section InsertEraseClaims
variable {T : Type}

theorem eraseIdx_insertAt (s : List T) (x : T) :
    ∀ i, i ≤ s.length → (s.take i ++ x :: s.drop i).eraseIdx i = s := by
  induction s with
  | nil =>
    intro i hi
    have : i = 0 := by simpa using hi
    subst this
    rfl
  | cons a s ih =>
    intro i hi
    cases i with
    | zero => rfl
    | succ i =>
      simp only [List.take_succ_cons, List.drop_succ_cons, List.cons_append,
        List.eraseIdx_cons_succ]
      rw [ih i (by simpa using hi)]

/-- C29: on a well-formed vector holding `s` (size `n`), `p = insert(begin()+i, x)` with
`i <= n` (either overload) followed by `erase(p)` returns with the vector holding
exactly `s` again, size `n`; the capacity is the old one when the vector had spare
capacity and has grown by one when it was full. -/
theorem C29_insert_erase (E : ElemType T) (h : Heap T) (v : vector) (s : List T)
    (i : Nat) (x : T) (O : Owns h v s) (hi : i ≤ s.length) :
    (∃ h1 v1 p, v.insert E h (v.begin_.add i) (Ref.ext x) = some (h1, v1, p) ∧
      ∃ h2 v2 q, v1.erase E h1 p = some (h2, v2, q) ∧
        v2.size = s.length ∧ Owns h2 v2 s ∧ v2.toList h2 = some s ∧
        (∀ j, j < v.size → v2.get h2 j = v.get h j) ∧
        (v.size < v.capacity → v2.capacity = v.capacity) ∧
        (v.size = v.capacity → v2.capacity = v.capacity + 1)) ∧
    (∃ h1 v1 p, v.insert_move E h (v.begin_.add i) (Ref.ext x) = some (h1, v1, p) ∧
      ∃ h2 v2 q, v1.erase E h1 p = some (h2, v2, q) ∧
        v2.size = s.length ∧ Owns h2 v2 s ∧ v2.toList h2 = some s ∧
        (∀ j, j < v.size → v2.get h2 j = v.get h j) ∧
        (v.size < v.capacity → v2.capacity = v.capacity) ∧
        (v.size = v.capacity → v2.capacity = v.capacity + 1)) := by
  have key : ∀ args : Arg T, Arg.Builds E args x →
      ∃ h1 v1 p, v.emplace E h (v.begin_.add i) args = some (h1, v1, p) ∧
        ∃ h2 v2 q, v1.erase E h1 p = some (h2, v2, q) ∧
          v2.size = s.length ∧ Owns h2 v2 s ∧ v2.toList h2 = some s ∧
          (∀ j, j < v.size → v2.get h2 j = v.get h j) ∧
          (v.size < v.capacity → v2.capacity = v.capacity) ∧
          (v.size = v.capacity → v2.capacity = v.capacity + 1) := by
    intro args hb
    obtain ⟨h1, v1, hs1, O1, hfull, hspare⟩ := vector.emplace_spec E O hi hb
    have hlen1 : (s.take i ++ x :: s.drop i).length = s.length + 1 := by
      simp only [List.length_append, List.length_take, List.length_cons, List.length_drop]
      omega
    obtain ⟨h2, hs2, _, O2⟩ := vector.erase_spec E O1 (i := i) (by rw [hlen1]; omega)
    rw [eraseIdx_insertAt s x i hi] at O2
    have hsz1 : v1.m_size = s.length + 1 := by rw [O1.size_eq, hlen1]
    refine ⟨h1, v1, _, by rw [vector.begin_add]; exact hs1, h2, _, _, hs2, ?_, O2,
      O2.toList_eq, ?_, fun hc => (hspare hc).1, fun hc => ?_⟩
    · show v1.m_size - 1 = s.length
      omega
    · intro j hj
      have hj' : j < v.m_size := hj
      rw [O2.get j (by show j < v1.m_size - 1; rw [hsz1, ← O.size_eq]; omega), O.get j hj']
    · have hc' : v.m_size = v.m_capacity := hc
      show v1.m_capacity = v.m_capacity + 1
      rw [hfull hc', hc']
  exact ⟨key _ (Arg.builds_copy E x), key _ (Arg.builds_move E x)⟩

/-- Witness of C29: inserting 7 at index 1 of `{10, 20, 30}` and erasing it again, once
at full capacity (the capacity grows from 3 to 4) and once with spare capacity. -/
theorem C29_insert_erase_witness :
    Owns heapFull vecFull [10, 20, 30] ∧ Owns heapSpare vecSpare [10, 20, 30] ∧
    1 ≤ ([10, 20, 30] : List Int).length ∧
    (∃ h1 v1 p, vecFull.insert fooElem heapFull (vecFull.begin_.add 1) (Ref.ext 7) =
        some (h1, v1, p) ∧
      ∃ h2 v2 q, v1.erase fooElem h1 p = some (h2, v2, q) ∧
        v2.toList h2 = some [10, 20, 30] ∧ v2.capacity = 4) ∧
    (∃ h1 v1 p, vecSpare.insert fooElem heapSpare (vecSpare.begin_.add 1) (Ref.ext 7) =
        some (h1, v1, p) ∧
      ∃ h2 v2 q, v1.erase fooElem h1 p = some (h2, v2, q) ∧
        v2.toList h2 = some [10, 20, 30] ∧ v2.capacity = 4) := by
  have O1 : Owns heapFull vecFull [10, 20, 30] :=
    Owns.of_toList (by decide) (by decide) rfl rfl
  have O2 : Owns heapSpare vecSpare [10, 20, 30] :=
    Owns.of_toList (by decide) (by decide) rfl rfl
  obtain ⟨⟨a1, b1, p1, hs1, a2, b2, q1, he1, _, _, hl1, _, _, hg1⟩, _⟩ :=
    C29_insert_erase fooElem heapFull vecFull [10, 20, 30] 1 7 O1 (by decide)
  obtain ⟨⟨c1, d1, p2, hs2, c2, d2, q2, he2, _, _, hl2, _, hk2, _⟩, _⟩ :=
    C29_insert_erase fooElem heapSpare vecSpare [10, 20, 30] 1 7 O2 (by decide)
  exact ⟨O1, O2, by decide, ⟨a1, b1, p1, hs1, a2, b2, q1, he1, hl1, hg1 rfl⟩,
    ⟨c1, d1, p2, hs2, c2, d2, q2, he2, hl2, hk2 (by decide)⟩⟩

end InsertEraseClaims

section AssignPathsClaims
variable {T : Type}

/-- C30: for every well-formed vector, every range that passes the external-range check
and holds the constructed objects `ws`, and any two element types `E1` and `E2` over
the same values (in particular `E1` trivially copyable, which selects the `memmove` path
of `_assign_range`, and `E2` not, which selects the element-wise path), both calls of
`assign` return, with the same size, the same capacity, the same data pointer and the
same elements `ws`; both allocate in exactly the same case, `newSize > capacity()`, and
then exactly once, and both release the old buffer in the same case. -/
theorem C30_assign_paths_agree (E1 E2 : ElemType T) (h : Heap T) (v : vector)
    (s ws : List T) (first : Ptr) (O : Owns h v s)
    (hsrc : ∀ k x, ws[k]? = some x → h.load (first.add k) = some x)
    (hchk : v.checkIteratorExternalRange first (first.add ws.length) = true) :
    ∃ r1 r2, v.assign E1 h first (first.add ws.length) = some r1 ∧
      v.assign E2 h first (first.add ws.length) = some r2 ∧
      r1.2.size = r2.2.size ∧ r1.2.capacity = r2.2.capacity ∧ r1.2.data = r2.2.data ∧
      r1.2.toList r1.1 = some ws ∧ r2.2.toList r2.1 = some ws ∧
      (∀ i, i < r1.2.size → r1.2.get r1.1 i = r2.2.get r2.1 i) ∧
      r1.1.stats.allocs = h.stats.allocs + (if v.capacity < ws.length then 1 else 0) ∧
      r2.1.stats.allocs = h.stats.allocs + (if v.capacity < ws.length then 1 else 0) ∧
      r1.1.stats.frees = r2.1.stats.frees := by
  have hsrc' : ∀ k x, ws[k]? = some x → h.cell? (first.add k) = some (Cell.live x) :=
    fun k x hx => Heap.load_eq_some.mp (hsrc k x hx)
  obtain ⟨h1, v1, hs1, O1, hc1, hd1, hst1, _, _⟩ := vector.assign_spec E1 O hsrc' hchk
  obtain ⟨h2, v2, hs2, O2, hc2, hd2, hst2, _, _⟩ := vector.assign_spec E2 O hsrc' hchk
  obtain ⟨ha1, hf1⟩ := vector.assignStats_allocs E1 v ws.length h.stats O.size_le
  obtain ⟨ha2, hf2⟩ := vector.assignStats_allocs E2 v ws.length h.stats O.size_le
  rw [← hst1] at ha1 hf1
  rw [← hst2] at ha2 hf2
  have hsz : v1.m_size = v2.m_size := by rw [O1.size_eq, O2.size_eq]
  refine ⟨(h1, v1), (h2, v2), hs1, hs2, hsz, by show v1.m_capacity = _; rw [hc1]; exact hc2.symm,
    by show v1.m_data = _; rw [hd1]; exact hd2.symm, O1.toList_eq, O2.toList_eq, ?_, ha1, ha2,
    by rw [hf1, hf2]⟩
  intro i hi
  have hi' : i < v1.m_size := hi
  rw [O1.get i hi', O2.get i (by rw [← hsz]; exact hi')]

/-- Witness of C30: Scenario D of the specification run with `int` (bulk path) and with
`Foo` (element-wise path). -/
theorem C30_assign_paths_agree_witness :
    Owns heapPair vecFiveB [1, 2, 3, 4, 5] ∧
    (∀ k x, ([10, 20] : List Int)[k]? = some x →
      heapPair.load (vecSpare.begin_.add k) = some x) ∧
    vecFiveB.checkIteratorExternalRange vecSpare.begin_
      (vecSpare.begin_.add ([10, 20] : List Int).length) = true ∧
    intElem.trivCopyable = true ∧ fooElem.trivCopyable = false ∧
    ∃ r1 r2, vecFiveB.assign intElem heapPair vecSpare.begin_ (vecSpare.begin_.add 2) =
        some r1 ∧
      vecFiveB.assign fooElem heapPair vecSpare.begin_ (vecSpare.begin_.add 2) = some r2 ∧
      r1.2.size = r2.2.size ∧ r1.2.capacity = r2.2.capacity ∧
      r1.2.toList r1.1 = some [10, 20] ∧ r2.2.toList r2.1 = some [10, 20] := by
  have O : Owns heapPair vecFiveB [1, 2, 3, 4, 5] :=
    Owns.of_toList (by decide) (by decide) rfl rfl
  have Ob : Owns heapPair vecSpare [10, 20, 30] :=
    Owns.of_toList (by decide) (by decide) rfl rfl
  have hsrc : ∀ k x, ([10, 20] : List Int)[k]? = some x →
      heapPair.load (vecSpare.begin_.add k) = some x := by
    intro k x hx
    rw [vector.begin_add]
    have hk : k < 2 := getElem?_lt_length hx
    exact Heap.load_eq_some.mpr (Ob.elems k x (by
      rw [← hx, List.getElem?_eq_getElem (by simp; omega),
        List.getElem?_eq_getElem (by simp; omega)]
      interval_cases k <;> rfl))
  obtain ⟨r1, r2, hs1, hs2, hsz, hcap, _, hl1, hl2, _⟩ :=
    C30_assign_paths_agree intElem fooElem heapPair vecFiveB [1, 2, 3, 4, 5] [10, 20]
      vecSpare.begin_ O hsrc rfl
  exact ⟨O, hsrc, rfl, rfl, rfl, r1, r2, hs1, hs2, hsz, hcap, hl1, hl2⟩

end AssignPathsClaims

section AliasBackLemmas
variable {T : Type}

theorem Heap.free_cell {h h' : Heap T} {b : Nat} (hf : h.free (some b) = some h')
    (o : Nat) : h'.cell? ⟨some b, o⟩ = none := by
  cases hb : h.block? b with
  | none => simp [Heap.free, hb] at hf
  | some blk =>
    have hs : h.slots? b = some blk.length := by simp [Heap.slots?, hb]
    obtain ⟨h'', hs'', _, _, _, hc⟩ := Heap.free_spec hs
    rw [hs''] at hf
    cases hf
    rw [hc]
    exact if_pos rfl

/-- After `_setCapacity` moved a buffer to a new allocation, no slot of the old buffer
exists any more: the old allocation is released. -/
theorem vector._setCapacity_releases {E : ElemType T} {h : Heap T} {v : vector} {c b : Nat}
    {r : Heap T × vector} (hr : v._setCapacity E h c = some r) (hc : c ≠ v.m_capacity)
    (hb : v.m_data = some b) (o : Nat) : r.1.cell? ⟨some b, o⟩ = none := by
  unfold vector._setCapacity at hr
  obtain ⟨_, _, hr⟩ := Option.bind_eq_some.mp hr
  rw [if_neg hc] at hr
  by_cases h0 : c = 0
  · rw [if_pos h0] at hr
    obtain ⟨h1, hf, hr⟩ := Option.bind_eq_some.mp hr
    cases hr
    rw [hb] at hf
    exact Heap.free_cell hf o
  · rw [if_neg h0] at hr
    simp only [Option.bind_eq_bind] at hr
    obtain ⟨h2, _, hr⟩ := Option.bind_eq_some.mp hr
    obtain ⟨h3, hf, hr⟩ := Option.bind_eq_some.mp hr
    cases hr
    rw [hb] at hf
    exact Heap.free_cell hf o

/-- The reallocating path of `emplace_back` with an argument that refers to an element of
the vector itself: `_setCapacity` releases the buffer the argument points into before
`_emplace_back_with_unused_capacity` reads it, so the call has no defined outcome. -/
theorem vector.emplace_back_alias_full (E : ElemType T) {h : Heap T} {v : vector}
    {s : List T} (O : Owns h v s) (hfull : v.m_size = v.m_capacity) {j : Nat}
    (hj : j < v.m_size) :
    v.emplace_back E h (Arg.copy (Ref.slot (v._ptrAt j))) = none ∧
    v.emplace_back E h (Arg.move (Ref.slot (v._ptrAt j))) = none := by
  obtain ⟨h', v', hs, _, _, _, _, _⟩ :=
    vector._setCapacity_spec E O (c := v.m_capacity + 1) (by omega)
  have hne : v.m_data ≠ none := by
    intro hn
    have := O.null_iff.mp hn
    omega
  obtain ⟨b, hb⟩ := Option.ne_none_iff_exists'.mp hne
  have hgone : h'.cell? (v._ptrAt j) = none := by
    have := vector._setCapacity_releases hs (by omega) hb j
    have e : v._ptrAt j = (⟨some b, j⟩ : Ptr) := by
      show (⟨v.m_data, j⟩ : Ptr) = _
      rw [hb]
    rw [e]
    exact this
  have hload : h'.load (v._ptrAt j) = none := by
    unfold Heap.load
    rw [hgone]
  constructor
  · simp [vector.emplace_back, hfull, hs, vector._emplace_back_with_unused_capacity,
      _constructSingle, Heap.evalArg, Heap.evalRef, hload]
  · simp [vector.emplace_back, hfull, hs, vector._emplace_back_with_unused_capacity,
      _constructSingle, Heap.evalArg, Heap.evalRef, hload]

end AliasBackLemmas

section AliasBackClaims

/-- C31: `push_back(v[1])` on the vector `{10, 20, 30}` at full capacity 3, for `Foo`
and for `int`.  The argument is the live element `v[1] == 20`; `emplace_back` first
calls `_setCapacity(4)`, after which no slot exists at the argument's address (the old
buffer was moved out of, destroyed and freed), and then constructs the new element from
that reference: the call has no defined outcome.  With spare capacity the same call
gives `{10, 20, 30, 20}`, and so does `insert(end(), v[1])` at full capacity, which
builds the new element before the old buffer is released. -/
theorem C31_push_back_alias_reads_freed :
    vecFull.size = vecFull.capacity ∧
    vecFull.index 1 = some (vecFull._ptrAt 1) ∧
    heapFull.load (vecFull._ptrAt 1) = some 20 ∧
    (∃ g, vecFull._setCapacity fooElem heapFull (vecFull.capacity + 1) = some g ∧
      g.1.cell? (vecFull._ptrAt 1) = none ∧ g.2.toList g.1 = some [10, 20, 30]) ∧
    vecFull.push_back fooElem heapFull (Ref.slot (vecFull._ptrAt 1)) = none ∧
    vecFull.push_back intElem heapFull (Ref.slot (vecFull._ptrAt 1)) = none ∧
    (∃ g, vecSpare.push_back fooElem heapSpare (Ref.slot (vecSpare._ptrAt 1)) = some g ∧
      g.2.toList g.1 = some [10, 20, 30, 20]) ∧
    (∃ g, vecFull.insert fooElem heapFull vecFull.end_ (Ref.slot (vecFull._ptrAt 1)) =
        some g ∧
      g.2.1.toList g.1 = some [10, 20, 30, 20]) := by
  refine ⟨rfl, rfl, rfl, exists_of_isSome rfl (fun g hg => ?_), rfl, rfl,
    exists_of_isSome rfl (fun g hg => ?_), exists_of_isSome rfl (fun g hg => ?_)⟩
  · have e : some g = _ := hg.symm
    cases e
    exact ⟨rfl, rfl⟩
  · have e : some g = _ := hg.symm
    cases e
    rfl
  · have e : some g = _ := hg.symm
    cases e
    rfl

end AliasBackClaims

section BackwardReturnLemmas
variable {T : Type}

/-- The pointer `_moveAssignBackwardRange(first, last, dest)` returns, path by path: the
`memmove` path returns `dest` as passed, the element-wise loop returns the decremented
`dest`, that is `dest - count`. -/
theorem _moveAssignBackwardRange_returns (E : ElemType T) (h : Heap T) (first d : Ptr)
    (n : Nat) (hsafe : d.base = first.base → first.off ≤ d.off)
    (hsrc : ∀ k, k < n → h.isLive (first.add k))
    (hdst : ∀ k, k < n → h.isLive (d.add k)) :
    ∃ r, _moveAssignBackwardRange E h first (first.add n) (d.add n) = some r ∧
      (E.trivMoveAssign = true → r.2 = d.add n) ∧
      (E.trivMoveAssign = false → r.2 = d) := by
  obtain ⟨h', hs, _⟩ := _moveAssignBackwardRange_spec E h first d n hsafe hsrc hdst
  refine ⟨_, hs, fun ht => ?_, fun ht => ?_⟩
  · show (if E.trivMoveAssign = true then d.add n else d) = _
    rw [if_pos ht]
  · show (if E.trivMoveAssign = true then d.add n else d) = _
    rw [if_neg (by rw [ht]; decide)]

/-- For a non-empty range the two paths of `_moveAssignBackwardRange` return different
pointers. -/
theorem _moveAssignBackwardRange_paths_differ (E1 E2 : ElemType T) (h : Heap T)
    (first d : Ptr) (n : Nat) (hn : 0 < n)
    (hsafe : d.base = first.base → first.off ≤ d.off)
    (hsrc : ∀ k, k < n → h.isLive (first.add k))
    (hdst : ∀ k, k < n → h.isLive (d.add k))
    (h1 : E1.trivMoveAssign = true) (h2 : E2.trivMoveAssign = false) :
    ∃ r1 r2, _moveAssignBackwardRange E1 h first (first.add n) (d.add n) = some r1 ∧
      _moveAssignBackwardRange E2 h first (first.add n) (d.add n) = some r2 ∧
      r1.2 = d.add n ∧ r2.2 = d ∧ r1.2 ≠ r2.2 := by
  obtain ⟨r1, hs1, ht1, _⟩ := _moveAssignBackwardRange_returns E1 h first d n hsafe hsrc hdst
  obtain ⟨r2, hs2, _, hf2⟩ := _moveAssignBackwardRange_returns E2 h first d n hsafe hsrc hdst
  refine ⟨r1, r2, hs1, hs2, ht1 h1, hf2 h2, ?_⟩
  rw [ht1 h1, hf2 h2]
  intro he
  have := congrArg Ptr.off he
  simp only [Ptr.add] at this
  omega

end BackwardReturnLemmas

section BackwardReturnClaims

/-- C32: `_moveAssignBackwardRange(first, last, dest)` on the buffer `{10, 20, 30}` with
`first` at slot 0, `last` at slot 2 and `dest` at slot 3.  Both paths leave `10, 20` in
slots 1 and 2, but the `memmove` path (`int`) returns `dest`, slot 3, and the
element-wise loop (`Foo`) returns `dest - count`, slot 1. -/
theorem C32_backward_return_differs :
    (∃ r, _moveAssignBackwardRange intElem heapFull ⟨some 0, 0⟩ ⟨some 0, 2⟩ ⟨some 0, 3⟩ =
        some r ∧
      r.2 = ⟨some 0, 3⟩ ∧ r.1.load ⟨some 0, 1⟩ = some 10 ∧ r.1.load ⟨some 0, 2⟩ = some 20) ∧
    (∃ r, _moveAssignBackwardRange fooElem heapFull ⟨some 0, 0⟩ ⟨some 0, 2⟩ ⟨some 0, 3⟩ =
        some r ∧
      r.2 = ⟨some 0, 1⟩ ∧ r.1.load ⟨some 0, 1⟩ = some 10 ∧ r.1.load ⟨some 0, 2⟩ = some 20) ∧
    (⟨some 0, 3⟩ : Ptr) ≠ ⟨some 0, 1⟩ := by
  refine ⟨exists_of_isSome rfl (fun r hr => ?_), exists_of_isSome rfl (fun r hr => ?_),
    by decide⟩
  · have e : some r = _ := hr.symm
    cases e
    exact ⟨rfl, rfl, rfl⟩
  · have e : some r = _ := hr.symm
    cases e
    exact ⟨rfl, rfl, rfl⟩

end BackwardReturnClaims

end cz
